import Mathlib

set_option maxHeartbeats 1000000

namespace GameSAT

/-! Shallow embedding of `baselines/MCTS/save_1/mct1.py`.

Machine integers of the source are modelled as `ℤ`/`ℕ` (numpy int arrays as
`List ℤ`), floating point vectors as `List ℝ` in exact real arithmetic, and
fallible numpy operations (out-of-bounds writes, failed `assert`s) as
`Option`-returning functions. -/

/-! ## Numeric utilities -/

/-- Write `v` at integer index `idx` of `l` with numpy indexing semantics: a
nonnegative index must be below the length, a negative index wraps once from
the end, and anything else is an IndexError (`none`). -/
def npSet (l : List ℤ) (idx v : ℤ) : Option (List ℤ) :=
  if 0 ≤ idx ∧ idx < (l.length : ℤ) then some (l.set idx.toNat v)
  else if -(l.length : ℤ) ≤ idx ∧ idx < 0 then some (l.set (idx + (l.length : ℤ)).toNat v)
  else none

/-- The scanning loop of `get_nrepeat_count` (mct1.py lines 26-32) over the
already-sorted action list: the state is the running index `i`, the current
run value `base`, the start index `start` of the current run, and the counts
vector being filled in. -/
def scanCounts : List ℤ → ℕ → ℤ → ℕ → List ℤ → Option (List ℤ × ℤ × ℕ)
  | [], _, base, start, counts => some (counts, base, start)
  | a :: rest, i, base, start, counts =>
    if base < a then
      match npSet counts base ((i : ℤ) - (start : ℤ)) with
      | some counts2 => scanCounts rest (i + 1) a i counts2
      | none => none
    else scanCounts rest (i + 1) base start counts

/-- mct1.py lines 22-34: sort the action array ascending and fill an
`nact`-sized counts vector by run-length scanning; the trailing
`counts[base] = action.shape[0] - start` write is performed after the loop.
`none` models a numpy IndexError escaping the function. -/
def get_nrepeat_count (action : List ℤ) (nact : ℕ) : Option (List ℤ) :=
  match scanCounts (action.insertionSort (· ≤ ·)) 0 0 0 (List.replicate nact 0) with
  | some (counts, base, start) =>
      npSet counts base (((action.insertionSort (· ≤ ·)).length : ℤ) - (start : ℤ))
  | none => none

/-- Elementwise division of a vector by its own sum: `counts / counts.sum()`. -/
noncomputable def normalizeL (l : List ℝ) : List ℝ := l.map (fun x => x / l.sum)

/-- Elementwise real power: `np.power(counts, p)` on a nonnegative vector. -/
noncomputable def npPowL (l : List ℝ) (p : ℝ) : List ℝ := l.map (fun x => x ^ p)

/-- The `while p >= 10` loop of `get_PI` (mct1.py lines 14-17), raising to the
10th power and renormalizing while dividing the remaining exponent by 10.
The fuel argument bounds the number of iterations; the loop body is entered
only while `10 ≤ p`, exactly as in the source. -/
noncomputable def get_PI_loop : ℕ → List ℝ → ℝ → List ℝ × ℝ
  | 0, c, p => (c, p)
  | fuel + 1, c, p =>
    if 10 ≤ p then get_PI_loop fuel (normalizeL (npPowL c 10)) (p / 10) else (c, p)

/-- mct1.py lines 10-20: `get_PI(counts, tau)`.  Any fuel at least
`Nat.log 10` of `1 / tau` makes the fueled loop agree with the source's
`while` loop; the computed distribution turns out to be independent of the
fuel altogether. -/
noncomputable def get_PI (counts : List ℝ) (tau : ℝ) (fuel : ℕ) : List ℝ :=
  let cp := get_PI_loop fuel (normalizeL counts) (1 / tau)
  normalizeL (npPowL cp.1 cp.2)

/-- Spec-side definition (for the refinement claim about `get_PI`): a single
exponentiation of the counts by `1 / tau` followed by one normalization. -/
noncomputable def get_PI_spec (counts : List ℝ) (tau : ℝ) : List ℝ :=
  normalizeL (npPowL counts (1 / tau))

/-! ## Lemmas about `npSet` and `List.getD` -/

theorem npSet_of_nonneg_lt {l : List ℤ} {idx : ℤ} (v : ℤ) (h0 : 0 ≤ idx)
    (h : idx < (l.length : ℤ)) : npSet l idx v = some (l.set idx.toNat v) := by
  unfold npSet
  rw [if_pos ⟨h0, h⟩]

theorem npSet_none_of_le {l : List ℤ} {idx : ℤ} (v : ℤ) (h0 : 0 ≤ idx)
    (h : (l.length : ℤ) ≤ idx) : npSet l idx v = none := by
  unfold npSet
  split_ifs with h1 h2
  · omega
  · omega
  · rfl

theorem npSet_isSome_lt {l : List ℤ} {idx v : ℤ} (h0 : 0 ≤ idx)
    (h : (npSet l idx v).isSome) : idx < (l.length : ℤ) := by
  by_contra hcon
  rw [npSet_none_of_le v h0 (by omega)] at h
  simp at h

theorem getD_set_self {l : List ℤ} {i : ℕ} (v : ℤ) (h : i < l.length) :
    (l.set i v).getD i 0 = v := by
  simp [List.getD_eq_getElem?_getD, List.getElem?_set, h]

theorem getD_set_ne {l : List ℤ} {i j : ℕ} (v : ℤ) (h : i ≠ j) :
    (l.set i v).getD j 0 = l.getD j 0 := by
  simp [List.getD_eq_getElem?_getD, List.getElem?_set, h]

theorem getD_replicate_zero {n a : ℕ} : (List.replicate n (0 : ℤ)).getD a 0 = 0 := by
  rw [List.getD_eq_getElem?_getD, List.getElem?_replicate]
  split <;> rfl

/-! ## Correctness of the scanning loop -/

/-- Invariant of the run-length scanning loop: having already processed `done`
(whose tail from position `start` on is the current run, all equal to `base`,
and whose elements before `start` are already counted and strictly below
`base`), processing a sorted `rest` of in-range elements succeeds and extends
the invariant to `done ++ rest`. -/
theorem scanCounts_spec {nact : ℕ} :
    ∀ rest : List ℤ, rest.Sorted (· ≤ ·) →
    ∀ (done counts : List ℤ) (base : ℤ) (start : ℕ),
    counts.length = nact →
    0 ≤ base → base < (nact : ℤ) →
    start ≤ done.length →
    (∀ x ∈ rest, base ≤ x ∧ x < (nact : ℤ)) →
    done.drop start = List.replicate (done.length - start) base →
    (∀ x ∈ done.take start, x < base) →
    (∀ a : ℕ, a < nact → counts.getD a 0 = (((done.take start).count (a : ℤ) : ℕ) : ℤ)) →
    ∃ counts2 base2 start2,
      scanCounts rest done.length base start counts = some (counts2, base2, start2) ∧
      counts2.length = nact ∧ 0 ≤ base2 ∧ base2 < (nact : ℤ) ∧
      start2 ≤ done.length + rest.length ∧
      (done ++ rest).drop start2 =
        List.replicate (done.length + rest.length - start2) base2 ∧
      (∀ x ∈ (done ++ rest).take start2, x < base2) ∧
      (∀ a : ℕ, a < nact →
        counts2.getD a 0 = ((((done ++ rest).take start2).count (a : ℤ) : ℕ) : ℤ)) := by
  intro rest
  induction rest with
  | nil =>
    intro _ done counts base start hlen hb0 hbn hsd _ hdrop htake hcount
    exact ⟨counts, base, start, rfl, hlen, hb0, hbn, by simpa using hsd,
      by simpa using hdrop, by simpa using htake, by simpa using hcount⟩
  | cons x rest ih =>
    intro hsort done counts base start hlen hb0 hbn hsd hmem hdrop htake hcount
    obtain ⟨hbx, hxn⟩ := hmem x (List.mem_cons_self _ _)
    rw [List.sorted_cons] at hsort
    obtain ⟨hxrest, hsort2⟩ := hsort
    by_cases hlt : base < x
    · -- a strictly larger element starts a new run: flush the current run
      have hblen : base < (counts.length : ℤ) := by rw [hlen]; exact hbn
      have hwrite := @npSet_of_nonneg_lt counts base
        ((done.length : ℤ) - (start : ℤ)) hb0 hblen
      have hdone_lt : ∀ y ∈ done, y < x := by
        intro y hy
        rw [← List.take_append_drop start done] at hy
        rcases List.mem_append.1 hy with h | h
        · exact lt_trans (htake y h) hlt
        · rw [hdrop] at h
          rw [List.eq_of_mem_replicate h]
          exact hlt
      have hx0 : 0 ≤ x := le_trans hb0 (le_of_lt hlt)
      have ihres := ih hsort2 (done ++ [x])
        (counts.set base.toNat ((done.length : ℤ) - (start : ℤ))) x done.length
        (by rw [List.length_set]; exact hlen) hx0 hxn
        (by simp)
        (fun y hy => ⟨hxrest y hy, (hmem y (List.mem_cons_of_mem _ hy)).2⟩)
        (by simp [List.drop_left])
        (by rw [List.take_left]; exact hdone_lt)
        ?_
      · obtain ⟨c2, b2, s2, hscan, hrest⟩ := ihres
        refine ⟨c2, b2, s2, ?_, ?_⟩
        · show scanCounts (x :: rest) done.length base start counts = _
          simp only [scanCounts, if_pos hlt, hwrite]
          rw [← hscan]
          congr 1
          simp
        · revert hrest
          have h1 : (done ++ [x]) ++ rest = done ++ x :: rest := by simp
          have h2 : (done ++ [x]).length + rest.length = done.length + (x :: rest).length := by
            simp; omega
          rw [h1, h2]
          exact id
      · -- the counts after flushing the run of `base`
        intro a ha
        rw [List.take_left]
        by_cases hab : (a : ℤ) = base
        · have haeq : a = base.toNat := by omega
          have hblen2 : base.toNat < counts.length := by omega
          rw [haeq, getD_set_self _ hblen2]
          have hsplit : (List.count (base : ℤ) done : ℕ)
              = List.count base (done.take start) + List.count base (done.drop start) := by
            conv_lhs => rw [← List.take_append_drop start done]
            rw [List.count_append]
          have htz : List.count base (done.take start) = 0 := by
            rw [List.count_eq_zero]
            intro hmem2
            exact absurd rfl (ne_of_lt (htake base hmem2))
          have hdz : List.count base (done.drop start) = done.length - start := by
            rw [hdrop, List.count_replicate]
            simp
          rw [Int.toNat_of_nonneg hb0, hsplit, htz, hdz]
          omega
        · have hane : base.toNat ≠ a := by omega
          rw [getD_set_ne _ hane, hcount a ha]
          have hsplit : (List.count ((a : ℕ) : ℤ) done : ℕ)
              = List.count (a : ℤ) (done.take start) + List.count (a : ℤ) (done.drop start) := by
            conv_lhs => rw [← List.take_append_drop start done]
            rw [List.count_append]
          have hdz : List.count (a : ℤ) (done.drop start) = 0 := by
            rw [hdrop, List.count_replicate]
            simp [hab]
            intro hcon
            exact absurd hcon.symm hab
          rw [hsplit, hdz]
          simp
    · -- the element continues the current run
      have hxb : x = base := le_antisymm (not_lt.1 hlt) hbx
      subst hxb
      have ihres := ih hsort2 (done ++ [x]) counts x start hlen hb0 hbn
        (by simp; omega)
        (fun y hy => ⟨hxrest y hy, (hmem y (List.mem_cons_of_mem _ hy)).2⟩)
        ?_ ?_ ?_
      · obtain ⟨c2, b2, s2, hscan, hrest⟩ := ihres
        refine ⟨c2, b2, s2, ?_, ?_⟩
        · show scanCounts (x :: rest) done.length x start counts = _
          simp only [scanCounts, lt_irrefl, if_neg (lt_irrefl x)]
          rw [← hscan]
          simp
        · revert hrest
          have h1 : (done ++ [x]) ++ rest = done ++ x :: rest := by simp
          have h2 : (done ++ [x]).length + rest.length = done.length + (x :: rest).length := by
            simp; omega
          rw [h1, h2]
          exact id
      · -- the run invariant extends by one element
        rw [List.drop_append_eq_append_drop]
        have h0 : start - done.length = 0 := by omega
        have h1 : (done ++ [x]).length - start = (done.length - start) + 1 := by
          simp; omega
        rw [h0, h1, hdrop, List.replicate_succ']
        simp
      · rw [List.take_append_eq_append_take]
        have h0 : start - done.length = 0 := by omega
        rw [h0]
        simpa using htake
      · intro a ha
        rw [List.take_append_eq_append_take]
        have h0 : start - done.length = 0 := by omega
        rw [h0]
        simpa using hcount a ha

/-- A list of integers sums to the sum of its `getD` values over its range. -/
theorem sum_eq_sum_range_getD (l : List ℤ) :
    l.sum = ∑ a ∈ Finset.range l.length, l.getD a 0 := by
  induction l with
  | nil => simp
  | cons x xs ih =>
    rw [List.sum_cons, List.length_cons, Finset.sum_range_succ']
    simp only [List.getD_cons_succ, List.getD_cons_zero]
    rw [← ih]
    ring

/-- Summing the occurrence counts of `0 .. nact-1` over a list whose elements
all lie in `[0, nact)` recovers the list's length. -/
theorem sum_count_eq_length {nact : ℕ} :
    ∀ l : List ℤ, (∀ x ∈ l, 0 ≤ x ∧ x < (nact : ℤ)) →
    (∑ a ∈ Finset.range nact, ((l.count (a : ℤ) : ℕ) : ℤ)) = (l.length : ℤ) := by
  intro l
  induction l with
  | nil => simp
  | cons x xs ih =>
    intro hmem
    obtain ⟨hx0, hxn⟩ := hmem x (List.mem_cons_self _ _)
    have hxs := ih (fun y hy => hmem y (List.mem_cons_of_mem _ hy))
    have hsplit : ∀ a : ℕ, (((x :: xs).count (a : ℤ) : ℕ) : ℤ)
        = ((xs.count (a : ℤ) : ℕ) : ℤ) + (if (a : ℕ) = x.toNat then 1 else 0) := by
      intro a
      rw [List.count_cons]
      rcases eq_or_ne x ((a : ℕ) : ℤ) with h | h
      · subst h
        simp only [beq_self_eq_true, if_true, Int.toNat_natCast, if_pos rfl]
        push_cast
        ring
      · have h2 : (a : ℕ) ≠ x.toNat := by omega
        have h3 : (x == ((a : ℕ) : ℤ)) = false := by simp [h]
        rw [h3]
        simp [h2]
    calc (∑ a ∈ Finset.range nact, (((x :: xs).count (a : ℤ) : ℕ) : ℤ))
        = (∑ a ∈ Finset.range nact, (((xs.count (a : ℤ) : ℕ) : ℤ)
            + if (a : ℕ) = x.toNat then 1 else 0)) := by
          exact Finset.sum_congr rfl (fun a _ => hsplit a)
      _ = (xs.length : ℤ) + (if x.toNat ∈ Finset.range nact then 1 else 0) := by
          rw [Finset.sum_add_distrib, hxs, Finset.sum_ite_eq' (Finset.range nact) x.toNat
            (fun _ => (1 : ℤ))]
      _ = ((x :: xs).length : ℤ) := by
          have : x.toNat ∈ Finset.range nact := by
            rw [Finset.mem_range]
            omega
          rw [if_pos this, List.length_cons]
          push_cast
          omega

/-- Full functional correctness of `get_nrepeat_count` on a positive-size
action space with in-range entries. -/
theorem get_nrepeat_count_spec (action : List ℤ) (nact : ℕ) (hn : 1 ≤ nact)
    (hmem : ∀ x ∈ action, 0 ≤ x ∧ x < (nact : ℤ)) :
    ∃ v, get_nrepeat_count action nact = some v ∧ v.length = nact ∧
      (∀ a : ℕ, a < nact → v.getD a 0 = ((action.count (a : ℤ) : ℕ) : ℤ)) ∧
      v.sum = (action.length : ℤ) := by
  have hperm := List.perm_insertionSort (· ≤ ·) action
  have hsort := List.sorted_insertionSort (· ≤ ·) action
  have hmem_s : ∀ x ∈ action.insertionSort (· ≤ ·), 0 ≤ x ∧ x < (nact : ℤ) :=
    fun x hx => hmem x (hperm.mem_iff.1 hx)
  obtain ⟨c2, b2, s2, hscan, hlen2, hb20, hb2n, hs2, hdrop2, htake2, hcnt2⟩ :=
    scanCounts_spec (action.insertionSort (· ≤ ·)) hsort [] (List.replicate nact 0) 0 0
      (List.length_replicate _ _) le_rfl (by exact_mod_cast hn) (by simp)
      (fun x hx => hmem_s x hx) (by simp) (by simp)
      (fun a _ => by simp [getD_replicate_zero])
  simp only [List.length_nil, List.nil_append, Nat.zero_add] at hscan hs2 hdrop2 htake2 hcnt2
  have hble : b2 < (c2.length : ℤ) := by rw [hlen2]; exact hb2n
  have hwrite := @npSet_of_nonneg_lt c2 b2
    (((action.insertionSort (· ≤ ·)).length : ℤ) - (s2 : ℤ)) hb20 hble
  have hgetD : ∀ a : ℕ, a < nact →
      (c2.set b2.toNat (((action.insertionSort (· ≤ ·)).length : ℤ) - (s2 : ℤ))).getD a 0
        = (((action.insertionSort (· ≤ ·)).count (a : ℤ) : ℕ) : ℤ) := by
    intro a ha
    have hsplit : (List.count ((a : ℕ) : ℤ) (action.insertionSort (· ≤ ·)) : ℕ)
        = List.count (a : ℤ) ((action.insertionSort (· ≤ ·)).take s2)
          + List.count (a : ℤ) ((action.insertionSort (· ≤ ·)).drop s2) := by
      conv_lhs => rw [← List.take_append_drop s2 (action.insertionSort (· ≤ ·))]
      rw [List.count_append]
    by_cases hab : (a : ℤ) = b2
    · have haeq : a = b2.toNat := by omega
      have hblen2 : b2.toNat < c2.length := by omega
      rw [haeq, getD_set_self _ hblen2]
      have htz : List.count b2 ((action.insertionSort (· ≤ ·)).take s2) = 0 := by
        rw [List.count_eq_zero]
        intro hmem2
        exact absurd rfl (ne_of_lt (htake2 b2 hmem2))
      have hdz : List.count b2 ((action.insertionSort (· ≤ ·)).drop s2)
          = (action.insertionSort (· ≤ ·)).length - s2 := by
        rw [hdrop2, List.count_replicate]
        simp
      rw [hab] at hsplit
      rw [Int.toNat_of_nonneg hb20, hsplit, htz, hdz]
      omega
    · have hane : b2.toNat ≠ a := by omega
      rw [getD_set_ne _ hane, hcnt2 a ha]
      have hdz : List.count (a : ℤ) ((action.insertionSort (· ≤ ·)).drop s2) = 0 := by
        rw [hdrop2, List.count_replicate]
        simp
        intro hcon
        exact absurd hcon.symm hab
      rw [hsplit, hdz]
      simp
  refine ⟨c2.set b2.toNat (((action.insertionSort (· ≤ ·)).length : ℤ) - (s2 : ℤ)),
    ?_, ?_, ?_, ?_⟩
  · unfold get_nrepeat_count
    rw [hscan]
    exact hwrite
  · rw [List.length_set]; exact hlen2
  · intro a ha
    rw [hgetD a ha, (hperm.count_eq (a : ℤ))]
  · rw [sum_eq_sum_range_getD, List.length_set, hlen2]
    have := Finset.sum_congr rfl
      (fun a (ha : a ∈ Finset.range nact) => hgetD a (Finset.mem_range.1 ha))
    rw [this, sum_count_eq_length _ hmem_s, hperm.length_eq]

/-! ## Totality boundary of `get_nrepeat_count` -/

theorem npSet_some_length {l l2 : List ℤ} {idx v : ℤ} (h : npSet l idx v = some l2) :
    l2.length = l.length := by
  unfold npSet at h
  split_ifs at h
  · injection h with h
    subst h
    exact List.length_set _ _ _
  · injection h with h
    subst h
    exact List.length_set _ _ _

/-- Without any nonnegativity assumption the scanning loop succeeds whenever
every remaining element is below `nact`, keeping `base` inside `[0, nact)`:
negative action entries never become a write index. -/
theorem scanCounts_total {nact : ℕ} :
    ∀ (rest counts : List ℤ) (i : ℕ) (base : ℤ) (start : ℕ),
    counts.length = nact → 0 ≤ base → base < (nact : ℤ) →
    (∀ x ∈ rest, x < (nact : ℤ)) →
    ∃ c2 b2 s2, scanCounts rest i base start counts = some (c2, b2, s2) ∧
      c2.length = nact ∧ 0 ≤ b2 ∧ b2 < (nact : ℤ) := by
  intro rest
  induction rest with
  | nil =>
    intro counts i base start h1 h2 h3 _
    exact ⟨counts, base, start, rfl, h1, h2, h3⟩
  | cons x rest ih =>
    intro counts i base start h1 h2 h3 hmem
    by_cases hlt : base < x
    · have hwrite := @npSet_of_nonneg_lt counts base
        ((i : ℤ) - (start : ℤ)) h2 (by rw [h1]; exact h3)
      obtain ⟨c2, b2, s2, hscan, hrest⟩ := ih
        (counts.set base.toNat ((i : ℤ) - (start : ℤ))) (i + 1) x i
        (by rw [List.length_set]; exact h1) (by omega) (hmem x (List.mem_cons_self _ _))
        (fun y hy => hmem y (List.mem_cons_of_mem _ hy))
      exact ⟨c2, b2, s2, by simp only [scanCounts, if_pos hlt, hwrite]; exact hscan, hrest⟩
    · obtain ⟨c2, b2, s2, hscan, hrest⟩ := ih counts (i + 1) base start h1 h2 h3
        (fun y hy => hmem y (List.mem_cons_of_mem _ hy))
      exact ⟨c2, b2, s2, by simp only [scanCounts, if_neg hlt]; exact hscan, hrest⟩

/-- When the scanning loop succeeds, the final `base` dominates the initial
`base` and every processed element, and the counts keep their length. -/
theorem scanCounts_le :
    ∀ (rest counts : List ℤ) (i : ℕ) (base : ℤ) (start : ℕ) (c2 : List ℤ) (b2 : ℤ) (s2 : ℕ),
    scanCounts rest i base start counts = some (c2, b2, s2) →
    base ≤ b2 ∧ (∀ x ∈ rest, x ≤ b2) ∧ c2.length = counts.length := by
  intro rest
  induction rest with
  | nil =>
    intro counts i base start c2 b2 s2 h
    simp only [scanCounts, Option.some.injEq, Prod.mk.injEq] at h
    obtain ⟨h1, h2, h3⟩ := h
    subst h1
    subst h2
    exact ⟨le_rfl, by simp, rfl⟩
  | cons x rest ih =>
    intro counts i base start c2 b2 s2 h
    by_cases hlt : base < x
    · rcases hnp : npSet counts base ((i : ℤ) - (start : ℤ)) with _ | c3
      · simp only [scanCounts, if_pos hlt, hnp] at h
        exact Option.noConfusion h
      · simp only [scanCounts, if_pos hlt, hnp] at h
        obtain ⟨hxb, hall, hlen⟩ := ih c3 (i + 1) x i c2 b2 s2 h
        refine ⟨le_of_lt (lt_of_lt_of_le hlt hxb), ?_, hlen.trans (npSet_some_length hnp)⟩
        intro y hy
        rcases List.mem_cons.1 hy with rfl | hy2
        · exact hxb
        · exact hall y hy2
    · simp only [scanCounts, if_neg hlt] at h
      obtain ⟨hxb, hall, hlen⟩ := ih counts (i + 1) base start c2 b2 s2 h
      refine ⟨hxb, ?_, hlen⟩
      intro y hy
      rcases List.mem_cons.1 hy with rfl | hy2
      · exact le_trans (not_lt.1 hlt) hxb
      · exact hall y hy2

theorem get_nrepeat_count_nil {nact : ℕ} (hn : 1 ≤ nact) :
    get_nrepeat_count [] nact = some (List.replicate nact 0) := by
  unfold get_nrepeat_count
  simp only [List.insertionSort, scanCounts]
  have h := @npSet_of_nonneg_lt (List.replicate nact (0 : ℤ)) 0
    (((List.nil (α := ℤ)).length : ℤ) - ((0 : ℕ) : ℤ)) le_rfl (by simp; omega)
  rw [h]
  congr 1
  cases nact with
  | zero => omega
  | succ n => simp [List.replicate_succ]

/-- Amended claim C10: `get_nrepeat_count` returns normally exactly when the
action space is nonempty and every entry is below `nact`; negative entries do
not make it fail (the running `base` never becomes negative), while `nact = 0`
always fails (the trailing write is out of bounds even on empty input).  Under
the precondition, the empty input yields the all-zero vector. -/
theorem get_nrepeat_count_total_iff (action : List ℤ) (nact : ℕ) :
    ((get_nrepeat_count action nact).isSome ↔ 1 ≤ nact ∧ ∀ x ∈ action, x < (nact : ℤ))
    ∧ (1 ≤ nact → get_nrepeat_count [] nact = some (List.replicate nact 0)) := by
  constructor
  · constructor
    · intro h
      unfold get_nrepeat_count at h
      rcases hscan : scanCounts (action.insertionSort (· ≤ ·)) 0 0 0 (List.replicate nact 0)
        with _ | ⟨c2, b2, s2⟩
      · rw [hscan] at h
        simp at h
      · rw [hscan] at h
        obtain ⟨hb, hall, hlen⟩ := scanCounts_le _ _ _ _ _ _ _ _ hscan
        have hblt : b2 < (c2.length : ℤ) := npSet_isSome_lt hb h
        rw [hlen, List.length_replicate] at hblt
        refine ⟨by omega, ?_⟩
        intro x hx
        have hmem : x ∈ action.insertionSort (· ≤ ·) :=
          (List.perm_insertionSort (· ≤ ·) action).mem_iff.2 hx
        exact lt_of_le_of_lt (hall x hmem) hblt
    · rintro ⟨hn, hmem⟩
      unfold get_nrepeat_count
      obtain ⟨c2, b2, s2, hscan, hlen, hb0, hbn⟩ :=
        @scanCounts_total nact (action.insertionSort (· ≤ ·))
          (List.replicate nact 0) 0 0 0
          (List.length_replicate _ _) le_rfl (by exact_mod_cast hn)
          (fun x hx => hmem x ((List.perm_insertionSort (· ≤ ·) action).mem_iff.1 hx))
      rw [hscan]
      show (npSet c2 b2 (((action.insertionSort (· ≤ ·)).length : ℤ) - ((s2 : ℕ) : ℤ))).isSome
        = true
      rw [@npSet_of_nonneg_lt c2 b2
        (((action.insertionSort (· ≤ ·)).length : ℤ) - ((s2 : ℕ) : ℤ)) hb0
        (by rw [hlen]; exact hbn)]
      simp
  · exact fun hn => get_nrepeat_count_nil hn

/-! ## Exact-arithmetic properties of `get_PI` -/

theorem sum_map_div (l : List ℝ) (s : ℝ) : (l.map (fun x => x / s)).sum = l.sum / s := by
  simp [div_eq_mul_inv, List.sum_map_mul_right]

theorem normalizeL_sum {l : List ℝ} (h : l.sum ≠ 0) : (normalizeL l).sum = 1 := by
  rw [normalizeL, sum_map_div, div_self h]

theorem normalizeL_nonneg {l : List ℝ} (hl : ∀ x ∈ l, 0 ≤ x) :
    ∀ x ∈ normalizeL l, 0 ≤ x := by
  intro x hx
  rw [normalizeL, List.mem_map] at hx
  obtain ⟨y, hy, rfl⟩ := hx
  have hsum : 0 ≤ l.sum := List.sum_nonneg hl
  exact div_nonneg (hl y hy) hsum

theorem npPowL_nonneg {l : List ℝ} (hl : ∀ x ∈ l, 0 ≤ x) (p : ℝ) :
    ∀ x ∈ npPowL l p, 0 ≤ x := by
  intro x hx
  rw [npPowL, List.mem_map] at hx
  obtain ⟨y, hy, rfl⟩ := hx
  exact Real.rpow_nonneg (hl y hy) p

theorem npPowL_sum_pos {l : List ℝ} (hl : ∀ x ∈ l, 0 ≤ x) (hsum : 0 < l.sum) (p : ℝ) :
    0 < (npPowL l p).sum := by
  have hex : ∃ x ∈ l, 0 < x := by
    by_contra hcon
    push_neg at hcon
    have hz : l.sum = 0 := List.sum_eq_zero (fun x hx => le_antisymm (hcon x hx) (hl x hx))
    rw [hz] at hsum
    exact lt_irrefl 0 hsum
  obtain ⟨x, hx, hxpos⟩ := hex
  have hmem : x ^ p ∈ npPowL l p := List.mem_map.2 ⟨x, hx, rfl⟩
  have hpos : 0 < x ^ p := Real.rpow_pos_of_pos hxpos p
  exact lt_of_lt_of_le hpos (List.single_le_sum (npPowL_nonneg hl p) _ hmem)

theorem npPowL_map_div {l : List ℝ} (hl : ∀ x ∈ l, 0 ≤ x) {s : ℝ} (hs : 0 ≤ s) (p : ℝ) :
    npPowL (l.map (fun x => x / s)) p = (npPowL l p).map (fun x => x / s ^ p) := by
  rw [npPowL, npPowL, List.map_map, List.map_map]
  apply List.map_congr_left
  intro x hx
  exact Real.div_rpow (hl x hx) hs p

theorem npPowL_npPowL {l : List ℝ} (hl : ∀ x ∈ l, 0 ≤ x) (a b : ℝ) :
    npPowL (npPowL l a) b = npPowL l (a * b) := by
  rw [npPowL, npPowL, npPowL, List.map_map]
  apply List.map_congr_left
  intro x hx
  exact (Real.rpow_mul (hl x hx) a b).symm

theorem normalizeL_map_div (l : List ℝ) {c : ℝ} (hc : c ≠ 0) :
    normalizeL (l.map (fun x => x / c)) = normalizeL l := by
  rw [normalizeL, normalizeL, sum_map_div, List.map_map]
  apply List.map_congr_left
  intro x _
  show x / c / (l.sum / c) = x / l.sum
  rcases eq_or_ne l.sum 0 with hz | hz
  · rw [hz, zero_div, div_zero, div_zero]
  · field_simp

/-- The raise-to-the-10th-and-renormalize loop preserves the final normalized
power distribution, whatever the fuel: renormalization commutes with powering
in exact arithmetic. -/
theorem get_PI_loop_spec :
    ∀ (fuel : ℕ) (c : List ℝ) (p : ℝ), (∀ x ∈ c, 0 ≤ x) → 0 < c.sum →
    normalizeL (npPowL (get_PI_loop fuel c p).1 (get_PI_loop fuel c p).2)
      = normalizeL (npPowL c p) := by
  intro fuel
  induction fuel with
  | zero => intro c p _ _; rfl
  | succ fuel ih =>
    intro c p hc hsum
    by_cases hp : (10 : ℝ) ≤ p
    · have hS : 0 < (npPowL c 10).sum := npPowL_sum_pos hc hsum 10
      have hc2 : ∀ x ∈ normalizeL (npPowL c 10), 0 ≤ x :=
        normalizeL_nonneg (npPowL_nonneg hc 10)
      have hsum2 : 0 < (normalizeL (npPowL c 10)).sum := by
        rw [normalizeL_sum (ne_of_gt hS)]
        exact one_pos
      have hstep : get_PI_loop (fuel + 1) c p
          = get_PI_loop fuel (normalizeL (npPowL c 10)) (p / 10) := by
        simp only [get_PI_loop, if_pos hp]
      rw [hstep, ih _ _ hc2 hsum2]
      have h1 : npPowL (normalizeL (npPowL c 10)) (p / 10)
          = (npPowL (npPowL c 10) (p / 10)).map
              (fun x => x / ((npPowL c 10).sum) ^ (p / 10)) := by
        rw [normalizeL]
        exact npPowL_map_div (npPowL_nonneg hc 10) (le_of_lt hS) (p / 10)
      rw [h1, normalizeL_map_div _ (ne_of_gt (Real.rpow_pos_of_pos hS (p / 10))),
        npPowL_npPowL hc 10 (p / 10)]
      have h2 : (10 : ℝ) * (p / 10) = p := by
        rw [mul_comm, div_mul_cancel₀]
        norm_num
      rw [h2]
    · simp only [get_PI_loop, if_neg hp]

/-- For every nonnegative counts vector with positive sum and every positive
temperature, `get_PI` (iterated bounded exponentiation with renormalization,
then a final exponentiation and normalization) computes exactly the single
exponentiation by `1 / tau` followed by normalization; the result sums to `1`
and is proportional to `counts ^ (1 / tau)` with a positive factor. -/
theorem get_PI_eq_spec (counts : List ℝ) (tau : ℝ) (fuel : ℕ)
    (hc : ∀ x ∈ counts, 0 ≤ x) (hsum : 0 < counts.sum) (htau : 0 < tau) :
    get_PI counts tau fuel = get_PI_spec counts tau
    ∧ (get_PI counts tau fuel).sum = 1
    ∧ ∃ k : ℝ, 0 < k ∧
        get_PI counts tau fuel = (npPowL counts (1 / tau)).map (fun x => k * x) := by
  have hcn : ∀ x ∈ normalizeL counts, 0 ≤ x := normalizeL_nonneg hc
  have hsn : 0 < (normalizeL counts).sum := by
    rw [normalizeL_sum (ne_of_gt hsum)]
    exact one_pos
  have hmain : get_PI counts tau fuel = get_PI_spec counts tau := by
    show normalizeL (npPowL (get_PI_loop fuel (normalizeL counts) (1 / tau)).1
        (get_PI_loop fuel (normalizeL counts) (1 / tau)).2) = _
    rw [get_PI_loop_spec fuel (normalizeL counts) (1 / tau) hcn hsn, get_PI_spec]
    have h1 : npPowL (normalizeL counts) (1 / tau)
        = (npPowL counts (1 / tau)).map (fun x => x / (counts.sum) ^ (1 / tau)) := by
      rw [normalizeL]
      exact npPowL_map_div hc (le_of_lt hsum) (1 / tau)
    rw [h1, normalizeL_map_div _ (ne_of_gt (Real.rpow_pos_of_pos hsum (1 / tau)))]
  have hPsum : 0 < (npPowL counts (1 / tau)).sum := npPowL_sum_pos hc hsum (1 / tau)
  refine ⟨hmain, ?_, ?_⟩
  · rw [hmain, get_PI_spec, normalizeL_sum (ne_of_gt hPsum)]
  · refine ⟨((npPowL counts (1 / tau)).sum)⁻¹, inv_pos.2 hPsum, ?_⟩
    rw [hmain, get_PI_spec, normalizeL]
    apply List.map_congr_left
    intro x _
    rw [div_eq_mul_inv, mul_comm]

/-! ## The Pi_struct tree -/

/-- An environment observation as cached by `add_state`: the derived validity
mask (`np.any(state, axis = 0)` reshaped to the action-space size) together
with an opaque payload standing for the sparse flattened state matrix. -/
structure Obs where
  mask : List Bool
  payload : ℕ
deriving DecidableEq

/-- mct1.py lines 49-71: one node of the `Pi_struct` policy tree.  `children`
is the insertion-ordered dict, `next` the exploration cursor, `evaluated` the
expansion flag; `rpt` is the source's `repeat`.  The parent pointer of the
source is represented positionally: operations that climb to the parent act
on a root-to-node path (`setNextGo`).  The float vector `self.Pi` is not a
separate field: it is determined by the stored visit `counts`, the level and
the temperature schedule (see `PiVal`), which keeps the tree dynamics exactly
computable. -/
inductive Pi_struct where
  | mk (size : ℕ) (rpt : ℤ) (level : ℕ) (file_no : ℕ) (tauF : ℕ → ℝ)
      (next : ℕ) (score : ℤ) (evaluated : Bool) (isValid : List Bool)
      (nrepeats : List ℤ) (counts : List ℤ) (stateP : Option Obs)
      (children : List (ℕ × Pi_struct))

namespace Pi_struct

def size : Pi_struct → ℕ
  | .mk v _ _ _ _ _ _ _ _ _ _ _ _ => v

def rpt : Pi_struct → ℤ
  | .mk _ v _ _ _ _ _ _ _ _ _ _ _ => v

def level : Pi_struct → ℕ
  | .mk _ _ v _ _ _ _ _ _ _ _ _ _ => v

def file_no : Pi_struct → ℕ
  | .mk _ _ _ v _ _ _ _ _ _ _ _ _ => v

def tauF : Pi_struct → (ℕ → ℝ)
  | .mk _ _ _ _ v _ _ _ _ _ _ _ _ => v

def next : Pi_struct → ℕ
  | .mk _ _ _ _ _ v _ _ _ _ _ _ _ => v

def score : Pi_struct → ℤ
  | .mk _ _ _ _ _ _ v _ _ _ _ _ _ => v

def evaluated : Pi_struct → Bool
  | .mk _ _ _ _ _ _ _ v _ _ _ _ _ => v

def isValid : Pi_struct → List Bool
  | .mk _ _ _ _ _ _ _ _ v _ _ _ _ => v

def nrepeats : Pi_struct → List ℤ
  | .mk _ _ _ _ _ _ _ _ _ v _ _ _ => v

def counts : Pi_struct → List ℤ
  | .mk _ _ _ _ _ _ _ _ _ _ v _ _ => v

def stateP : Pi_struct → Option Obs
  | .mk _ _ _ _ _ _ _ _ _ _ _ v _ => v

def children : Pi_struct → List (ℕ × Pi_struct)
  | .mk _ _ _ _ _ _ _ _ _ _ _ _ v => v

/-- mct1.py lines 53-71: the constructor `Pi_struct.__init__`. -/
def init (size : ℕ) (rpt : ℤ) (level : ℕ) (file_no : ℕ) (tauF : ℕ → ℝ) : Pi_struct :=
  .mk size rpt level file_no tauF 0 0 false [] [] [] none []

def withNext : Pi_struct → ℕ → Pi_struct
  | .mk a b c d e _ g h i j k l m, n => .mk a b c d e n g h i j k l m

def addScore : Pi_struct → ℤ → Pi_struct
  | .mk a b c d e f g h i j k l m, s => .mk a b c d e f (g + s) h i j k l m

def withStateObs : Pi_struct → Obs → Pi_struct
  | .mk a b c d e f g h _ j k _ m, o => .mk a b c d e f g h o.mask j k (some o) m

def evalWith : Pi_struct → List ℤ → List ℤ → List (ℕ × Pi_struct) → Pi_struct
  | .mk a b c d e f g _ i _ _ l _, cn, nr, ch => .mk a b c d e f g true i nr cn l ch

def withChildren : Pi_struct → List (ℕ × Pi_struct) → Pi_struct
  | .mk a b c d e f g h i j k l _, ch => .mk a b c d e f g h i j k l ch

/-- mct1.py lines 73-79: `add_state` caches the observation and derives the
validity mask; the `np.reshape` to `[size]` fails unless the mask has exactly
`size` entries. -/
def add_state (t : Pi_struct) (o : Obs) : Option Pi_struct :=
  if o.mask.length = t.size then some (t.withStateObs o) else none

/-- Elementwise masked sum `(l * mask).sum()` of numpy. -/
def maskedSum (l : List ℤ) (m : List Bool) : ℤ :=
  ((l.zip m).map (fun p => if p.2 then p.1 else 0)).sum

/-- mct1.py lines 81-102: `add_counts`.  The randomness of `np.random.choice`
is supplied externally as the sampled `action` list.  A failed `assert`, or an
IndexError escaping `get_nrepeat_count`, is `none`.  The second source
assert, `(isValid * Pi).sum() > 0.999999`, is modelled in exact arithmetic:
by `get_PI_eq_spec` the policy is the normalized `counts ^ (1/tau)`, whose
mass on the valid actions is exactly `1` (`> 0.999999`) whenever the counts
are nonnegative, concentrated on the valid actions (the first assert) and of
positive sum, and whose entries are all zero (failing the assert) when the
counts sum to zero; hence the check `0 < counts.sum` with nonneg entries. -/
def add_counts (t : Pi_struct) (counts action : List ℤ) : Option Pi_struct :=
  if counts.sum ≠ maskedSum counts t.isValid then none
  else if ¬(0 < counts.sum ∧ ∀ x ∈ counts, 0 ≤ x) then none
  else
    (get_nrepeat_count action t.size).bind (fun nreps =>
      if maskedSum nreps t.isValid ≠ t.rpt then none
      else some (t.evalWith counts nreps ((List.range t.size).filterMap
        (fun i => if 1 ≤ nreps.getD i 0
          then some (i, Pi_struct.init t.size (nreps.getD i 0) (t.level + 1) t.file_no t.tauF)
          else none))))

/-- The `while` loop of `get_next` (mct1.py line 108): advance the cursor
while it points at an action with repeat count below 0.5 or an invalid
action.  The fuel `size - next` is exactly the maximal number of
iterations. -/
def get_nextAux : ℕ → Pi_struct → Pi_struct
  | 0, t => t
  | fuel + 1, t =>
    if t.next < t.size ∧ (t.nrepeats.getD t.next 0 < 1 ∨ t.isValid.getD t.next false = false)
    then get_nextAux fuel (t.withNext (t.next + 1))
    else t

/-- mct1.py lines 104-112: `get_next` returns the next exploration index, or
`-1` when the cursor reaches the end of the action space, together with the
mutated node. -/
def get_next (t : Pi_struct) : ℤ × Pi_struct :=
  let t2 := get_nextAux (t.size - t.next) t
  (if t2.size ≤ t2.next then -1 else (t2.next : ℤ), t2)

/-- One stack frame of `set_next` (mct1.py lines 114-125) on the node itself:
add the score, bump the cursor, call `get_next` (twice, as the source does);
`Sum.inr` signals that the node is exhausted and the parent must continue
with this node's total score. -/
def setNextLocal (t : Pi_struct) (additional_score : ℤ) : (ℤ ⊕ ℤ) × Pi_struct :=
  let t1 := (t.addScore additional_score).withNext (t.next + 1)
  let r1 := get_next t1
  let r2 := get_next r1.2
  if r2.1 < 0 then (Sum.inr r2.2.score, r2.2) else (Sum.inl r1.1, r2.2)

/-- Python dict read `children[act]` (the driver only reads keys that are
present; the default is irrelevant junk standing for a KeyError). -/
def childGet (t : Pi_struct) (act : ℕ) : Pi_struct :=
  ((t.children.find? (fun p => p.1 == act)).getD
    (act, Pi_struct.init 0 0 0 0 (fun _ => 0))).2

/-- Python dict write `children[act] = c` for an existing key. -/
def childSet (t : Pi_struct) (act : ℕ) (c : Pi_struct) : Pi_struct :=
  t.withChildren (t.children.map (fun p => if p.1 == act then (p.1, c) else p))

/-- The recursion of `set_next` through the parent chain, driven top-down
along the root-to-node path.  Also returns the list of `additional_score`
arguments of every `set_next` frame entered (ghost instrumentation used to
state call-accounting claims). -/
def setNextGo : Pi_struct → List ℕ → ℤ → (ℤ ⊕ ℤ) × Pi_struct × List ℤ
  | t, [], a =>
    let r := setNextLocal t a
    (r.1, r.2, [a])
  | t, act :: rest, a =>
    let r := setNextGo (childGet t act) rest a
    let t2 := childSet t act r.2.1
    match r.1 with
    | .inl v => (.inl v, t2, r.2.2)
    | .inr s =>
      let r2 := setNextLocal t2 s
      (r2.1, r2.2, r.2.2 ++ [s])

/-- mct1.py lines 114-125: `set_next` on the node at `path` of the tree `t`,
returning the eventual exploration index (`-1` when the whole tree, root
included, is exhausted), the updated tree, and the ghost list of frame
arguments. -/
def set_next (t : Pi_struct) (path : List ℕ) (additional_score : ℤ) :
    ℤ × Pi_struct × List ℤ :=
  match setNextGo t path additional_score with
  | (.inl v, t2, log) => (v, t2, log)
  | (.inr _, t2, log) => (-1, t2, log)

/-- The node reached from `t` along the child actions in `path`. -/
def nodeAt : Pi_struct → List ℕ → Option Pi_struct
  | t, [] => some t
  | t, act :: rest =>
    match t.children.find? (fun p => p.1 == act) with
    | some p => nodeAt p.2 rest
    | none => none

/-- Replace the node at `path` inside `t`. -/
def updAt : Pi_struct → List ℕ → Pi_struct → Option Pi_struct
  | _, [], s => some s
  | t, act :: rest, s =>
    match t.children.find? (fun p => p.1 == act) with
    | some p => (updAt p.2 rest s).map (fun c2 => childSet t act c2)
    | none => none

end Pi_struct

/-! ## Projection lemmas for the node updaters -/

namespace Pi_struct

@[simp] theorem withNext_size (t : Pi_struct) (n : ℕ) : (t.withNext n).size = t.size := by
  cases t
  rfl

@[simp] theorem withNext_rpt (t : Pi_struct) (n : ℕ) : (t.withNext n).rpt = t.rpt := by
  cases t
  rfl

@[simp] theorem withNext_level (t : Pi_struct) (n : ℕ) : (t.withNext n).level = t.level := by
  cases t
  rfl

@[simp] theorem withNext_file_no (t : Pi_struct) (n : ℕ) :
    (t.withNext n).file_no = t.file_no := by
  cases t
  rfl

@[simp] theorem withNext_tauF (t : Pi_struct) (n : ℕ) : (t.withNext n).tauF = t.tauF := by
  cases t
  rfl

@[simp] theorem withNext_next (t : Pi_struct) (n : ℕ) : (t.withNext n).next = n := by
  cases t
  rfl

@[simp] theorem withNext_score (t : Pi_struct) (n : ℕ) : (t.withNext n).score = t.score := by
  cases t
  rfl

@[simp] theorem withNext_evaluated (t : Pi_struct) (n : ℕ) :
    (t.withNext n).evaluated = t.evaluated := by
  cases t
  rfl

@[simp] theorem withNext_isValid (t : Pi_struct) (n : ℕ) :
    (t.withNext n).isValid = t.isValid := by
  cases t
  rfl

@[simp] theorem withNext_nrepeats (t : Pi_struct) (n : ℕ) :
    (t.withNext n).nrepeats = t.nrepeats := by
  cases t
  rfl

@[simp] theorem withNext_counts (t : Pi_struct) (n : ℕ) :
    (t.withNext n).counts = t.counts := by
  cases t
  rfl

@[simp] theorem withNext_stateP (t : Pi_struct) (n : ℕ) :
    (t.withNext n).stateP = t.stateP := by
  cases t
  rfl

@[simp] theorem withNext_children (t : Pi_struct) (n : ℕ) :
    (t.withNext n).children = t.children := by
  cases t
  rfl

@[simp] theorem withNext_withNext (t : Pi_struct) (m n : ℕ) :
    (t.withNext m).withNext n = t.withNext n := by
  cases t
  rfl

@[simp] theorem withNext_self (t : Pi_struct) : t.withNext t.next = t := by
  cases t
  rfl

@[simp] theorem addScore_size (t : Pi_struct) (a : ℤ) : (t.addScore a).size = t.size := by
  cases t
  rfl

@[simp] theorem addScore_rpt (t : Pi_struct) (a : ℤ) : (t.addScore a).rpt = t.rpt := by
  cases t
  rfl

@[simp] theorem addScore_level (t : Pi_struct) (a : ℤ) : (t.addScore a).level = t.level := by
  cases t
  rfl

@[simp] theorem addScore_file_no (t : Pi_struct) (a : ℤ) :
    (t.addScore a).file_no = t.file_no := by
  cases t
  rfl

@[simp] theorem addScore_tauF (t : Pi_struct) (a : ℤ) : (t.addScore a).tauF = t.tauF := by
  cases t
  rfl

@[simp] theorem addScore_next (t : Pi_struct) (a : ℤ) : (t.addScore a).next = t.next := by
  cases t
  rfl

@[simp] theorem addScore_score (t : Pi_struct) (a : ℤ) :
    (t.addScore a).score = t.score + a := by
  cases t
  rfl

@[simp] theorem addScore_evaluated (t : Pi_struct) (a : ℤ) :
    (t.addScore a).evaluated = t.evaluated := by
  cases t
  rfl

@[simp] theorem addScore_isValid (t : Pi_struct) (a : ℤ) :
    (t.addScore a).isValid = t.isValid := by
  cases t
  rfl

@[simp] theorem addScore_nrepeats (t : Pi_struct) (a : ℤ) :
    (t.addScore a).nrepeats = t.nrepeats := by
  cases t
  rfl

@[simp] theorem addScore_counts (t : Pi_struct) (a : ℤ) :
    (t.addScore a).counts = t.counts := by
  cases t
  rfl

@[simp] theorem addScore_stateP (t : Pi_struct) (a : ℤ) :
    (t.addScore a).stateP = t.stateP := by
  cases t
  rfl

@[simp] theorem addScore_children (t : Pi_struct) (a : ℤ) :
    (t.addScore a).children = t.children := by
  cases t
  rfl

@[simp] theorem withStateObs_size (t : Pi_struct) (o : Obs) :
    (t.withStateObs o).size = t.size := by
  cases t
  rfl

@[simp] theorem withStateObs_rpt (t : Pi_struct) (o : Obs) :
    (t.withStateObs o).rpt = t.rpt := by
  cases t
  rfl

@[simp] theorem withStateObs_level (t : Pi_struct) (o : Obs) :
    (t.withStateObs o).level = t.level := by
  cases t
  rfl

@[simp] theorem withStateObs_file_no (t : Pi_struct) (o : Obs) :
    (t.withStateObs o).file_no = t.file_no := by
  cases t
  rfl

@[simp] theorem withStateObs_tauF (t : Pi_struct) (o : Obs) :
    (t.withStateObs o).tauF = t.tauF := by
  cases t
  rfl

@[simp] theorem withStateObs_next (t : Pi_struct) (o : Obs) :
    (t.withStateObs o).next = t.next := by
  cases t
  rfl

@[simp] theorem withStateObs_score (t : Pi_struct) (o : Obs) :
    (t.withStateObs o).score = t.score := by
  cases t
  rfl

@[simp] theorem withStateObs_evaluated (t : Pi_struct) (o : Obs) :
    (t.withStateObs o).evaluated = t.evaluated := by
  cases t
  rfl

@[simp] theorem withStateObs_isValid (t : Pi_struct) (o : Obs) :
    (t.withStateObs o).isValid = o.mask := by
  cases t
  rfl

@[simp] theorem withStateObs_nrepeats (t : Pi_struct) (o : Obs) :
    (t.withStateObs o).nrepeats = t.nrepeats := by
  cases t
  rfl

@[simp] theorem withStateObs_counts (t : Pi_struct) (o : Obs) :
    (t.withStateObs o).counts = t.counts := by
  cases t
  rfl

@[simp] theorem withStateObs_stateP (t : Pi_struct) (o : Obs) :
    (t.withStateObs o).stateP = some o := by
  cases t
  rfl

@[simp] theorem withStateObs_children (t : Pi_struct) (o : Obs) :
    (t.withStateObs o).children = t.children := by
  cases t
  rfl

@[simp] theorem evalWith_size (t : Pi_struct) (cn nr : List ℤ) (ch : List (ℕ × Pi_struct)) :
    (t.evalWith cn nr ch).size = t.size := by
  cases t
  rfl

@[simp] theorem evalWith_rpt (t : Pi_struct) (cn nr : List ℤ) (ch : List (ℕ × Pi_struct)) :
    (t.evalWith cn nr ch).rpt = t.rpt := by
  cases t
  rfl

@[simp] theorem evalWith_level (t : Pi_struct) (cn nr : List ℤ) (ch : List (ℕ × Pi_struct)) :
    (t.evalWith cn nr ch).level = t.level := by
  cases t
  rfl

@[simp] theorem evalWith_file_no (t : Pi_struct) (cn nr : List ℤ) (ch : List (ℕ × Pi_struct)) :
    (t.evalWith cn nr ch).file_no = t.file_no := by
  cases t
  rfl

@[simp] theorem evalWith_tauF (t : Pi_struct) (cn nr : List ℤ) (ch : List (ℕ × Pi_struct)) :
    (t.evalWith cn nr ch).tauF = t.tauF := by
  cases t
  rfl

@[simp] theorem evalWith_next (t : Pi_struct) (cn nr : List ℤ) (ch : List (ℕ × Pi_struct)) :
    (t.evalWith cn nr ch).next = t.next := by
  cases t
  rfl

@[simp] theorem evalWith_score (t : Pi_struct) (cn nr : List ℤ) (ch : List (ℕ × Pi_struct)) :
    (t.evalWith cn nr ch).score = t.score := by
  cases t
  rfl

@[simp] theorem evalWith_evaluated (t : Pi_struct) (cn nr : List ℤ)
    (ch : List (ℕ × Pi_struct)) : (t.evalWith cn nr ch).evaluated = true := by
  cases t
  rfl

@[simp] theorem evalWith_isValid (t : Pi_struct) (cn nr : List ℤ)
    (ch : List (ℕ × Pi_struct)) : (t.evalWith cn nr ch).isValid = t.isValid := by
  cases t
  rfl

@[simp] theorem evalWith_nrepeats (t : Pi_struct) (cn nr : List ℤ)
    (ch : List (ℕ × Pi_struct)) : (t.evalWith cn nr ch).nrepeats = nr := by
  cases t
  rfl

@[simp] theorem evalWith_counts (t : Pi_struct) (cn nr : List ℤ)
    (ch : List (ℕ × Pi_struct)) : (t.evalWith cn nr ch).counts = cn := by
  cases t
  rfl

@[simp] theorem evalWith_stateP (t : Pi_struct) (cn nr : List ℤ)
    (ch : List (ℕ × Pi_struct)) : (t.evalWith cn nr ch).stateP = t.stateP := by
  cases t
  rfl

@[simp] theorem evalWith_children (t : Pi_struct) (cn nr : List ℤ)
    (ch : List (ℕ × Pi_struct)) : (t.evalWith cn nr ch).children = ch := by
  cases t
  rfl

@[simp] theorem withChildren_size (t : Pi_struct) (ch : List (ℕ × Pi_struct)) :
    (t.withChildren ch).size = t.size := by
  cases t
  rfl

@[simp] theorem withChildren_rpt (t : Pi_struct) (ch : List (ℕ × Pi_struct)) :
    (t.withChildren ch).rpt = t.rpt := by
  cases t
  rfl

@[simp] theorem withChildren_level (t : Pi_struct) (ch : List (ℕ × Pi_struct)) :
    (t.withChildren ch).level = t.level := by
  cases t
  rfl

@[simp] theorem withChildren_file_no (t : Pi_struct) (ch : List (ℕ × Pi_struct)) :
    (t.withChildren ch).file_no = t.file_no := by
  cases t
  rfl

@[simp] theorem withChildren_tauF (t : Pi_struct) (ch : List (ℕ × Pi_struct)) :
    (t.withChildren ch).tauF = t.tauF := by
  cases t
  rfl

@[simp] theorem withChildren_next (t : Pi_struct) (ch : List (ℕ × Pi_struct)) :
    (t.withChildren ch).next = t.next := by
  cases t
  rfl

@[simp] theorem withChildren_score (t : Pi_struct) (ch : List (ℕ × Pi_struct)) :
    (t.withChildren ch).score = t.score := by
  cases t
  rfl

@[simp] theorem withChildren_evaluated (t : Pi_struct) (ch : List (ℕ × Pi_struct)) :
    (t.withChildren ch).evaluated = t.evaluated := by
  cases t
  rfl

@[simp] theorem withChildren_isValid (t : Pi_struct) (ch : List (ℕ × Pi_struct)) :
    (t.withChildren ch).isValid = t.isValid := by
  cases t
  rfl

@[simp] theorem withChildren_nrepeats (t : Pi_struct) (ch : List (ℕ × Pi_struct)) :
    (t.withChildren ch).nrepeats = t.nrepeats := by
  cases t
  rfl

@[simp] theorem withChildren_counts (t : Pi_struct) (ch : List (ℕ × Pi_struct)) :
    (t.withChildren ch).counts = t.counts := by
  cases t
  rfl

@[simp] theorem withChildren_stateP (t : Pi_struct) (ch : List (ℕ × Pi_struct)) :
    (t.withChildren ch).stateP = t.stateP := by
  cases t
  rfl

@[simp] theorem withChildren_children (t : Pi_struct) (ch : List (ℕ × Pi_struct)) :
    (t.withChildren ch).children = ch := by
  cases t
  rfl

@[simp] theorem childSet_size (t : Pi_struct) (act : ℕ) (c : Pi_struct) :
    (t.childSet act c).size = t.size := by
  cases t
  rfl

@[simp] theorem childSet_rpt (t : Pi_struct) (act : ℕ) (c : Pi_struct) :
    (t.childSet act c).rpt = t.rpt := by
  cases t
  rfl

@[simp] theorem childSet_level (t : Pi_struct) (act : ℕ) (c : Pi_struct) :
    (t.childSet act c).level = t.level := by
  cases t
  rfl

@[simp] theorem childSet_file_no (t : Pi_struct) (act : ℕ) (c : Pi_struct) :
    (t.childSet act c).file_no = t.file_no := by
  cases t
  rfl

@[simp] theorem childSet_tauF (t : Pi_struct) (act : ℕ) (c : Pi_struct) :
    (t.childSet act c).tauF = t.tauF := by
  cases t
  rfl

@[simp] theorem childSet_next (t : Pi_struct) (act : ℕ) (c : Pi_struct) :
    (t.childSet act c).next = t.next := by
  cases t
  rfl

@[simp] theorem childSet_score (t : Pi_struct) (act : ℕ) (c : Pi_struct) :
    (t.childSet act c).score = t.score := by
  cases t
  rfl

@[simp] theorem childSet_evaluated (t : Pi_struct) (act : ℕ) (c : Pi_struct) :
    (t.childSet act c).evaluated = t.evaluated := by
  cases t
  rfl

@[simp] theorem childSet_isValid (t : Pi_struct) (act : ℕ) (c : Pi_struct) :
    (t.childSet act c).isValid = t.isValid := by
  cases t
  rfl

@[simp] theorem childSet_nrepeats (t : Pi_struct) (act : ℕ) (c : Pi_struct) :
    (t.childSet act c).nrepeats = t.nrepeats := by
  cases t
  rfl

@[simp] theorem childSet_counts (t : Pi_struct) (act : ℕ) (c : Pi_struct) :
    (t.childSet act c).counts = t.counts := by
  cases t
  rfl

@[simp] theorem childSet_stateP (t : Pi_struct) (act : ℕ) (c : Pi_struct) :
    (t.childSet act c).stateP = t.stateP := by
  cases t
  rfl

theorem childSet_children (t : Pi_struct) (act : ℕ) (c : Pi_struct) :
    (t.childSet act c).children
      = t.children.map (fun p => if p.1 == act then (p.1, c) else p) := by
  cases t
  rfl

@[simp] theorem init_size (s : ℕ) (r : ℤ) (lv fn : ℕ) (tf : ℕ → ℝ) :
    (init s r lv fn tf).size = s := rfl

@[simp] theorem init_rpt (s : ℕ) (r : ℤ) (lv fn : ℕ) (tf : ℕ → ℝ) :
    (init s r lv fn tf).rpt = r := rfl

@[simp] theorem init_level (s : ℕ) (r : ℤ) (lv fn : ℕ) (tf : ℕ → ℝ) :
    (init s r lv fn tf).level = lv := rfl

@[simp] theorem init_file_no (s : ℕ) (r : ℤ) (lv fn : ℕ) (tf : ℕ → ℝ) :
    (init s r lv fn tf).file_no = fn := rfl

@[simp] theorem init_tauF (s : ℕ) (r : ℤ) (lv fn : ℕ) (tf : ℕ → ℝ) :
    (init s r lv fn tf).tauF = tf := rfl

@[simp] theorem init_next (s : ℕ) (r : ℤ) (lv fn : ℕ) (tf : ℕ → ℝ) :
    (init s r lv fn tf).next = 0 := rfl

@[simp] theorem init_score (s : ℕ) (r : ℤ) (lv fn : ℕ) (tf : ℕ → ℝ) :
    (init s r lv fn tf).score = 0 := rfl

@[simp] theorem init_evaluated (s : ℕ) (r : ℤ) (lv fn : ℕ) (tf : ℕ → ℝ) :
    (init s r lv fn tf).evaluated = false := rfl

@[simp] theorem init_isValid (s : ℕ) (r : ℤ) (lv fn : ℕ) (tf : ℕ → ℝ) :
    (init s r lv fn tf).isValid = [] := rfl

@[simp] theorem init_nrepeats (s : ℕ) (r : ℤ) (lv fn : ℕ) (tf : ℕ → ℝ) :
    (init s r lv fn tf).nrepeats = [] := rfl

@[simp] theorem init_counts (s : ℕ) (r : ℤ) (lv fn : ℕ) (tf : ℕ → ℝ) :
    (init s r lv fn tf).counts = [] := rfl

@[simp] theorem init_stateP (s : ℕ) (r : ℤ) (lv fn : ℕ) (tf : ℕ → ℝ) :
    (init s r lv fn tf).stateP = none := rfl

@[simp] theorem init_children (s : ℕ) (r : ℤ) (lv fn : ℕ) (tf : ℕ → ℝ) :
    (init s r lv fn tf).children = [] := rfl

end Pi_struct

/-! ## The MCT driver -/

/-- The external environment interface (mct1.py line 4, the `sat` object),
with internal state `σ`.  `E` is the opaque type of the evaluator output
pair: the source's `get_state(pi_array, v_value)` only forwards
`softmax(pi_array), v_value` into `env.simulate`, so the pair (with the
softmax already absorbed) is passed through opaquely.
`simulate` returns `(state, obs, needEnv, needSim)`; `step` returns
`(state, isDone, obs)`; `resetAt` returns `none` for an instance solved by
simplification. -/
structure EnvI (σ E : Type) where
  resetAt : σ → ℕ → σ × Option Obs
  simulate : σ → E → σ × Obs × Bool × Bool
  getVisitCount : σ → List ℤ
  step : σ → ℕ → σ × Bool × Obs

/-- mct1.py lines 128-153: the state of one `MCT` driver.  `tree` is
`Pi_root` (`none` for a trivially solved instance), `path` the location of
`Pi_current`, `phase` the tri-valued flag (`none` = finished).  `oracleIdx`
indexes the stream of `np.random.choice` draws.  The three `Log` fields are
ghost instrumentation recording, in order: the arguments of every `set_next`
frame, the driver-initiated `set_next` arguments (one per terminal/resign
event), and the repeat count `nrepeats[next_act]` consumed per
terminal/resign event. -/
structure MCTState (σ : Type) where
  tree : Option Pi_struct
  path : List ℕ
  envσ : σ
  stateObs : Obs
  min_step : ℕ
  max_step : ℕ
  resign : ℕ
  phase : Option Bool
  file_no : ℕ
  oracleIdx : ℕ
  snLog : List ℤ
  snInitLog : List ℤ
  consumedLog : List ℤ

/-- Result of one `get_state` call: a state returned for evaluation, the
`None` of a finished instance, fuel exhaustion of the model, or an abnormal
termination (failed assert / KeyError / IndexError). -/
inductive GSRes where
  | state (o : Obs)
  | noData
  | fuelOut
  | error
deriving DecidableEq

/-- Result of the inner `while needEnv or needSim` simulation loop within a
single `get_state` call (mct1.py lines 167-175): either the environment asks
for a fresh evaluation (pause) or simulation is complete. -/
inductive SimRes (σ : Type) where
  | pause (s : σ) (o : Obs)
  | simDone (s : σ) (o : Obs)
  | fuelOut

/-- The part of the inner loop that runs inside one `get_state` call after
the resume-toggle: repeatedly `simulate` while only `needSim` is set; pause
as soon as `needEnv` is set. -/
def simLoop {σ E : Type} (env : EnvI σ E) : ℕ → σ → E → SimRes σ
  | 0, _, _ => .fuelOut
  | fuel + 1, s, e =>
    let r := env.simulate s e
    if r.2.2.1 then .pause r.1 r.2.1
    else if r.2.2.2 then simLoop env fuel r.1 e
    else .simDone r.1 r.2.1

/-- Result of one iteration of the driver's `while True` loop: either return
to the caller, or continue looping. -/
inductive IterRes (σ : Type) where
  | ret (r : GSRes) (ms : MCTState σ)
  | cont (ms : MCTState σ)

/-- mct1.py lines 178-191: the lower half of one `while True` iteration of
`get_state`, entered with the current node `cur` (at `ms.path` inside
`root`) already expanded: query `get_next`, step the environment, and either
handle a terminal/resign event (score write-back through `set_next`, rewind
to the root) or descend into the stepped child. -/
def stepPart {σ E : Type} (env : EnvI σ E) (root cur : Pi_struct) (ms : MCTState σ) :
    IterRes σ :=
  let gn := cur.get_next
  if gn.1 < 0 then .ret .error ms
  else
    let a := gn.1.toNat
    let st := env.step ms.envσ a
    if st.2.1 = true ∨ ms.resign ≤ gn.2.level then
      let lvl := gn.2.level
      let consumed := gn.2.nrepeats.getD a 0
      let scoreArg := (lvl : ℤ) * consumed
      match Pi_struct.updAt root ms.path gn.2 with
      | none => .ret .error ms
      | some root2 =>
        let sn := Pi_struct.set_next root2 ms.path scoreArg
        let ms3 : MCTState σ :=
          { ms with
            tree := some sn.2.1
            envσ := st.1
            stateObs := st.2.2
            min_step := min ms.min_step lvl
            max_step := max ms.max_step lvl
            snLog := ms.snLog ++ sn.2.2
            snInitLog := ms.snInitLog ++ [scoreArg]
            consumedLog := ms.consumedLog ++ [consumed] }
        if sn.1 < 0 then .ret .noData { ms3 with phase := none }
        else
          let rs := env.resetAt st.1 ms.file_no
          match rs.2 with
          | none => .ret .error { ms3 with envσ := rs.1 }
          | some o3 => .cont { ms3 with path := [], envσ := rs.1, stateObs := o3 }
    else
      match Pi_struct.updAt root ms.path gn.2 with
      | none => .ret .error ms
      | some root2 =>
        match Pi_struct.nodeAt root2 (ms.path ++ [a]) with
        | none => .ret .error ms
        | some child =>
          match Pi_struct.add_state child st.2.2 with
          | none => .ret .error ms
          | some child2 =>
            match Pi_struct.updAt root2 (ms.path ++ [a]) child2 with
            | none => .ret .error ms
            | some root3 =>
              .cont { ms with
                tree := some root3
                path := ms.path ++ [a]
                envσ := st.1
                stateObs := st.2.2 }

/-- mct1.py lines 165-191: the `while True` loop of `get_state`, with
`fuel` bounding the number of iterations.  Each iteration first runs the
expansion sub-loop when the current node is unexpanded (including the
pause/resume toggle around evaluator queries), then the `stepPart` above. -/
def runLoop {σ E : Type} (env : EnvI σ E) (oracle : ℕ → List ℤ) (simFuel : ℕ) :
    ℕ → MCTState σ → E → GSRes × MCTState σ
  | 0, ms, _ => (.fuelOut, ms)
  | fuel + 1, ms, e =>
    match ms.tree with
    | none => (.error, ms)
    | some root =>
      match Pi_struct.nodeAt root ms.path with
      | none => (.error, ms)
      | some cur =>
        if cur.evaluated = false then
          if ms.phase = some false then
            (.state ms.stateObs, { ms with phase := some true })
          else
            let ms1 : MCTState σ := { ms with phase := some false }
            match simLoop env simFuel ms1.envσ e with
            | .fuelOut => (.fuelOut, ms1)
            | .pause s2 o2 =>
              (.state o2, { ms1 with envσ := s2, stateObs := o2, phase := some true })
            | .simDone s2 o2 =>
              match Pi_struct.add_counts cur (env.getVisitCount s2) (oracle ms1.oracleIdx) with
              | none => (.error, ms1)
              | some cur2 =>
                match Pi_struct.updAt root ms.path cur2 with
                | none => (.error, ms1)
                | some root2 =>
                  let ms2 : MCTState σ :=
                    { ms1 with
                      tree := some root2
                      envσ := s2
                      stateObs := o2
                      oracleIdx := ms1.oracleIdx + 1 }
                  match stepPart env root2 cur2 ms2 with
                  | .ret r ms4 => (r, ms4)
                  | .cont ms4 => runLoop env oracle simFuel fuel ms4 e
        else
          match stepPart env root cur ms with
          | .ret r ms4 => (r, ms4)
          | .cont ms4 => runLoop env oracle simFuel fuel ms4 e

/-- mct1.py lines 155-191: `MCT.get_state`.  Returns `None` (`noData`)
immediately when the driver is finished. -/
def get_state {σ E : Type} (env : EnvI σ E) (oracle : ℕ → List ℤ) (simFuel fuel : ℕ)
    (ms : MCTState σ) (e : E) : GSRes × MCTState σ :=
  if ms.phase = none then (.noData, ms) else runLoop env oracle simFuel fuel ms e

/-- mct1.py lines 128-153: the `MCT` constructor.  `none` models the crash of
`add_state` on a malformed root observation; the trivially-solved instance
(`resetAt` returning `None`) yields the Finished driver with an empty tree. -/
def MCT.construct {σ E : Type} (env : EnvI σ E) (s0 : σ) (file_no max_var1 : ℕ)
    (nrepeat : ℤ) (tauF : ℕ → ℝ) (resign : ℕ) : Option (MCTState σ) :=
  let r := env.resetAt s0 file_no
  match r.2 with
  | none => some ⟨none, [], r.1, ⟨[], 0⟩, 0, 0, resign, none, file_no, 0, [], [], []⟩
  | some o =>
    match Pi_struct.add_state (Pi_struct.init (max_var1 * 2) nrepeat 0 file_no tauF) o with
    | none => none
    | some root2 =>
      some ⟨some root2, [], r.1, o, resign, 0, resign, some false, file_no, 0, [], [], []⟩

/-- mct1.py lines 198-201: `report_performance`. -/
def report_performance {σ : Type} (ms : MCTState σ) : ℕ × ℤ × ℤ :=
  match ms.tree with
  | none => (ms.file_no, 1, 1)
  | some root => (ms.file_no, root.rpt, root.score)

/-- The caller's self-play loop: call `get_state` (feeding a fixed evaluator
output) until it reports `None`; `none` on fuel exhaustion or abnormal
termination. -/
def selfPlay {σ E : Type} (env : EnvI σ E) (oracle : ℕ → List ℤ) (simFuel loopFuel : ℕ) :
    ℕ → MCTState σ → E → Option (MCTState σ)
  | 0, _, _ => none
  | calls + 1, ms, e =>
    match get_state env oracle simFuel loopFuel ms e with
    | (.noData, ms2) => some ms2
    | (.state _, ms2) => selfPlay env oracle simFuel loopFuel calls ms2 e
    | (.fuelOut, _) => none
    | (.error, _) => none

/-! ## Training-example emission -/

theorem sizeOf_child_lt {t : Pi_struct} {p : ℕ × Pi_struct} (h : p ∈ t.children) :
    sizeOf p.2 < sizeOf t := by
  obtain ⟨a, b, c, d, e, f, g, h2, i, j, k, l, m⟩ := t
  simp only [Pi_struct.children] at h
  have h1 := List.sizeOf_lt_of_mem h
  obtain ⟨x, y⟩ := p
  simp only [Prod.mk.sizeOf_spec] at h1
  simp [Pi_struct.mk.sizeOf_spec]
  omega

/-- The policy vector `self.Pi` of a node, as set by `add_counts`:
`get_PI(counts, tau(level))` on the stored visit counts (the fuel covers
every iteration the source loop can take, and by `get_PI_loop_spec` the
value does not depend on it). -/
noncomputable def PiVal (t : Pi_struct) : List ℝ :=
  get_PI (t.counts.map (fun z => (z : ℝ))) (t.tauF t.level) ⌈1 / t.tauF t.level⌉₊

/-- One training example: `(file_no, state, Pi, score, repeat)` as passed to
`sl_Buffer.add` (mct1.py line 47). -/
abbrev Emit : Type := ℕ × Option Obs × List ℝ × ℝ × ℤ

/-- mct1.py lines 36-47: `analyze_Pi_graph_dump`.  Unevaluated nodes emit
nothing and are not descended into; otherwise children are dumped first (in
dict insertion order) and then the node's own example, with
`score = tanh((standard[1] - score/repeat) * 3.0 / standard[1])`.
In the degenerate case `standard[1] = 0` the model takes `x / 0 = 0` where
Python would raise a ZeroDivisionError; no run in this development hits it. -/
noncomputable def analyze_Pi_graph_dump (file_no : ℕ) (t : Pi_struct)
    (standard : ℝ × ℝ × ℝ) : List Emit :=
  if t.evaluated = false then []
  else
    (t.children.attach.map (fun p => analyze_Pi_graph_dump file_no p.1.2 standard)).flatten
      ++ [(file_no, t.stateP, PiVal t,
          Real.tanh ((standard.2.1 - (t.score : ℝ) / (t.rpt : ℝ)) * 3 / standard.2.1), t.rpt)]
termination_by sizeOf t
decreasing_by
  exact sizeOf_child_lt p.2

/-- mct1.py lines 193-196: `write_data_to_buffer`, with
`standard = (min_step, root.score / root.repeat, max_step)`. -/
noncomputable def write_data_to_buffer {σ : Type} (ms : MCTState σ) : List Emit :=
  match ms.tree with
  | none => []
  | some root =>
    analyze_Pi_graph_dump ms.file_no root
      ((ms.min_step : ℝ), (root.score : ℝ) / (root.rpt : ℝ), (ms.max_step : ℝ))

/-- Spec-side definition for the post-order claim: all nodes of the tree,
children (in order) before their parent. -/
def postOrder (t : Pi_struct) : List Pi_struct :=
  (t.children.attach.map (fun p => postOrder p.1.2)).flatten ++ [t]
termination_by sizeOf t
decreasing_by
  exact sizeOf_child_lt p.2

/-- Well-formedness used by the emission claim: a node that is not expanded
has no children (true of every tree the driver builds, since children are
created only by `add_counts`). -/
inductive WfEval : Pi_struct → Prop where
  | mk (t : Pi_struct) (hleaf : t.evaluated = false → t.children = [])
      (hch : ∀ p ∈ t.children, WfEval p.2) : WfEval t

/-! ## Expansion post-conditions (`add_counts`) -/

theorem filterMap_if_eq_filter {α : Type} (p : α → Prop) [DecidablePred p] (l : List α) :
    l.filterMap (fun a => if p a then some a else none) = l.filter (fun a => decide (p a)) := by
  induction l with
  | nil => rfl
  | cons x xs ih => by_cases hx : p x <;> simp [List.filterMap_cons, hx, ih]

/-- Everything `add_counts` guarantees on normal return, together with the
relation of the new node's fields to the old node's (shared helper behind
the expansion claims). -/
theorem add_counts_facts (t : Pi_struct) (counts action : List ℤ) (t2 : Pi_struct)
    (h : t.add_counts counts action = some t2) :
    (counts.sum = Pi_struct.maskedSum counts t.isValid ∧ 0 < counts.sum ∧
    Pi_struct.maskedSum t2.nrepeats t.isValid = t.rpt ∧
    t2.children.map Prod.fst
      = (List.range t.size).filter (fun a => decide (1 ≤ t2.nrepeats.getD a 0)) ∧
    (∀ p ∈ t2.children, p.2.rpt = t2.nrepeats.getD p.1 0 ∧ p.2.level = t.level + 1 ∧
      p.2.size = t.size ∧ p.2.file_no = t.file_no ∧ p.2.tauF = t.tauF
      ∧ p.2.evaluated = false ∧ p.2.score = 0 ∧ p.2.next = 0 ∧ p.2.children = []))
    ∧ get_nrepeat_count action t.size = some t2.nrepeats
    ∧ t2.evaluated = true ∧ t2.size = t.size ∧ t2.isValid = t.isValid
    ∧ t2.next = t.next ∧ t2.score = t.score ∧ t2.rpt = t.rpt ∧ t2.level = t.level := by
  unfold Pi_struct.add_counts at h
  split_ifs at h with h1 h2
  rcases hnr : get_nrepeat_count action t.size with _ | nreps
  · rw [hnr, Option.none_bind] at h
    exact Option.noConfusion h
  · rw [hnr, Option.some_bind] at h
    split_ifs at h with h3
    injection h with h4
    subst h4
    refine ⟨⟨not_not.1 h1, h2.1, ?_, ?_, ?_⟩,
      by rw [Pi_struct.evalWith_nrepeats], by simp⟩
    · rw [Pi_struct.evalWith_nrepeats]
      exact not_not.1 h3
    · rw [Pi_struct.evalWith_children, Pi_struct.evalWith_nrepeats, List.map_filterMap]
      rw [← filterMap_if_eq_filter]
      apply List.filterMap_congr
      intro a _
      split <;> rfl
    · intro p hp
      rw [Pi_struct.evalWith_children] at hp
      rw [List.mem_filterMap] at hp
      obtain ⟨i, _, hfi⟩ := hp
      split_ifs at hfi with hcond
      injection hfi with hfi
      subst hfi
      simp [Pi_struct.evalWith_nrepeats]

/-- Claim C1: if `add_counts` returns normally then: the counts were
concentrated on the valid actions with positive sum, the sampled repeat
counts masked by the validity mask sum exactly to the node's repeat budget,
the children keys are exactly the actions with positive repeat count (in
increasing order), and each child carries repeat budget `nrepeats[a]`, depth
one more than the parent, and the parent's action-space size, file index and
temperature schedule. -/
theorem add_counts_spec (t : Pi_struct) (counts action : List ℤ) (t2 : Pi_struct)
    (h : t.add_counts counts action = some t2) :
    counts.sum = Pi_struct.maskedSum counts t.isValid ∧ 0 < counts.sum ∧
    Pi_struct.maskedSum t2.nrepeats t.isValid = t.rpt ∧
    t2.children.map Prod.fst
      = (List.range t.size).filter (fun a => decide (1 ≤ t2.nrepeats.getD a 0)) ∧
    (∀ p ∈ t2.children, p.2.rpt = t2.nrepeats.getD p.1 0 ∧ p.2.level = t.level + 1 ∧
      p.2.size = t.size ∧ p.2.file_no = t.file_no ∧ p.2.tauF = t.tauF
      ∧ p.2.evaluated = false ∧ p.2.score = 0 ∧ p.2.next = 0 ∧ p.2.children = []) :=
  (add_counts_facts t counts action t2 h).1

/-! ## Cursor advance (`get_next`) -/

/-- Action `j` is explorable at node `t`: inside the action space, with a
repeat count of at least one (`>= 0.5` on integers) and valid. -/
def actionable (t : Pi_struct) (j : ℕ) : Prop :=
  j < t.size ∧ 1 ≤ t.nrepeats.getD j 0 ∧ t.isValid.getD j false = true

theorem actionable_withNext (t : Pi_struct) (n j : ℕ) :
    actionable (t.withNext n) j ↔ actionable t j := by
  simp [actionable]

theorem get_nextAux_spec :
    ∀ (fuel : ℕ) (t : Pi_struct), t.size ≤ t.next + fuel →
    Pi_struct.get_nextAux fuel t = t.withNext (Pi_struct.get_nextAux fuel t).next
    ∧ t.next ≤ (Pi_struct.get_nextAux fuel t).next
    ∧ (∀ j, t.next ≤ j → j < (Pi_struct.get_nextAux fuel t).next → ¬actionable t j)
    ∧ (t.size ≤ (Pi_struct.get_nextAux fuel t).next
        ∨ actionable t (Pi_struct.get_nextAux fuel t).next) := by
  intro fuel
  induction fuel with
  | zero =>
    intro t hf
    simp only [Pi_struct.get_nextAux]
    exact ⟨(Pi_struct.withNext_self t).symm, le_rfl, fun j h1 h2 => absurd h2 (by omega),
      Or.inl (by omega)⟩
  | succ fuel ih =>
    intro t hf
    by_cases hc : t.next < t.size
        ∧ (t.nrepeats.getD t.next 0 < 1 ∨ t.isValid.getD t.next false = false)
    · have hstep : Pi_struct.get_nextAux (fuel + 1) t
          = Pi_struct.get_nextAux fuel (t.withNext (t.next + 1)) := by
        simp only [Pi_struct.get_nextAux, if_pos hc]
      have hf2 : (t.withNext (t.next + 1)).size ≤ (t.withNext (t.next + 1)).next + fuel := by
        rw [Pi_struct.withNext_size, Pi_struct.withNext_next]
        omega
      obtain ⟨ha, hb, hcs, hd⟩ := ih (t.withNext (t.next + 1)) hf2
      rw [Pi_struct.withNext_next] at hb
      rw [hstep]
      refine ⟨by rw [ha]; simp, by omega, ?_, ?_⟩
      · intro j h1 h2
        rcases eq_or_lt_of_le h1 with rfl | h1'
        · intro hact
          obtain ⟨_, hrep, hval⟩ := hact
          rcases hc.2 with hlt | hfv
          · omega
          · rw [hval] at hfv
            exact Bool.noConfusion hfv
        · have h1'' : (t.withNext (t.next + 1)).next ≤ j := by
            rw [Pi_struct.withNext_next]
            omega
          exact fun hact => hcs j h1'' h2 ((actionable_withNext t (t.next + 1) j).2 hact)
      · rcases hd with hd | hd
        · rw [Pi_struct.withNext_size] at hd
          exact Or.inl hd
        · exact Or.inr ((actionable_withNext t (t.next + 1) _).1 hd)
    · have hstep : Pi_struct.get_nextAux (fuel + 1) t = t := by
        simp only [Pi_struct.get_nextAux, if_neg hc]
      rw [hstep]
      refine ⟨(Pi_struct.withNext_self t).symm, le_rfl, fun j h1 h2 => absurd h2 (by omega), ?_⟩
      by_cases hn : t.next < t.size
      · push_neg at hc
        obtain ⟨hrep, hval⟩ := hc hn
        refine Or.inr ⟨hn, by omega, ?_⟩
        cases hv : t.isValid.getD t.next false
        · exact absurd hv hval
        · rfl
      · exact Or.inl (by omega)

theorem get_nextAux_stop (fuel : ℕ) (t : Pi_struct)
    (h : ¬(t.next < t.size
      ∧ (t.nrepeats.getD t.next 0 < 1 ∨ t.isValid.getD t.next false = false))) :
    Pi_struct.get_nextAux fuel t = t := by
  cases fuel with
  | zero => rfl
  | succ fuel => simp only [Pi_struct.get_nextAux, if_neg h]

theorem get_next_def (t : Pi_struct) :
    t.get_next = (if (Pi_struct.get_nextAux (t.size - t.next) t).size
        <= (Pi_struct.get_nextAux (t.size - t.next) t).next then (-1 : ℤ)
      else (((Pi_struct.get_nextAux (t.size - t.next) t).next : ℕ) : ℤ),
      Pi_struct.get_nextAux (t.size - t.next) t) := rfl

theorem get_next_facts (t : Pi_struct) :
    (t.get_next).2 = t.withNext (t.get_next).2.next
    ∧ t.next ≤ (t.get_next).2.next
    ∧ (∀ j, t.next ≤ j → j < (t.get_next).2.next → ¬actionable t j)
    ∧ (0 ≤ (t.get_next).1 →
        (t.get_next).1 = ((t.get_next).2.next : ℤ) ∧ actionable t (t.get_next).2.next)
    ∧ ((t.get_next).1 < 0 → (t.get_next).1 = -1 ∧ t.size ≤ (t.get_next).2.next
        ∧ ∀ j, t.next ≤ j → ¬actionable t j)
    ∧ Pi_struct.get_next (t.get_next).2 = t.get_next := by
  obtain ⟨ha, hb, hc, hd⟩ := get_nextAux_spec (t.size - t.next) t (by omega)
  rw [get_next_def]
  set u := Pi_struct.get_nextAux (t.size - t.next) t with hu
  have husize : u.size = t.size := by
    conv_lhs => rw [ha]
    simp
  have hunr : u.nrepeats = t.nrepeats := by
    conv_lhs => rw [ha]
    simp
  have huval : u.isValid = t.isValid := by
    conv_lhs => rw [ha]
    simp
  have hskip : ∀ j, t.next ≤ j → j < u.next → ¬actionable t j := hc
  by_cases hge : u.size ≤ u.next
  · rw [if_pos hge]
    rw [husize] at hge
    refine ⟨ha, hb, hc, ?_, ?_, ?_⟩
    · intro hpos
      exact absurd hpos (by norm_num)
    · intro _
      refine ⟨rfl, hge, ?_⟩
      intro j h1 hact
      by_cases hj : j < u.next
      · exact hc j h1 hj hact
      · exact absurd hact.1 (by omega)
    · rw [get_next_def]
      have h0 : u.size - u.next = 0 := by omega
      rw [h0]
      simp only [Pi_struct.get_nextAux]
      rw [if_pos (show u.size ≤ u.next by omega)]
  · rw [if_neg hge]
    rw [husize] at hge
    have hact : actionable t u.next := by
      rcases hd with hd | hd
      · exact absurd hd (by omega)
      · exact hd
    refine ⟨ha, hb, hc, ?_, ?_, ?_⟩
    · intro _
      exact ⟨rfl, hact⟩
    · intro hneg
      exact absurd hneg (by omega)
    · rw [get_next_def]
      have hstop : Pi_struct.get_nextAux (u.size - u.next) u = u := by
        apply get_nextAux_stop
        intro hcon
        rcases hcon.2 with hlt | hfv
        · rw [hunr] at hlt
          have h1 := hact.2.1
          omega
        · rw [huval] at hfv
          have h2 := hact.2.2
          rw [h2] at hfv
          exact Bool.noConfusion hfv
      rw [hstop, if_neg (by omega : ¬ u.size ≤ u.next)]

/-- Claim C7: full characterization of `get_next`: the cursor only ever
skips non-actionable indices (invalid or with repeat count below one), a
nonnegative result is the cursor's new position and is actionable (the least
actionable index at or after the old cursor), `-1` means the action space is
exhausted from the old cursor on, only the cursor field changes, and a
second consecutive call returns the same result and leaves the node
unchanged (idempotence). -/
theorem get_next_spec (t : Pi_struct) :
    (t.get_next).2 = t.withNext (t.get_next).2.next
    ∧ t.next ≤ (t.get_next).2.next
    ∧ (∀ j, t.next ≤ j → j < (t.get_next).2.next → ¬actionable t j)
    ∧ (0 ≤ (t.get_next).1 →
        (t.get_next).1 = ((t.get_next).2.next : ℤ) ∧ actionable t (t.get_next).2.next)
    ∧ ((t.get_next).1 < 0 → (t.get_next).1 = -1 ∧ t.size ≤ (t.get_next).2.next
        ∧ ∀ j, t.next ≤ j → ¬actionable t j)
    ∧ Pi_struct.get_next (t.get_next).2 = t.get_next :=
  get_next_facts t

/-! ## A deterministic replayable environment -/

/-- A deterministic replayable environment, the shape of a single SAT problem
instance: the internal state is the action history since the last reset plus
a running count of `simulate` calls.  `D` decides whether a history is
terminal, `O` gives the observation after a history, `C` the visit counts
collected at a history, and `Sch` drives the `needEnv`/`needSim` flags of
`simulate`. -/
def replayEnv (D : List ℕ → Bool) (O : List ℕ → Obs) (C : List ℕ → List ℤ)
    (Sch : List ℕ → ℕ → Bool × Bool) : EnvI (List ℕ × ℕ) Unit where
  resetAt := fun _ _ => (([], 0), some (O []))
  simulate := fun s _ => ((s.1, s.2 + 1), O s.1, Sch s.1 s.2)
  getVisitCount := fun s => C s.1
  step := fun s a => ((s.1 ++ [a], s.2), D (s.1 ++ [a]), O (s.1 ++ [a]))


/-! ## The Finished phase is absorbing -/

/-- Once the driver is Finished (`phase = None`), every `get_state` call, for
every evaluator output and any fuel, returns `None` immediately and leaves
the driver, its tree and its environment handle completely unchanged; in
particular the driver never leaves the Finished phase. -/
theorem get_state_finished {σ E : Type} (env : EnvI σ E) (oracle : ℕ → List ℤ)
    (simFuel fuel : ℕ) (ms : MCTState σ) (e : E) (h : ms.phase = none) :
    get_state env oracle simFuel fuel ms e = (.noData, ms) := by
  unfold get_state
  rw [if_pos h]

def trivEnv : EnvI Unit Unit where
  resetAt := fun _ _ => ((), none)
  simulate := fun _ _ => ((), ⟨[], 0⟩, false, false)
  getVisitCount := fun _ => []
  step := fun _ _ => ((), false, ⟨[], 0⟩)

def finishedMS : MCTState Unit :=
  ⟨none, [], (), ⟨[], 0⟩, 0, 0, 0, none, 3, 0, [], [], []⟩

theorem get_state_finished_witness :
    finishedMS.phase = none ∧
    get_state trivEnv (fun _ => []) 5 5 finishedMS () = (.noData, finishedMS) :=
  ⟨rfl, get_state_finished trivEnv (fun _ => []) 5 5 finishedMS () rfl⟩

/-! ## Emission is a post-order traversal of the expanded nodes -/

/-- The training example emitted for a node, given `standard`. -/
noncomputable def emitTuple (fno : ℕ) (std : ℝ × ℝ × ℝ) (n : Pi_struct) : Emit :=
  (fno, n.stateP, PiVal n,
    Real.tanh ((std.2.1 - (n.score : ℝ) / (n.rpt : ℝ)) * 3 / std.2.1), n.rpt)

theorem analyze_eq_postorder_aux (fno : ℕ) (std : ℝ × ℝ × ℝ) :
    ∀ (n : ℕ) (t : Pi_struct), sizeOf t ≤ n → WfEval t →
    analyze_Pi_graph_dump fno t std
      = ((postOrder t).filter (fun m => m.evaluated)).map (emitTuple fno std) := by
  intro n
  induction n with
  | zero =>
    intro t hsz _
    obtain ⟨a, b, c, d, e, f, g, h, i, j, k, l, m⟩ := t
    simp [Pi_struct.mk.sizeOf_spec] at hsz
  | succ n ih =>
    intro t hsz hwf
    cases hwf with
    | mk _ hleaf hch =>
      cases hev : t.evaluated
      · rw [analyze_Pi_graph_dump, postOrder, if_pos hev, hleaf hev]
        simp [hev]
      · have hev' : ¬t.evaluated = false := by
          rw [hev]
          exact fun hcon => Bool.noConfusion hcon
        rw [analyze_Pi_graph_dump, postOrder, if_neg hev']
        rw [List.filter_append, List.map_append, List.filter_flatten, List.map_flatten]
        have hown : List.filter (fun m => m.evaluated) [t] = [t] := by
          simp [List.filter, hev]
        rw [hown]
        congr 1
        apply congrArg List.flatten
        rw [List.map_map, List.map_map]
        apply List.map_congr_left
        intro p _
        have hsz2 : sizeOf p.1.2 ≤ n := by
          have := sizeOf_child_lt p.2
          omega
        exact ih p.1.2 hsz2 (hch p.1 p.2)

/-- `analyze_Pi_graph_dump` emits exactly the expanded nodes, in post-order
(children before parent, children in dict insertion order), each as the
tuple `(file_no, cachedState, policy, tanh-mapped score, repeatBudget)`. -/
theorem analyze_eq_postorder (fno : ℕ) (std : ℝ × ℝ × ℝ) (t : Pi_struct) (hwf : WfEval t) :
    analyze_Pi_graph_dump fno t std
      = ((postOrder t).filter (fun m => m.evaluated)).map (emitTuple fno std) :=
  analyze_eq_postorder_aux fno std (sizeOf t) t le_rfl hwf

/-- `write_data_to_buffer` on a driver with a tree: a post-order dump of the
expanded nodes, with `meanScale = rootAccumulatedScore / rootRepeatBudget`
(in `standard.2.1`) and per node
`score = tanh((meanScale - accumulatedScore/repeatBudget) * 3 / meanScale)`. -/
theorem write_data_to_buffer_spec {σ : Type} (ms : MCTState σ) (root : Pi_struct)
    (hroot : ms.tree = some root) (hwf : WfEval root) :
    write_data_to_buffer ms
      = ((postOrder root).filter (fun m => m.evaluated)).map
          (emitTuple ms.file_no
            ((ms.min_step : ℝ), (root.score : ℝ) / (root.rpt : ℝ), (ms.max_step : ℝ))) := by
  unfold write_data_to_buffer
  rw [hroot]
  exact analyze_eq_postorder _ _ _ hwf

/-! ## Concrete self-play runs

In each scenario below the driver is constructed on problem index `7` with
`max_var1 = 1` (action space of size 2, both actions valid) and
`resignDepth = 1000000`, and driven to completion by `selfPlay`.  One entry
is appended to `consumedLog` per terminal/resign event, and every such event
is followed either by a rewind to the root or by the final transition to
Finished, so `consumedLog.length` is the number of root-to-terminal
traversals. -/

def obs2 : Obs := ⟨[true, true], 0⟩

/-- The 1-step terminal environment: every `step` reports `isDone = true`. -/
def env1step : EnvI (List ℕ × ℕ) Unit :=
  replayEnv (fun _ => true) (fun _ => obs2) (fun _ => [1, 0]) (fun _ _ => (false, false))

/-- The driver of claim C3's scenario (`repeatBudget = 1`), fully
self-played: visit counts `[1, 0]`, the single rollout sampled on action 0. -/
def run1step : Option (MCTState (List ℕ × ℕ)) :=
  (MCT.construct env1step ([], 0) 7 1 1 (fun _ => 1) 1000000).bind
    (fun m => selfPlay env1step (fun _ => [0]) 10 10 6 m ())

/-- Counterexample to claim C3 as stated: on the 1-step terminal problem with
`repeatBudget = 1` and `resignDepth = 1000000`, `set_next` is called exactly
once but with score contribution `0` (the driver's current node at the
terminal step is still the root, whose `level` is `0`, and the score passed
is `level * nrepeats[a] = 0 * 1`), so `report_performance` returns
`(7, 1, 0)`, not `(7, 1, 1)`. -/
theorem run1step_cex :
    run1step.map (fun m => report_performance m) = some (7, 1, 0)
    ∧ run1step.map (fun m => m.snLog) = some [0]
    ∧ ((7, (1 : ℤ), (0 : ℤ)) : ℕ × ℤ × ℤ) ≠ (7, 1, 1) :=
  ⟨by decide, by decide, by decide⟩

/-- Amended claim C3: on the 1-step terminal problem (`isDone = true` on the
first `step`) with `repeatBudget = 1` and `resignDepth = 1000000`, `set_next`
is called exactly once, with score contribution `depth * 1` where
`depth = 0` (the current node at the terminal step is the root, at level 0);
the root's accumulated score ends `0`; the one terminal event consumes the
single repeat; the driver transitions to Finished; and
`report_performance` returns `(problemId, 1, 0)`. -/
theorem run1step_spec :
    run1step.map (fun m => report_performance m) = some (7, 1, 0)
    ∧ run1step.map (fun m => m.snLog) = some [0]
    ∧ run1step.map (fun m => m.snInitLog) = some [0]
    ∧ run1step.map (fun m => m.consumedLog) = some [1]
    ∧ run1step.map (fun m => m.phase.isNone) = some true
    ∧ run1step.map (fun m => m.tree.map Pi_struct.score) = some (some 0) :=
  ⟨by decide, by decide, by decide, by decide, by decide, by decide⟩

/-- A depth-2 environment: the episode is done after two steps. -/
def env2deep : EnvI (List ℕ × ℕ) Unit :=
  replayEnv (fun h => decide (2 ≤ h.length)) (fun _ => obs2) (fun _ => [1, 0])
    (fun _ _ => (false, false))

/-- A complete self-play run with `repeatBudget = 1` that reaches depth 2:
the leaf's terminal event contributes `1`, and the leaf's exhaustion then
forwards its accumulated score `1` to the root in a second `set_next`
frame. -/
def run2deep : Option (MCTState (List ℕ × ℕ)) :=
  (MCT.construct env2deep ([], 0) 7 1 1 (fun _ => 1) 1000000).bind
    (fun m => selfPlay env2deep (fun _ => [0]) 10 20 10 m ())

/-- Counterexample to claim C4 as stated: across this whole run the score
arguments passed into `set_next` calls are `[1, 1]` (the terminal credit at
the depth-1 node, then the recursive forwarding of that node's score to the
root), summing to `2`, while the root's final accumulated score is `1`: a
node's contribution is counted once per ancestor, so summing over all
`set_next` calls double-counts. -/
theorem run2deep_cex :
    run2deep.map (fun m => m.snLog) = some [1, 1]
    ∧ run2deep.map (fun m => m.snLog.sum) = some 2
    ∧ run2deep.map (fun m => m.tree.map Pi_struct.score) = some (some 1)
    ∧ (2 : ℤ) ≠ 1 :=
  ⟨by decide, by decide, by decide, by decide⟩

/-- The immediate-terminal environment used for claim C5's counterexample. -/
def envBatch : EnvI (List ℕ × ℕ) Unit :=
  replayEnv (fun _ => true) (fun _ => obs2) (fun _ => [2, 0]) (fun _ _ => (false, false))

/-- A complete run with `repeatBudget = 2` in which both sampled rollouts
fall on action 0 (`nrepeats = [2, 0]`) and the first step is terminal. -/
def runBatch : Option (MCTState (List ℕ × ℕ)) :=
  (MCT.construct envBatch ([], 0) 7 1 2 (fun _ => 1) 1000000).bind
    (fun m => selfPlay envBatch (fun _ => [0, 0]) 10 20 10 m ())

/-- Counterexample to claim C5 as stated: with root `repeatBudget = R = 2`,
only ONE root-to-terminal traversal occurs before `set_next` returns `-1` at
the root, because the single terminal event consumes the whole repeat budget
`nrepeats[0] = 2` of the stepped action at once. -/
theorem runBatch_cex :
    runBatch.map (fun m => m.tree.map Pi_struct.rpt) = some (some 2)
    ∧ runBatch.map (fun m => m.consumedLog) = some [2]
    ∧ runBatch.map (fun m => m.phase.isNone) = some true
    ∧ (1 : ℕ) ≠ 2 :=
  ⟨by decide, by decide, by decide, by decide⟩

/-! ## Witnesses and remaining counterexamples -/

/-- Counterexample to claim C6 as stated: at `nact = 0` the empty input
satisfies the precondition (vacuously), yet the trailing write
`counts[base]` is out of bounds and the function raises instead of
returning a length-0 vector. -/
theorem get_nrepeat_count_zero_nact_cex :
    (∀ x ∈ ([] : List ℤ), 0 ≤ x ∧ x < ((0 : ℕ) : ℤ)) ∧ get_nrepeat_count [] 0 = none :=
  ⟨by decide, by decide⟩

theorem get_nrepeat_count_spec_witness :
    1 ≤ 3 ∧ (∀ x ∈ ([0, 2, 2] : List ℤ), 0 ≤ x ∧ x < ((3 : ℕ) : ℤ)) ∧
    (∃ v, get_nrepeat_count [0, 2, 2] 3 = some v ∧ v.length = 3 ∧
      (∀ a : ℕ, a < 3 → v.getD a 0 = ((([0, 2, 2] : List ℤ).count ((a : ℕ) : ℤ) : ℕ) : ℤ)) ∧
      v.sum = ((([0, 2, 2] : List ℤ).length : ℕ) : ℤ)) :=
  ⟨by decide, by decide, get_nrepeat_count_spec [0, 2, 2] 3 (by decide) (by decide)⟩

/-- Counterexample to claim C10 as stated: the entry `-1` lies outside
`[0, nact)`, yet `get_nrepeat_count` returns normally (the scan's `base`
never becomes negative, so a negative entry is never used as an index —
it is merely miscounted into index 0). -/
theorem get_nrepeat_count_neg_entry_cex :
    get_nrepeat_count [-1] 1 = some [1] ∧ ¬(∀ x ∈ ([-1] : List ℤ), 0 ≤ x) :=
  ⟨by decide, by decide⟩

theorem get_nrepeat_count_total_iff_witness :
    (((get_nrepeat_count [1, -4] 2).isSome
        ↔ 1 ≤ 2 ∧ ∀ x ∈ ([1, -4] : List ℤ), x < ((2 : ℕ) : ℤ))
      ∧ (1 ≤ 2 → get_nrepeat_count [] 2 = some (List.replicate 2 0))) :=
  get_nrepeat_count_total_iff [1, -4] 2

def c1Node : Pi_struct := (Pi_struct.init 2 1 0 7 (fun _ => 1)).withStateObs obs2

def c1Expanded : Pi_struct :=
  c1Node.evalWith [1, 0] [1, 0] [(0, Pi_struct.init 2 1 1 7 (fun _ => 1))]

theorem add_counts_spec_witness :
    c1Node.add_counts [1, 0] [0] = some c1Expanded
    ∧ (([1, 0] : List ℤ).sum = Pi_struct.maskedSum [1, 0] c1Node.isValid
      ∧ 0 < ([1, 0] : List ℤ).sum
      ∧ Pi_struct.maskedSum c1Expanded.nrepeats c1Node.isValid = c1Node.rpt
      ∧ c1Expanded.children.map Prod.fst
          = (List.range c1Node.size).filter (fun a => decide (1 ≤ c1Expanded.nrepeats.getD a 0))
      ∧ (∀ p ∈ c1Expanded.children, p.2.rpt = c1Expanded.nrepeats.getD p.1 0
          ∧ p.2.level = c1Node.level + 1 ∧ p.2.size = c1Node.size
          ∧ p.2.file_no = c1Node.file_no ∧ p.2.tauF = c1Node.tauF
          ∧ p.2.evaluated = false ∧ p.2.score = 0 ∧ p.2.next = 0 ∧ p.2.children = [])) :=
  ⟨rfl, add_counts_spec c1Node [1, 0] [0] c1Expanded rfl⟩

theorem get_PI_eq_spec_witness :
    (∀ x ∈ [(1 : ℝ), 2], 0 ≤ x) ∧ 0 < ([(1 : ℝ), 2]).sum ∧ 0 < (1 : ℝ)
    ∧ get_PI [(1 : ℝ), 2] 1 3 = get_PI_spec [(1 : ℝ), 2] 1 := by
  have h1 : ∀ x ∈ [(1 : ℝ), 2], 0 ≤ x := by
    intro x hx
    rcases List.mem_cons.1 hx with rfl | hx2
    · norm_num
    · rcases List.mem_cons.1 hx2 with rfl | hx3
      · norm_num
      · exact absurd hx3 (List.not_mem_nil x)
  have h2 : 0 < ([(1 : ℝ), 2]).sum := by
    rw [List.sum_cons, List.sum_cons, List.sum_nil]
    norm_num
  exact ⟨h1, h2, one_pos, (get_PI_eq_spec [(1 : ℝ), 2] 1 3 h1 h2 one_pos).1⟩

def c8Root : Pi_struct :=
  (Pi_struct.init 2 1 0 7 (fun _ => 1)).evalWith [1, 0] [1, 0]
    [(0, Pi_struct.init 2 1 1 7 (fun _ => 1))]

def c8MS : MCTState Unit := ⟨some c8Root, [], (), ⟨[], 0⟩, 0, 1, 5, none, 7, 1, [], [], []⟩

theorem write_data_to_buffer_spec_witness :
    c8MS.tree = some c8Root
    ∧ WfEval c8Root
    ∧ write_data_to_buffer c8MS = ((postOrder c8Root).filter (fun m => m.evaluated)).map
        (emitTuple c8MS.file_no
          ((c8MS.min_step : ℝ), (c8Root.score : ℝ) / (c8Root.rpt : ℝ), (c8MS.max_step : ℝ))) := by
  have hchild : WfEval (Pi_struct.init 2 1 1 7 (fun _ => (1 : ℝ))) := by
    refine WfEval.mk _ (fun _ => rfl) ?_
    intro q hq
    rw [Pi_struct.init_children] at hq
    exact absurd hq (List.not_mem_nil q)
  have hwf : WfEval c8Root := by
    refine WfEval.mk _ (fun hcon => absurd hcon (by decide)) ?_
    intro p hp
    rw [show c8Root.children = [(0, Pi_struct.init 2 1 1 7 (fun _ => 1))] from rfl] at hp
    rw [List.mem_singleton] at hp
    rw [hp]
    exact hchild
  exact ⟨rfl, hwf, write_data_to_buffer_spec c8MS c8Root rfl hwf⟩

/-! ## Conserved quantities of the exploration

`remF t` is the remaining repeat budget of the subtree at `t`: the full
budget when `t` is unexpanded, otherwise the remaining budgets of the still
open (valid, not yet passed by the cursor) children.  `openScore t` is the
accumulated score still "in flight" in the subtree: the node's own score
plus the open children's.  The driver maintains
`consumedLog.sum + remF root = root.rpt` and `snInitLog.sum = openScore root`. -/

/-- The children of `t` that the cursor has not yet passed and that are
valid. -/
def openKeys (t : Pi_struct) : List (ℕ × Pi_struct) :=
  t.children.filter (fun p => decide (t.next ≤ p.1) && t.isValid.getD p.1 false)

theorem mem_children_of_mem_openKeys {t : Pi_struct} {p : ℕ × Pi_struct}
    (h : p ∈ openKeys t) : p ∈ t.children :=
  List.mem_of_mem_filter h

def remF (t : Pi_struct) : ℤ :=
  if t.evaluated = false then t.rpt
  else (((openKeys t).attach).map (fun p => remF p.1.2)).sum
termination_by sizeOf t
decreasing_by
  exact sizeOf_child_lt (mem_children_of_mem_openKeys p.2)

def openScore (t : Pi_struct) : ℤ :=
  t.score + (((openKeys t).attach).map (fun p => openScore p.1.2)).sum
termination_by sizeOf t
decreasing_by
  exact sizeOf_child_lt (mem_children_of_mem_openKeys p.2)

theorem remF_eq (t : Pi_struct) :
    remF t = if t.evaluated = false then t.rpt
      else ((openKeys t).map (fun p => remF p.2)).sum := by
  by_cases h : t.evaluated = false
  · rw [remF, if_pos h, if_pos h]
  · rw [remF, if_neg h, if_neg h]
    exact congrArg List.sum (List.attach_map_coe (openKeys t) (fun p => remF p.2))

theorem openScore_eq (t : Pi_struct) :
    openScore t = t.score + ((openKeys t).map (fun p => openScore p.2)).sum := by
  rw [openScore]
  exact congrArg (HAdd.hAdd t.score)
    (congrArg List.sum (List.attach_map_coe (openKeys t) (fun p => openScore p.2)))

theorem remF_uneval {t : Pi_struct} (h : t.evaluated = false) : remF t = t.rpt := by
  rw [remF_eq, if_pos h]

theorem openKeys_nil {t : Pi_struct} (h : t.children = []) : openKeys t = [] := by
  rw [openKeys, h]
  rfl

theorem openScore_leaf {t : Pi_struct} (h : t.children = []) : openScore t = t.score := by
  rw [openScore_eq, openKeys_nil h]
  simp

/-! ## Structural well-formedness of driver trees -/

/-- The structural facts that every tree built by the driver satisfies:
unexpanded nodes are blank; expanded nodes keep mask/count vectors of the
action-space size, nonnegative repeat counts whose masked sum is the repeat
budget, and children exactly at the actions with positive repeat count; and
each child's budget is its repeat count. -/
inductive WfT : Pi_struct → Prop where
  | mk (t : Pi_struct)
      (hleaf : t.evaluated = false → t.children = [] ∧ t.score = 0 ∧ t.next = 0)
      (heval : t.evaluated = true → t.nrepeats.length = t.size ∧ t.isValid.length = t.size
        ∧ t.children.map Prod.fst
            = (List.range t.size).filter (fun a => decide (1 ≤ t.nrepeats.getD a 0))
        ∧ (∀ x ∈ t.nrepeats, 0 ≤ x)
        ∧ Pi_struct.maskedSum t.nrepeats t.isValid = t.rpt)
      (hrpt : ∀ p ∈ t.children, p.2.rpt = t.nrepeats.getD p.1 0)
      (hch : ∀ p ∈ t.children, WfT p.2) : WfT t

theorem WfT.hleaf {t : Pi_struct} (h : WfT t) :
    t.evaluated = false → t.children = [] ∧ t.score = 0 ∧ t.next = 0 := by
  cases h with
  | mk _ h1 _ _ _ => exact h1

theorem WfT.heval {t : Pi_struct} (h : WfT t) :
    t.evaluated = true → t.nrepeats.length = t.size ∧ t.isValid.length = t.size
      ∧ t.children.map Prod.fst
          = (List.range t.size).filter (fun a => decide (1 ≤ t.nrepeats.getD a 0))
      ∧ (∀ x ∈ t.nrepeats, 0 ≤ x)
      ∧ Pi_struct.maskedSum t.nrepeats t.isValid = t.rpt := by
  cases h with
  | mk _ _ h2 _ _ => exact h2

theorem WfT.hrpt {t : Pi_struct} (h : WfT t) :
    ∀ p ∈ t.children, p.2.rpt = t.nrepeats.getD p.1 0 := by
  cases h with
  | mk _ _ _ h3 _ => exact h3

theorem WfT.wfch {t : Pi_struct} (h : WfT t) : ∀ p ∈ t.children, WfT p.2 := by
  cases h with
  | mk _ _ _ _ h4 => exact h4

/-- Under `WfT`, every child key has a repeat count of at least one. -/
theorem WfT.key_pos {t : Pi_struct} (h : WfT t) (hev : t.evaluated = true) :
    ∀ p ∈ t.children, 1 ≤ t.nrepeats.getD p.1 0 ∧ p.1 < t.size := by
  intro p hp
  have hkeys := (h.heval hev).2.2.1
  have hmem : p.1 ∈ t.children.map Prod.fst := List.mem_map.2 ⟨p, hp, rfl⟩
  rw [hkeys, List.mem_filter] at hmem
  refine ⟨by simpa using hmem.2, List.mem_range.1 hmem.1⟩

/-- Under `WfT`, the children keys have no duplicates. -/
theorem WfT.keys_nodup {t : Pi_struct} (h : WfT t) (hev : t.evaluated = true) :
    (t.children.map Prod.fst).Nodup := by
  rw [(h.heval hev).2.2.1]
  exact (List.nodup_range _).filter _

/-- A blank node (unexpanded, zero score, childless) holds no open score and
its full budget. -/
theorem openScore_uneval {t : Pi_struct} (h : WfT t) (hev : t.evaluated = false) :
    openScore t = 0 := by
  obtain ⟨hch, hsc, _⟩ := h.hleaf hev
  rw [openScore_leaf hch, hsc]

/-- An exhausted expanded node (no actionable index at or after the cursor)
has no open children: all its remaining budget is gone and its open score is
its own score. -/
theorem openKeys_exhausted {t : Pi_struct} (h : WfT t) (hev : t.evaluated = true)
    (hex : ∀ j, t.next ≤ j → ¬actionable t j) : openKeys t = [] := by
  rw [openKeys, List.filter_eq_nil_iff]
  intro p hp
  intro hcon
  rw [Bool.and_eq_true, decide_eq_true_iff] at hcon
  obtain ⟨h1, h2⟩ := hcon
  obtain ⟨hrep, hlt⟩ := h.key_pos hev p hp
  exact hex p.1 h1 ⟨hlt, hrep, h2⟩

theorem remF_exhausted {t : Pi_struct} (h : WfT t) (hev : t.evaluated = true)
    (hex : ∀ j, t.next ≤ j → ¬actionable t j) : remF t = 0 := by
  rw [remF_eq, if_neg (by rw [hev]; exact fun hcon => Bool.noConfusion hcon),
    openKeys_exhausted h hev hex]
  rfl

theorem openScore_exhausted {t : Pi_struct} (h : WfT t) (hev : t.evaluated = true)
    (hex : ∀ j, t.next ≤ j → ¬actionable t j) : openScore t = t.score := by
  rw [openScore_eq, openKeys_exhausted h hev hex]
  simp

/-! ## Children-list surgery -/

theorem map_replace_of_nodup {c c' : Pi_struct} :
    ∀ (ch : List (ℕ × Pi_struct)) (a : ℕ), (ch.map Prod.fst).Nodup → (a, c) ∈ ch →
    ∃ l1 l2, ch = l1 ++ (a, c) :: l2
      ∧ (ch.map (fun p => if p.1 == a then (p.1, c') else p)) = l1 ++ (a, c') :: l2
      ∧ (∀ p ∈ l1, p.1 ≠ a) ∧ (∀ p ∈ l2, p.1 ≠ a) := by
  intro ch
  induction ch with
  | nil => intro a _ hmem; exact absurd hmem (List.not_mem_nil _)
  | cons hd rest ih =>
    intro a hnd hmem
    rw [List.map_cons, List.nodup_cons] at hnd
    by_cases hk : hd.1 = a
    · have hhd : hd = (a, c) := by
        rcases List.mem_cons.1 hmem with h | h
        · exact h.symm
        · exfalso
          apply hnd.1
          rw [hk]
          exact List.mem_map.2 ⟨(a, c), h, rfl⟩
      refine ⟨[], rest, by rw [hhd]; rfl, ?_,
        by intro p hp; exact absurd hp (List.not_mem_nil _), ?_⟩
      · rw [List.map_cons, hhd]
        simp only [List.nil_append]
        have hrest : rest.map (fun p => if p.1 == a then (p.1, c') else p) = rest := by
          have hpt : ∀ p ∈ rest, (fun p : ℕ × Pi_struct => if p.1 == a then (p.1, c') else p) p
              = id p := by
            intro p hp
            have hne : p.1 ≠ a := by
              intro hcon
              apply hnd.1
              rw [hk, ← hcon]
              exact List.mem_map.2 ⟨p, hp, rfl⟩
            simp [hne]
          rw [List.map_congr_left hpt, List.map_id]
        rw [hrest]
        simp
      · intro p hp hcon
        apply hnd.1
        rw [hk, ← hcon]
        exact List.mem_map.2 ⟨p, hp, rfl⟩
    · have hmem2 : (a, c) ∈ rest := by
        rcases List.mem_cons.1 hmem with h | h
        · exact absurd (congrArg Prod.fst h.symm) hk
        · exact h
      obtain ⟨l1, l2, he1, he2, hl1, hl2⟩ := ih a hnd.2 hmem2
      refine ⟨hd :: l1, l2, by rw [List.cons_append, he1], ?_, ?_, hl2⟩
      · rw [List.map_cons, he2, List.cons_append]
        have : (hd.1 == a) = false := by
          simp [hk]
        rw [this]
        simp
      · intro p hp
        rcases List.mem_cons.1 hp with rfl | hp2
        · exact hk
        · exact hl1 p hp2

theorem find?_append_cons {a : ℕ} {c : Pi_struct} (l1 l2 : List (ℕ × Pi_struct))
    (hl1 : ∀ p ∈ l1, p.1 ≠ a) :
    (l1 ++ (a, c) :: l2).find? (fun p => p.1 == a) = some (a, c) := by
  induction l1 with
  | nil =>
    simp [List.find?]
  | cons hd rest ih =>
    rw [List.cons_append, List.find?]
    have : (hd.1 == a) = false := by
      simp [hl1 hd (List.mem_cons_self _ _)]
    rw [this]
    exact ih (fun p hp => hl1 p (List.mem_cons_of_mem _ hp))

theorem find?_of_mem_key {t : Pi_struct} {a : ℕ} (hnd : (t.children.map Prod.fst).Nodup)
    (hmem : a ∈ t.children.map Prod.fst) :
    ∃ c, t.children.find? (fun p => p.1 == a) = some (a, c) ∧ (a, c) ∈ t.children := by
  obtain ⟨p, hp, hfst⟩ := List.mem_map.1 hmem
  obtain ⟨c, hc⟩ : ∃ c, p = (a, c) := ⟨p.2, by rw [← hfst]⟩
  subst hc
  obtain ⟨l1, l2, he1, _, hl1, _⟩ :=
    @map_replace_of_nodup c c t.children a hnd hp
  refine ⟨c, ?_, hp⟩
  rw [he1]
  exact find?_append_cons l1 l2 hl1

theorem find?_eq_some_key {t : Pi_struct} {a : ℕ} {p : ℕ × Pi_struct}
    (h : t.children.find? (fun q => q.1 == a) = some p) :
    p.1 = a ∧ p ∈ t.children := by
  have h1 := List.find?_some h
  have h2 := List.mem_of_find?_eq_some h
  rw [beq_iff_eq] at h1
  exact ⟨h1, h2⟩

/-- `childGet` agrees with a successful `find?`. -/
theorem childGet_eq {t : Pi_struct} {a : ℕ} {c : Pi_struct}
    (h : t.children.find? (fun p => p.1 == a) = some (a, c)) :
    Pi_struct.childGet t a = c := by
  rw [Pi_struct.childGet, h]
  rfl

theorem find?_map_replace {b a : ℕ} {c' : Pi_struct} (hne : b ≠ a) :
    ∀ l : List (ℕ × Pi_struct),
    (l.map (fun p => if p.1 == a then (p.1, c') else p)).find? (fun p => p.1 == b)
      = l.find? (fun p => p.1 == b) := by
  intro l
  induction l with
  | nil => rfl
  | cons hd rest ih =>
    rw [List.map_cons]
    by_cases hk : hd.1 = a
    · have h1 : (if (hd.1 == a) = true then (hd.1, c') else hd) = (hd.1, c') := by
        simp [hk]
      rw [h1, List.find?_cons_of_neg, List.find?_cons_of_neg]
      · exact ih
      · show ¬(hd.1 == b) = true
        simp only [beq_iff_eq, hk]
        exact fun hcon => hne hcon.symm
      · show ¬(((hd.1, c') : ℕ × Pi_struct).1 == b) = true
        simp only [beq_iff_eq, hk]
        exact fun hcon => hne hcon.symm
    · have h1 : (if (hd.1 == a) = true then (hd.1, c') else hd) = hd := by
        simp [hk]
      rw [h1]
      by_cases hb : hd.1 = b
      · rw [List.find?_cons_of_pos _ (by simp [hb]), List.find?_cons_of_pos _ (by simp [hb])]
      · rw [List.find?_cons_of_neg _ (by simp [hb]), List.find?_cons_of_neg _ (by simp [hb])]
        exact ih

theorem childSet_keys {t : Pi_struct} (a : ℕ) (c' : Pi_struct) :
    (t.childSet a c').children.map Prod.fst = t.children.map Prod.fst := by
  rw [Pi_struct.childSet_children, List.map_map]
  apply List.map_congr_left
  intro p _
  by_cases hk : p.1 = a <;> simp [hk]

/-- Replacing the child at an open edge (valid, not yet passed by the
cursor) shifts `remF` by the replacement's difference. -/
theorem remF_childSet_open {t : Pi_struct} {a : ℕ} {c c' : Pi_struct}
    (hev : t.evaluated = true) (hnd : (t.children.map Prod.fst).Nodup)
    (hmem : (a, c) ∈ t.children)
    (hopen : t.next ≤ a ∧ t.isValid.getD a false = true) :
    remF (t.childSet a c') = remF t - remF c + remF c' := by
  obtain ⟨l1, l2, he1, he2, _, _⟩ := @map_replace_of_nodup c c' t.children a hnd hmem
  have hnev : ¬t.evaluated = false := by
    rw [hev]
    exact fun h => Bool.noConfusion h
  have hnev2 : ¬(t.childSet a c').evaluated = false := by
    rw [Pi_struct.childSet_evaluated, hev]
    exact fun h => Bool.noConfusion h
  have hFc : (decide (t.next ≤ a) && t.isValid.getD a false) = true := by
    rw [hopen.2, decide_eq_true hopen.1]
    rfl
  rw [remF_eq, remF_eq, if_neg hnev, if_neg hnev2, openKeys, openKeys]
  simp only [Pi_struct.childSet_children, Pi_struct.childSet_next, Pi_struct.childSet_isValid]
  rw [he2, he1, List.filter_append, List.filter_append, List.filter_cons, List.filter_cons]
  simp only [hFc, if_true]
  rw [List.map_append, List.map_append, List.sum_append, List.sum_append,
    List.map_cons, List.map_cons, List.sum_cons, List.sum_cons]
  ring

/-- Replacing the child at an open edge shifts `openScore` by the
replacement's difference. -/
theorem openScore_childSet_open {t : Pi_struct} {a : ℕ} {c c' : Pi_struct}
    (hnd : (t.children.map Prod.fst).Nodup) (hmem : (a, c) ∈ t.children)
    (hopen : t.next ≤ a ∧ t.isValid.getD a false = true) :
    openScore (t.childSet a c') = openScore t - openScore c + openScore c' := by
  obtain ⟨l1, l2, he1, he2, _, _⟩ := @map_replace_of_nodup c c' t.children a hnd hmem
  have hFc : (decide (t.next ≤ a) && t.isValid.getD a false) = true := by
    rw [hopen.2, decide_eq_true hopen.1]
    rfl
  rw [openScore_eq, openScore_eq, openKeys, openKeys]
  simp only [Pi_struct.childSet_children, Pi_struct.childSet_next, Pi_struct.childSet_isValid,
    Pi_struct.childSet_score]
  rw [he2, he1, List.filter_append, List.filter_append, List.filter_cons, List.filter_cons]
  simp only [hFc, if_true]
  rw [List.map_append, List.map_append, List.sum_append, List.sum_append,
    List.map_cons, List.map_cons, List.sum_cons, List.sum_cons]
  ring

/-- `childSet` with a well-formed replacement of the same repeat budget
preserves tree well-formedness. -/
theorem WfT_childSet {t : Pi_struct} {a : ℕ} {c c' : Pi_struct}
    (hwf : WfT t) (hnd : (t.children.map Prod.fst).Nodup) (hmem : (a, c) ∈ t.children)
    (hwfc : WfT c') (hrptc : c'.rpt = c.rpt) :
    WfT (t.childSet a c') := by
  obtain ⟨l1, l2, he1, he2, _, _⟩ := @map_replace_of_nodup c c' t.children a hnd hmem
  refine WfT.mk _ ?_ ?_ ?_ ?_
  · intro hev
    rw [Pi_struct.childSet_evaluated] at hev
    obtain ⟨hc0, hs0, hn0⟩ := hwf.hleaf hev
    refine ⟨?_, by simpa using hs0, by simpa using hn0⟩
    rw [Pi_struct.childSet_children, hc0]
    rfl
  · intro hev
    rw [Pi_struct.childSet_evaluated] at hev
    have heq := hwf.heval hev
    simp only [Pi_struct.childSet_nrepeats, Pi_struct.childSet_isValid, Pi_struct.childSet_size,
      Pi_struct.childSet_rpt, childSet_keys]
    exact heq
  · intro p hp
    rw [Pi_struct.childSet_children, he2] at hp
    simp only [Pi_struct.childSet_nrepeats]
    rcases List.mem_append.1 hp with h | h
    · exact hwf.hrpt p (by rw [he1]; exact List.mem_append.2 (Or.inl h))
    · rcases List.mem_cons.1 h with rfl | h2
      · have hc := hwf.hrpt (a, c) hmem
        rw [show ((a, c') : ℕ × Pi_struct).2 = c' from rfl, hrptc]
        exact hc
      · exact hwf.hrpt p
          (by rw [he1]; exact List.mem_append.2 (Or.inr (List.mem_cons_of_mem _ h2)))
  · intro p hp
    rw [Pi_struct.childSet_children, he2] at hp
    rcases List.mem_append.1 hp with h | h
    · exact hwf.wfch p (by rw [he1]; exact List.mem_append.2 (Or.inl h))
    · rcases List.mem_cons.1 h with rfl | h2
      · exact hwfc
      · exact hwf.wfch p
          (by rw [he1]; exact List.mem_append.2 (Or.inr (List.mem_cons_of_mem _ h2)))

/-! ## The driver path and the exploration shape invariant -/

/-- The driver's path invariant for a deterministic replay environment: each
node along the remaining `path` (with accumulated action history `q`) is
expanded, its cursor sits exactly on the path edge, the edge is actionable
and known non-terminal (`D` false, below the resign depth), and the child
exists. -/
def PathD (D : List ℕ → Bool) (resign : ℕ) : Pi_struct → List ℕ → List ℕ → Prop
  | _, [], _ => True
  | t, a :: rest, q => t.evaluated = true ∧ t.next = a ∧ actionable t a
      ∧ D (q ++ [a]) = false ∧ t.level < resign
      ∧ ∃ c, t.children.find? (fun p => p.1 == a) = some (a, c)
          ∧ PathD D resign c rest (q ++ [a])

/-- The exploration-shape invariant: children strictly beyond the cursor are
unexplored, and an explored child sitting exactly at the cursor can only be
on a non-terminal edge below the resign depth. -/
inductive Shape (D : List ℕ → Bool) (resign : ℕ) : Pi_struct → List ℕ → Prop where
  | mk (t : Pi_struct) (q : List ℕ)
      (hbeyond : ∀ p ∈ t.children, t.next < p.1 → p.2.evaluated = false)
      (hcursor : ∀ p ∈ t.children, p.1 = t.next → p.2.evaluated = true →
          D (q ++ [p.1]) = false ∧ t.level < resign)
      (hch : ∀ p ∈ t.children, Shape D resign p.2 (q ++ [p.1])) : Shape D resign t q

theorem Shape.hbeyond {D : List ℕ → Bool} {resign : ℕ} {t : Pi_struct} {q : List ℕ}
    (h : Shape D resign t q) :
    ∀ p ∈ t.children, t.next < p.1 → p.2.evaluated = false := by
  cases h with
  | mk _ _ h1 _ _ => exact h1

theorem Shape.hcursor {D : List ℕ → Bool} {resign : ℕ} {t : Pi_struct} {q : List ℕ}
    (h : Shape D resign t q) :
    ∀ p ∈ t.children, p.1 = t.next → p.2.evaluated = true →
      D (q ++ [p.1]) = false ∧ t.level < resign := by
  cases h with
  | mk _ _ _ h2 _ => exact h2

theorem Shape.shch {D : List ℕ → Bool} {resign : ℕ} {t : Pi_struct} {q : List ℕ}
    (h : Shape D resign t q) :
    ∀ p ∈ t.children, Shape D resign p.2 (q ++ [p.1]) := by
  cases h with
  | mk _ _ _ _ h3 => exact h3

theorem actionable_childSet (t : Pi_struct) (a j : ℕ) (c : Pi_struct) :
    actionable (t.childSet a c) j ↔ actionable t j := by
  simp [actionable]

theorem find?_childSet_self {t : Pi_struct} {a : ℕ} {c c' : Pi_struct}
    (hnd : (t.children.map Prod.fst).Nodup) (hmem : (a, c) ∈ t.children) :
    (t.childSet a c').children.find? (fun p => p.1 == a) = some (a, c') := by
  obtain ⟨l1, l2, _, he2, hl1, _⟩ := @map_replace_of_nodup c c' t.children a hnd hmem
  rw [Pi_struct.childSet_children, he2]
  exact find?_append_cons l1 l2 hl1

theorem Shape_childSet {D : List ℕ → Bool} {resign : ℕ} {t : Pi_struct} {q : List ℕ}
    {a : ℕ} {c c' : Pi_struct}
    (hsh : Shape D resign t q) (hnd : (t.children.map Prod.fst).Nodup)
    (hmem : (a, c) ∈ t.children)
    (hcur : c'.evaluated = true → a = t.next → D (q ++ [a]) = false ∧ t.level < resign)
    (hbey : t.next < a → c'.evaluated = false)
    (hsh' : Shape D resign c' (q ++ [a])) : Shape D resign (t.childSet a c') q := by
  obtain ⟨l1, l2, he1, he2, _, _⟩ := @map_replace_of_nodup c c' t.children a hnd hmem
  have hmem_of : ∀ p : ℕ × Pi_struct, p ∈ l1 ∨ p ∈ l2 → p ∈ t.children := by
    intro p hp
    rw [he1]
    rcases hp with h | h
    · exact List.mem_append.2 (Or.inl h)
    · exact List.mem_append.2 (Or.inr (List.mem_cons_of_mem _ h))
  refine Shape.mk _ _ ?_ ?_ ?_
  · intro p hp hlt
    rw [Pi_struct.childSet_children, he2] at hp
    rw [Pi_struct.childSet_next] at hlt
    rcases List.mem_append.1 hp with h | h
    · exact hsh.hbeyond p (hmem_of p (Or.inl h)) hlt
    · rcases List.mem_cons.1 h with rfl | h2
      · exact hbey hlt
      · exact hsh.hbeyond p (hmem_of p (Or.inr h2)) hlt
  · intro p hp hpeq hpev
    rw [Pi_struct.childSet_children, he2] at hp
    rw [Pi_struct.childSet_next] at hpeq
    rw [Pi_struct.childSet_level]
    rcases List.mem_append.1 hp with h | h
    · exact hsh.hcursor p (hmem_of p (Or.inl h)) hpeq hpev
    · rcases List.mem_cons.1 h with rfl | h2
      · exact hcur hpev hpeq
      · exact hsh.hcursor p (hmem_of p (Or.inr h2)) hpeq hpev
  · intro p hp
    rw [Pi_struct.childSet_children, he2] at hp
    rcases List.mem_append.1 hp with h | h
    · exact hsh.shch p (hmem_of p (Or.inl h))
    · rcases List.mem_cons.1 h with rfl | h2
      · exact hsh'
      · exact hsh.shch p (hmem_of p (Or.inr h2))

/-- The master congruence lemma: replacing the subtree at the end of an open
driver path shifts the conserved quantities by the local differences and
preserves well-formedness, the shape invariant and the path invariant. -/
theorem updAt_spec (D : List ℕ → Bool) (resign : ℕ) :
    ∀ (path q : List ℕ) (root cur cur' root' : Pi_struct),
    Pi_struct.nodeAt root path = some cur →
    Pi_struct.updAt root path cur' = some root' →
    WfT root → Shape D resign root q → PathD D resign root path q →
    WfT cur' → Shape D resign cur' (q ++ path) → cur'.rpt = cur.rpt →
    WfT root' ∧ Shape D resign root' q ∧ PathD D resign root' path q
      ∧ Pi_struct.nodeAt root' path = some cur'
      ∧ remF root' = remF root - remF cur + remF cur'
      ∧ openScore root' = openScore root - openScore cur + openScore cur'
      ∧ root'.rpt = root.rpt
      ∧ (path = [] → root' = cur')
      ∧ (path ≠ [] → root'.evaluated = root.evaluated) := by
  intro path
  induction path with
  | nil =>
    intro q root cur cur' root' hnode hupd hwf hsh _ hwfc hshc hrptc
    rw [Pi_struct.nodeAt] at hnode
    rw [Pi_struct.updAt] at hupd
    injection hnode with hnode
    injection hupd with hupd
    subst hnode
    subst hupd
    rw [List.append_nil] at hshc
    exact ⟨hwfc, hshc, trivial, rfl, by ring, by ring, hrptc, fun _ => rfl,
      fun hne => absurd rfl hne⟩
  | cons a rest ih =>
    intro q root cur cur' root' hnode hupd hwf hsh hPD hwfc hshc hrptc
    obtain ⟨hev, hnx, hact, hD, hlv, c, hfind, hPDc⟩ := hPD
    rw [Pi_struct.nodeAt, hfind] at hnode
    rw [Pi_struct.updAt, hfind] at hupd
    have hnode1 : Pi_struct.nodeAt c rest = some cur := hnode
    have hupd1 : Option.map (fun c2 => root.childSet a c2) (Pi_struct.updAt c rest cur')
        = some root' := hupd
    clear hnode hupd
    rcases hupd2 : Pi_struct.updAt c rest cur' with _ | c2
    · rw [hupd2] at hupd1
      exact Option.noConfusion hupd1
    · rw [hupd2, Option.map_some'] at hupd1
      injection hupd1 with hupd
      subst hupd
      have hmem : (a, c) ∈ root.children := (find?_eq_some_key hfind).2
      have hnd := hwf.keys_nodup hev
      have hwfc0 : WfT c := hwf.wfch (a, c) hmem
      have hshc0 : Shape D resign c (q ++ [a]) := hsh.shch (a, c) hmem
      have hassoc : q ++ a :: rest = (q ++ [a]) ++ rest := by
        simp
      rw [hassoc] at hshc
      obtain ⟨hwf2, hsh2, hPD2, hnode2, hrem2, hos2, hrpt2, _, _⟩ :=
        ih (q ++ [a]) c cur cur' c2 hnode1 hupd2 hwfc0 hshc0 hPDc hwfc hshc hrptc
      have hopen : root.next ≤ a ∧ root.isValid.getD a false = true :=
        ⟨le_of_eq hnx, hact.2.2⟩
      refine ⟨WfT_childSet hwf hnd hmem hwf2 hrpt2,
        Shape_childSet hsh hnd hmem (fun _ _ => ⟨hD, hlv⟩)
          (fun hlt => absurd hlt (by rw [hnx]; exact lt_irrefl a)) hsh2,
        ?_, ?_, ?_, ?_, by rw [Pi_struct.childSet_rpt],
        fun h => List.noConfusion h,
        fun _ => by rw [Pi_struct.childSet_evaluated]⟩
      · refine ⟨by rw [Pi_struct.childSet_evaluated]; exact hev,
          by rw [Pi_struct.childSet_next]; exact hnx,
          (actionable_childSet root a a c2).2 hact, hD,
          by rw [Pi_struct.childSet_level]; exact hlv,
          c2, find?_childSet_self hnd hmem, hPD2⟩
      · rw [Pi_struct.nodeAt, find?_childSet_self hnd hmem]
        exact hnode2
      · rw [remF_childSet_open hev hnd hmem hopen, hrem2]
        ring
      · rw [openScore_childSet_open hnd hmem hopen, hos2]
        ring

/-! ## Preservation of the invariants by the node updaters -/

/-- A blank node (no children, zero score, cursor at 0, unexpanded) is
well-formed. -/
theorem WfT_blank {t : Pi_struct} (hev : t.evaluated = false) (hc : t.children = [])
    (hs : t.score = 0) (hn : t.next = 0) : WfT t := by
  refine WfT.mk _ (fun _ => ⟨hc, hs, hn⟩) ?_ ?_ ?_
  · intro hev2
    rw [hev] at hev2
    exact Bool.noConfusion hev2
  · intro p hp
    rw [hc] at hp
    exact absurd hp (List.not_mem_nil p)
  · intro p hp
    rw [hc] at hp
    exact absurd hp (List.not_mem_nil p)

/-- A childless node satisfies the shape invariant. -/
theorem Shape_blank {D : List ℕ → Bool} {resign : ℕ} {t : Pi_struct} {q : List ℕ}
    (hc : t.children = []) : Shape D resign t q := by
  refine Shape.mk _ _ ?_ ?_ ?_ <;> intro p hp
  all_goals rw [hc] at hp; exact absurd hp (List.not_mem_nil p)

theorem WfT_withNext {t : Pi_struct} (hwf : WfT t) (hev : t.evaluated = true) (n : ℕ) :
    WfT (t.withNext n) := by
  refine WfT.mk _ ?_ ?_ ?_ ?_
  · intro hev2
    rw [Pi_struct.withNext_evaluated, hev] at hev2
    exact Bool.noConfusion hev2
  · intro _
    simp only [Pi_struct.withNext_nrepeats, Pi_struct.withNext_isValid, Pi_struct.withNext_size,
      Pi_struct.withNext_children, Pi_struct.withNext_rpt]
    exact hwf.heval hev
  · intro p hp
    rw [Pi_struct.withNext_children] at hp
    rw [Pi_struct.withNext_nrepeats]
    exact hwf.hrpt p hp
  · intro p hp
    rw [Pi_struct.withNext_children] at hp
    exact hwf.wfch p hp

/-- Moving the cursor forward preserves the shape invariant. -/
theorem Shape_withNext {D : List ℕ → Bool} {resign : ℕ} {t : Pi_struct} {q : List ℕ}
    (hsh : Shape D resign t q) {n : ℕ} (hmono : t.next ≤ n) :
    Shape D resign (t.withNext n) q := by
  refine Shape.mk _ _ ?_ ?_ ?_
  · intro p hp hlt
    rw [Pi_struct.withNext_children] at hp
    rw [Pi_struct.withNext_next] at hlt
    exact hsh.hbeyond p hp (by omega)
  · intro p hp hpeq hpev
    rw [Pi_struct.withNext_children] at hp
    rw [Pi_struct.withNext_next] at hpeq
    rw [Pi_struct.withNext_level]
    rcases eq_or_lt_of_le hmono with heq | hlt
    · exact hsh.hcursor p hp (by omega) hpev
    · have hun := hsh.hbeyond p hp (by omega)
      rw [hpev] at hun
      exact Bool.noConfusion hun
  · intro p hp
    rw [Pi_struct.withNext_children] at hp
    exact hsh.shch p hp

/-- Moving the cursor only over non-actionable indices does not change the
set of open children. -/
theorem openKeys_withNext_skip {t : Pi_struct} (hwf : WfT t) (hev : t.evaluated = true)
    {n : ℕ} (hmono : t.next ≤ n)
    (hskip : ∀ j, t.next ≤ j → j < n → ¬actionable t j) :
    openKeys (t.withNext n) = openKeys t := by
  rw [openKeys, openKeys, Pi_struct.withNext_children, Pi_struct.withNext_next,
    Pi_struct.withNext_isValid]
  apply List.filter_congr
  intro p hp
  obtain ⟨hrep, hsz⟩ := hwf.key_pos hev p hp
  by_cases hv : t.isValid.getD p.1 false = true
  · have hde : decide (n ≤ p.1) = decide (t.next ≤ p.1) := by
      by_cases hlow : p.1 < t.next
      · rw [decide_eq_false (by omega), decide_eq_false (by omega)]
      · have hhi : ¬(t.next ≤ p.1 ∧ p.1 < n) := by
          intro hcon
          exact hskip p.1 hcon.1 hcon.2 ⟨hsz, hrep, hv⟩
        rw [decide_eq_true (by omega), decide_eq_true (by omega)]
    rw [hde]
  · have hv2 : t.isValid.getD p.1 false = false := by
      cases hvv : t.isValid.getD p.1 false
      · rfl
      · exact absurd hvv hv
    rw [hv2, Bool.and_false, Bool.and_false]

theorem remF_withNext_skip {t : Pi_struct} (hwf : WfT t) (hev : t.evaluated = true)
    {n : ℕ} (hmono : t.next ≤ n)
    (hskip : ∀ j, t.next ≤ j → j < n → ¬actionable t j) :
    remF (t.withNext n) = remF t := by
  rw [remF_eq, remF_eq, if_neg (by rw [Pi_struct.withNext_evaluated, hev]; exact Bool.noConfusion),
    if_neg (by rw [hev]; exact Bool.noConfusion), openKeys_withNext_skip hwf hev hmono hskip]

theorem openScore_withNext_skip {t : Pi_struct} (hwf : WfT t) (hev : t.evaluated = true)
    {n : ℕ} (hmono : t.next ≤ n)
    (hskip : ∀ j, t.next ≤ j → j < n → ¬actionable t j) :
    openScore (t.withNext n) = openScore t := by
  rw [openScore_eq, openScore_eq, Pi_struct.withNext_score,
    openKeys_withNext_skip hwf hev hmono hskip]

theorem WfT_addScore {t : Pi_struct} (hwf : WfT t) (hev : t.evaluated = true) (s : ℤ) :
    WfT (t.addScore s) := by
  refine WfT.mk _ ?_ ?_ ?_ ?_
  · intro hev2
    rw [Pi_struct.addScore_evaluated, hev] at hev2
    exact Bool.noConfusion hev2
  · intro _
    simp only [Pi_struct.addScore_nrepeats, Pi_struct.addScore_isValid, Pi_struct.addScore_size,
      Pi_struct.addScore_children, Pi_struct.addScore_rpt]
    exact hwf.heval hev
  · intro p hp
    rw [Pi_struct.addScore_children] at hp
    rw [Pi_struct.addScore_nrepeats]
    exact hwf.hrpt p hp
  · intro p hp
    rw [Pi_struct.addScore_children] at hp
    exact hwf.wfch p hp

theorem Shape_addScore {D : List ℕ → Bool} {resign : ℕ} {t : Pi_struct} {q : List ℕ}
    (hsh : Shape D resign t q) (s : ℤ) : Shape D resign (t.addScore s) q := by
  refine Shape.mk _ _ ?_ ?_ ?_
  · intro p hp hlt
    rw [Pi_struct.addScore_children] at hp
    rw [Pi_struct.addScore_next] at hlt
    exact hsh.hbeyond p hp hlt
  · intro p hp hpeq hpev
    rw [Pi_struct.addScore_children] at hp
    rw [Pi_struct.addScore_next] at hpeq
    rw [Pi_struct.addScore_level]
    exact hsh.hcursor p hp hpeq hpev
  · intro p hp
    rw [Pi_struct.addScore_children] at hp
    exact hsh.shch p hp

theorem openKeys_addScore (t : Pi_struct) (s : ℤ) : openKeys (t.addScore s) = openKeys t := by
  rw [openKeys, openKeys, Pi_struct.addScore_children, Pi_struct.addScore_next,
    Pi_struct.addScore_isValid]

theorem remF_addScore (t : Pi_struct) (s : ℤ) : remF (t.addScore s) = remF t := by
  rw [remF_eq, remF_eq, Pi_struct.addScore_evaluated, Pi_struct.addScore_rpt,
    openKeys_addScore]

theorem openScore_addScore (t : Pi_struct) (s : ℤ) :
    openScore (t.addScore s) = openScore t + s := by
  rw [openScore_eq, openScore_eq, Pi_struct.addScore_score, openKeys_addScore]
  ring

/-- Bumping the cursor over its own open child removes exactly that child
from the open set: summing any child quantity over the open children loses
the consumed child's contribution. -/
theorem sum_openKeys_succ {t c0 : Pi_struct} (F : Pi_struct → ℤ)
    (hnd : (t.children.map Prod.fst).Nodup) (hmem : (t.next, c0) ∈ t.children)
    (hval : t.isValid.getD t.next false = true) :
    ((openKeys t).map (fun p => F p.2)).sum
      = F c0 + ((openKeys (t.withNext (t.next + 1))).map (fun p => F p.2)).sum := by
  obtain ⟨l1, l2, he1, _, hl1, hl2⟩ := @map_replace_of_nodup c0 c0 t.children t.next hnd hmem
  have hmid_t : (decide (t.next ≤ (t.next, c0).1) && t.isValid.getD (t.next, c0).1 false)
      = true := by
    rw [show ((t.next, c0) : ℕ × Pi_struct).1 = t.next from rfl, hval, decide_eq_true le_rfl]
    rfl
  have hmid_t1 : (decide (t.next + 1 ≤ (t.next, c0).1) && t.isValid.getD (t.next, c0).1 false)
      = false := by
    rw [show ((t.next, c0) : ℕ × Pi_struct).1 = t.next from rfl,
      decide_eq_false (by omega : ¬t.next + 1 ≤ t.next)]
    rfl
  have hside : ∀ p : ℕ × Pi_struct, p.1 ≠ t.next →
      (decide (t.next + 1 ≤ p.1) && t.isValid.getD p.1 false)
        = (decide (t.next ≤ p.1) && t.isValid.getD p.1 false) := by
    intro p hne
    by_cases hlow : p.1 < t.next
    · rw [decide_eq_false (by omega), decide_eq_false (by omega)]
    · rw [decide_eq_true (by omega), decide_eq_true (by omega)]
  rw [openKeys, openKeys, Pi_struct.withNext_children, Pi_struct.withNext_next,
    Pi_struct.withNext_isValid, he1, List.filter_append, List.filter_append,
    List.filter_cons, List.filter_cons, hmid_t, hmid_t1, if_pos rfl, if_neg Bool.false_ne_true]
  rw [List.filter_congr (fun p hp => hside p (hl1 p hp)),
    List.filter_congr (fun p hp => hside p (hl2 p hp))]
  rw [List.map_append, List.map_append, List.sum_append, List.sum_append,
    List.map_cons, List.sum_cons]
  ring

/-- Consuming the open child at the cursor decreases `remF` by the child's
remaining budget. -/
theorem remF_consume {t c0 : Pi_struct} (hwf : WfT t) (hev : t.evaluated = true)
    (hmem : (t.next, c0) ∈ t.children) (hval : t.isValid.getD t.next false = true) :
    remF (t.withNext (t.next + 1)) = remF t - remF c0 := by
  rw [remF_eq, remF_eq, if_neg (by rw [Pi_struct.withNext_evaluated, hev]; exact Bool.noConfusion),
    if_neg (by rw [hev]; exact Bool.noConfusion),
    sum_openKeys_succ remF (hwf.keys_nodup hev) hmem hval]
  ring

/-- Consuming the open child at the cursor decreases `openScore` by the
child's open score. -/
theorem openScore_consume {t c0 : Pi_struct} (hwf : WfT t) (hev : t.evaluated = true)
    (hmem : (t.next, c0) ∈ t.children) (hval : t.isValid.getD t.next false = true) :
    openScore (t.withNext (t.next + 1)) = openScore t - openScore c0 := by
  rw [openScore_eq, openScore_eq, Pi_struct.withNext_score,
    sum_openKeys_succ openScore (hwf.keys_nodup hev) hmem hval]
  ring

/-- `get_next` preserves every invariant and conserved quantity: it only
moves the cursor over non-actionable indices. -/
theorem get_next_pres {D : List ℕ → Bool} {resign : ℕ} {t : Pi_struct} {q : List ℕ}
    (hwf : WfT t) (hev : t.evaluated = true) (hsh : Shape D resign t q) :
    WfT (t.get_next).2 ∧ Shape D resign (t.get_next).2 q
    ∧ remF (t.get_next).2 = remF t ∧ openScore (t.get_next).2 = openScore t
    ∧ (t.get_next).2.rpt = t.rpt ∧ (t.get_next).2.evaluated = true
    ∧ (t.get_next).2.nrepeats = t.nrepeats ∧ (t.get_next).2.isValid = t.isValid
    ∧ (t.get_next).2.children = t.children ∧ (t.get_next).2.score = t.score
    ∧ (t.get_next).2.level = t.level ∧ (t.get_next).2.size = t.size := by
  obtain ⟨ha, hb, hc, _, _, _⟩ := get_next_facts t
  rw [ha]
  refine ⟨WfT_withNext hwf hev _, Shape_withNext hsh hb,
    remF_withNext_skip hwf hev hb hc, openScore_withNext_skip hwf hev hb hc, ?_⟩
  simp [hev]

/-! ## Conserved quantities of a freshly expanded node -/

/-- The scanning loop writes only nonnegative run lengths, keeps the counts
vector nonnegative, and ends with a run start no greater than the number of
elements processed. -/
theorem scanCounts_nonneg :
    ∀ (rest counts : List ℤ) (i : ℕ) (base : ℤ) (start : ℕ) (c2 : List ℤ) (b2 : ℤ) (s2 : ℕ),
    scanCounts rest i base start counts = some (c2, b2, s2) →
    0 ≤ base → start ≤ i → (∀ x ∈ counts, 0 ≤ x) →
    (∀ x ∈ c2, 0 ≤ x) ∧ s2 ≤ i + rest.length := by
  intro rest
  induction rest with
  | nil =>
    intro counts i base start c2 b2 s2 h h0 hsi hnn
    simp only [scanCounts, Option.some.injEq, Prod.mk.injEq] at h
    obtain ⟨h1, _, h3⟩ := h
    subst h1
    subst h3
    exact ⟨hnn, by simpa using hsi⟩
  | cons x rest ih =>
    intro counts i base start c2 b2 s2 h h0 hsi hnn
    by_cases hlt : base < x
    · rcases hnp : npSet counts base ((i : ℤ) - (start : ℤ)) with _ | c3
      · simp only [scanCounts, if_pos hlt, hnp] at h
        exact Option.noConfusion h
      · simp only [scanCounts, if_pos hlt, hnp] at h
        have hc3 : c3 = counts.set base.toNat ((i : ℤ) - (start : ℤ)) := by
          unfold npSet at hnp
          split_ifs at hnp with hA hB
          · injection hnp with hh
            exact hh.symm
          · exfalso
            omega
        have hnn3 : ∀ y ∈ c3, 0 ≤ y := by
          rw [hc3]
          intro y hy
          rcases List.mem_or_eq_of_mem_set hy with hmem | rfl
          · exact hnn y hmem
          · omega
        obtain ⟨ha, hb⟩ := ih c3 (i + 1) x i c2 b2 s2 h (by omega) (by omega) hnn3
        refine ⟨ha, ?_⟩
        rw [List.length_cons]
        omega
    · simp only [scanCounts, if_neg hlt] at h
      obtain ⟨ha, hb⟩ := ih counts (i + 1) base start c2 b2 s2 h h0 (by omega) hnn
      refine ⟨ha, ?_⟩
      rw [List.length_cons]
      omega

/-- Whenever `get_nrepeat_count` returns normally, its result has exactly
`nact` entries and every entry is nonnegative (regardless of the input). -/
theorem get_nrepeat_count_shape {action : List ℤ} {nact : ℕ} {v : List ℤ}
    (h : get_nrepeat_count action nact = some v) :
    v.length = nact ∧ ∀ x ∈ v, 0 ≤ x := by
  unfold get_nrepeat_count at h
  rcases hscan : scanCounts (action.insertionSort (· ≤ ·)) 0 0 0 (List.replicate nact 0)
    with _ | ⟨c2, b2, s2⟩
  · rw [hscan] at h
    exact Option.noConfusion h
  · rw [hscan] at h
    obtain ⟨hb0, _, hlen⟩ := scanCounts_le _ _ _ _ _ _ _ _ hscan
    obtain ⟨hnn, hs2⟩ := scanCounts_nonneg _ _ _ _ _ _ _ _ hscan le_rfl le_rfl
      (fun x hx => le_of_eq (List.eq_of_mem_replicate hx).symm)
    rw [List.length_replicate] at hlen
    have h2 : npSet c2 b2 (((action.insertionSort (· ≤ ·)).length : ℤ) - (s2 : ℤ))
        = some v := h
    unfold npSet at h2
    split_ifs at h2 with hA hB
    · injection h2 with h2
      subst h2
      constructor
      · rw [List.length_set, hlen]
      · intro y hy
        rcases List.mem_or_eq_of_mem_set hy with hmem | rfl
        · exact hnn y hmem
        · omega
    · exfalso
      omega

theorem getD_nonneg {l : List ℤ} (h : ∀ x ∈ l, 0 ≤ x) (a : ℕ) : 0 ≤ l.getD a 0 := by
  by_cases ha : a < l.length
  · rw [List.getD_eq_getElem l 0 ha]
    exact h _ (List.getElem_mem ha)
  · rw [List.getD_eq_default l 0 (by omega)]

/-- The masked sum as an index-wise sum over the action space. -/
theorem maskedSum_eq_range :
    ∀ (l : List ℤ) (m : List Bool), l.length = m.length →
    Pi_struct.maskedSum l m
      = ((List.range l.length).map
          (fun a => if m.getD a false = true then l.getD a 0 else 0)).sum := by
  intro l
  induction l with
  | nil =>
    intro m _
    rfl
  | cons x xs ih =>
    intro m h
    cases m with
    | nil => exact absurd h (by simp)
    | cons b bs =>
      have h2 : xs.length = bs.length := by simpa using h
      have hzip : Pi_struct.maskedSum (x :: xs) (b :: bs)
          = (if b = true then x else 0) + Pi_struct.maskedSum xs bs := by
        rw [Pi_struct.maskedSum, Pi_struct.maskedSum, List.zip_cons_cons, List.map_cons,
          List.sum_cons]
      rw [hzip, ih bs h2, List.length_cons, List.range_succ_eq_map, List.map_cons,
        List.sum_cons, List.map_map]
      congr 1

/-- Summing a key-quantity over the filtered pair list is summing it over
the filtered key list. -/
theorem sum_over_keys (l : List (ℕ × Pi_struct)) (g : ℕ → Bool) (w : ℕ → ℤ) :
    ((l.filter (fun p => g p.1)).map (fun p => w p.1)).sum
      = (((l.map Prod.fst).filter g).map w).sum := by
  induction l with
  | nil => rfl
  | cons x xs ih =>
    by_cases hx : g x.1 = true
    · simp only [List.filter_cons, List.map_cons, hx, if_pos, List.sum_cons]
      rw [ih]
    · simp only [List.filter_cons, List.map_cons, hx, Bool.false_eq_true, if_false]
      exact ih

/-- A filtered sum as an index-wise conditional sum. -/
theorem sum_filter_if (l : List ℕ) (p : ℕ → Bool) (w : ℕ → ℤ) :
    ((l.filter p).map w).sum = (l.map (fun a => if p a = true then w a else 0)).sum := by
  induction l with
  | nil => rfl
  | cons x xs ih =>
    by_cases hx : p x = true
    · rw [List.filter_cons, if_pos hx, List.map_cons, List.sum_cons, List.map_cons,
        List.sum_cons, if_pos hx, ih]
    · rw [List.filter_cons, if_neg hx, List.map_cons, List.sum_cons, if_neg hx, ih, zero_add]

/-- A freshly expanded node has no open score: its own score is zero and all
its children are blank. -/
theorem openScore_expanded {t2 : Pi_struct} (hsc : t2.score = 0)
    (hblank : ∀ p ∈ t2.children, p.2.children = [] ∧ p.2.score = 0) :
    openScore t2 = 0 := by
  have h : ((openKeys t2).map (fun p => openScore p.2)).sum = 0 := by
    apply List.sum_eq_zero
    intro y hy
    rw [List.mem_map] at hy
    obtain ⟨p, hp, rfl⟩ := hy
    obtain ⟨h1, h2⟩ := hblank p (mem_children_of_mem_openKeys hp)
    rw [openScore_leaf h1, h2]
  rw [openScore_eq, hsc, h, add_zero]

/-- A freshly expanded node still holds its whole repeat budget: the open
children's budgets sum to the masked repeat counts, which sum to the
budget. -/
theorem remF_expanded {t2 : Pi_struct}
    (hev : t2.evaluated = true) (hnx : t2.next = 0)
    (hlen : t2.nrepeats.length = t2.size) (hvlen : t2.isValid.length = t2.size)
    (hnn : ∀ x ∈ t2.nrepeats, 0 ≤ x)
    (hkeys : t2.children.map Prod.fst
      = (List.range t2.size).filter (fun a => decide (1 ≤ t2.nrepeats.getD a 0)))
    (hrpt : ∀ p ∈ t2.children, p.2.rpt = t2.nrepeats.getD p.1 0)
    (hunev : ∀ p ∈ t2.children, p.2.evaluated = false)
    (hmask : Pi_struct.maskedSum t2.nrepeats t2.isValid = t2.rpt) :
    remF t2 = t2.rpt := by
  rw [remF_eq, if_neg (by rw [hev]; exact Bool.noConfusion)]
  have h1 : ((openKeys t2).map (fun p => remF p.2)).sum
      = ((openKeys t2).map (fun p => t2.nrepeats.getD p.1 0)).sum := by
    apply congrArg List.sum
    apply List.map_congr_left
    intro p hp
    have hpc := mem_children_of_mem_openKeys hp
    rw [remF_uneval (hunev p hpc), hrpt p hpc]
  have h2 : openKeys t2 = t2.children.filter (fun p => t2.isValid.getD p.1 false) := by
    rw [openKeys]
    apply List.filter_congr
    intro p _
    rw [hnx, decide_eq_true (Nat.zero_le p.1), Bool.true_and]
  have h3 := sum_over_keys t2.children (fun a => t2.isValid.getD a false)
    (fun a => t2.nrepeats.getD a 0)
  have h4 := sum_filter_if (List.range t2.size)
    (fun a => t2.isValid.getD a false && decide (1 ≤ t2.nrepeats.getD a 0))
    (fun a => t2.nrepeats.getD a 0)
  rw [h1, h2, h3, hkeys, List.filter_filter, h4, ← hmask,
    maskedSum_eq_range t2.nrepeats t2.isValid (by omega), hlen]
  apply congrArg List.sum
  apply List.map_congr_left
  intro a _
  by_cases hrep : (1 : ℤ) ≤ t2.nrepeats.getD a 0
  · by_cases hv : t2.isValid.getD a false = true
    · rw [if_pos (by rw [hv, decide_eq_true hrep]; rfl), if_pos hv]
    · have hv2 : t2.isValid.getD a false = false := by
        cases hvv : t2.isValid.getD a false
        · rfl
        · exact absurd hvv hv
      rw [if_neg (by rw [hv2]; exact Bool.noConfusion),
        if_neg (by rw [hv2]; exact Bool.noConfusion)]
  · have h0 : t2.nrepeats.getD a 0 = 0 := le_antisymm (by omega) (getD_nonneg hnn a)
    rw [if_neg (by rw [decide_eq_false hrep, Bool.and_false]; exact Bool.noConfusion), h0,
      ite_self]

/-- A freshly expanded node is well-formed. -/
theorem WfT_expanded {t2 : Pi_struct}
    (hev : t2.evaluated = true)
    (hlen : t2.nrepeats.length = t2.size) (hvlen : t2.isValid.length = t2.size)
    (hnn : ∀ x ∈ t2.nrepeats, 0 ≤ x)
    (hkeys : t2.children.map Prod.fst
      = (List.range t2.size).filter (fun a => decide (1 ≤ t2.nrepeats.getD a 0)))
    (hmask : Pi_struct.maskedSum t2.nrepeats t2.isValid = t2.rpt)
    (hrpt : ∀ p ∈ t2.children, p.2.rpt = t2.nrepeats.getD p.1 0)
    (hblank : ∀ p ∈ t2.children,
      p.2.evaluated = false ∧ p.2.children = [] ∧ p.2.score = 0 ∧ p.2.next = 0) :
    WfT t2 := by
  refine WfT.mk _ (fun hc => absurd hev (by rw [hc]; exact Bool.noConfusion))
    (fun _ => ⟨hlen, hvlen, hkeys, hnn, hmask⟩) hrpt ?_
  intro p hp
  obtain ⟨h1, h2, h3, h4⟩ := hblank p hp
  exact WfT_blank h1 h2 h3 h4

/-- A node all of whose children are blank satisfies the shape invariant. -/
theorem Shape_expanded {D : List ℕ → Bool} {resign : ℕ} {q : List ℕ} {t2 : Pi_struct}
    (hblank : ∀ p ∈ t2.children, p.2.evaluated = false ∧ p.2.children = []) :
    Shape D resign t2 q := by
  refine Shape.mk _ _ (fun p hp _ => (hblank p hp).1) ?_
    (fun p hp => Shape_blank (hblank p hp).2)
  intro p hp _ hpev
  rw [(hblank p hp).1] at hpev
  exact Bool.noConfusion hpev

/-- Expanding an unexpanded well-formed node by `add_counts` yields a
well-formed, shape-invariant node with the same repeat budget, all of it
still remaining, and no open score. -/
theorem add_counts_pres {D : List ℕ → Bool} {resign : ℕ} {q : List ℕ}
    {t : Pi_struct} {counts action : List ℤ} {t2 : Pi_struct}
    (h : t.add_counts counts action = some t2)
    (hwf : WfT t) (hev : t.evaluated = false) (hvlen : t.isValid.length = t.size) :
    WfT t2 ∧ Shape D resign t2 q ∧ remF t2 = t.rpt ∧ openScore t2 = 0
    ∧ t2.rpt = t.rpt ∧ t2.evaluated = true := by
  obtain ⟨⟨_, _, hmask, hkeys, hchf⟩, hnr, hev2, hsz, hval, hnx, hsc, hrpt2, _⟩ :=
    add_counts_facts t counts action t2 h
  obtain ⟨_, hsc0, hnx0⟩ := hwf.hleaf hev
  obtain ⟨hlen, hnn⟩ := get_nrepeat_count_shape hnr
  have hlen2 : t2.nrepeats.length = t2.size := by rw [hlen, hsz]
  have hvlen2 : t2.isValid.length = t2.size := by rw [hval, hvlen, hsz]
  have hkeys2 : t2.children.map Prod.fst
      = (List.range t2.size).filter (fun a => decide (1 ≤ t2.nrepeats.getD a 0)) := by
    rw [hkeys, hsz]
  have hmask2 : Pi_struct.maskedSum t2.nrepeats t2.isValid = t2.rpt := by
    rw [hval, hmask, hrpt2]
  have hrptc : ∀ p ∈ t2.children, p.2.rpt = t2.nrepeats.getD p.1 0 :=
    fun p hp => (hchf p hp).1
  have hblank : ∀ p ∈ t2.children,
      p.2.evaluated = false ∧ p.2.children = [] ∧ p.2.score = 0 ∧ p.2.next = 0 := by
    intro p hp
    obtain ⟨_, _, _, _, _, h6, h7, h8, h9⟩ := hchf p hp
    exact ⟨h6, h9, h7, h8⟩
  refine ⟨WfT_expanded hev2 hlen2 hvlen2 hnn hkeys2 hmask2 hrptc hblank,
    Shape_expanded (fun p hp => ⟨(hblank p hp).1, (hblank p hp).2.1⟩), ?_, ?_, hrpt2, hev2⟩
  · rw [remF_expanded hev2 (by rw [hnx, hnx0]) hlen2 hvlen2 hnn hkeys2 hrptc
      (fun p hp => (hblank p hp).1) hmask2, hrpt2]
  · exact openScore_expanded (by rw [hsc, hsc0])
      (fun p hp => ⟨(hblank p hp).2.1, (hblank p hp).2.2.1⟩)

/-! ## One `set_next` stack frame -/

/-- Effect of one `set_next` frame on a node whose cursor points at an open
child `c0`: the score argument is absorbed, the cursor consumes `c0`, and the
`Sum.inr` outcome signals exhaustion of the node with its total score. -/
theorem setNextLocal_spec {D : List ℕ → Bool} {resign : ℕ} {t c0 : Pi_struct} {q : List ℕ}
    (hwf : WfT t) (hev : t.evaluated = true) (hsh : Shape D resign t q)
    (hmem : (t.next, c0) ∈ t.children) (hval : t.isValid.getD t.next false = true)
    (s : ℤ) :
    WfT (Pi_struct.setNextLocal t s).2 ∧ Shape D resign (Pi_struct.setNextLocal t s).2 q
    ∧ (Pi_struct.setNextLocal t s).2.rpt = t.rpt
    ∧ (Pi_struct.setNextLocal t s).2.evaluated = true
    ∧ remF (Pi_struct.setNextLocal t s).2 = remF t - remF c0
    ∧ openScore (Pi_struct.setNextLocal t s).2 = openScore t + s - openScore c0
    ∧ (Pi_struct.setNextLocal t s).2.score = t.score + s
    ∧ (∀ v, (Pi_struct.setNextLocal t s).1 = .inl v → 0 ≤ v)
    ∧ (∀ s2, (Pi_struct.setNextLocal t s).1 = .inr s2 →
        remF (Pi_struct.setNextLocal t s).2 = 0
        ∧ openScore (Pi_struct.setNextLocal t s).2 = (Pi_struct.setNextLocal t s).2.score
        ∧ s2 = (Pi_struct.setNextLocal t s).2.score) := by
  have hev1 : ((t.addScore s).withNext (t.next + 1)).evaluated = true := by
    rw [Pi_struct.withNext_evaluated, Pi_struct.addScore_evaluated]
    exact hev
  have hwf1 : WfT ((t.addScore s).withNext (t.next + 1)) :=
    WfT_withNext (WfT_addScore hwf hev s)
      (by rw [Pi_struct.addScore_evaluated]; exact hev) _
  have hsh1 : Shape D resign ((t.addScore s).withNext (t.next + 1)) q := by
    apply Shape_withNext (Shape_addScore hsh s)
    rw [Pi_struct.addScore_next]
    omega
  have hrem1 : remF ((t.addScore s).withNext (t.next + 1)) = remF t - remF c0 := by
    have h := remF_consume (WfT_addScore hwf hev s)
      (by rw [Pi_struct.addScore_evaluated]; exact hev)
      (by rw [Pi_struct.addScore_next, Pi_struct.addScore_children]; exact hmem)
      (by rw [Pi_struct.addScore_next, Pi_struct.addScore_isValid]; exact hval)
    rw [Pi_struct.addScore_next] at h
    rw [h, remF_addScore]
  have hos1 : openScore ((t.addScore s).withNext (t.next + 1))
      = openScore t + s - openScore c0 := by
    have h := openScore_consume (WfT_addScore hwf hev s)
      (by rw [Pi_struct.addScore_evaluated]; exact hev)
      (by rw [Pi_struct.addScore_next, Pi_struct.addScore_children]; exact hmem)
      (by rw [Pi_struct.addScore_next, Pi_struct.addScore_isValid]; exact hval)
    rw [Pi_struct.addScore_next] at h
    rw [h, openScore_addScore]
  obtain ⟨hgwf, hgsh, hgrem, hgos, hgrpt, hgev, _, _, _, hgsc, _, _⟩ :=
    get_next_pres hwf1 hev1 hsh1
  have hidem : Pi_struct.get_next (Pi_struct.get_next ((t.addScore s).withNext (t.next + 1))).2
      = Pi_struct.get_next ((t.addScore s).withNext (t.next + 1)) :=
    (get_next_facts ((t.addScore s).withNext (t.next + 1))).2.2.2.2.2
  have hdef : Pi_struct.setNextLocal t s
      = (if (Pi_struct.get_next ((t.addScore s).withNext (t.next + 1))).1 < 0
          then (Sum.inr (Pi_struct.get_next ((t.addScore s).withNext (t.next + 1))).2.score,
            (Pi_struct.get_next ((t.addScore s).withNext (t.next + 1))).2)
          else (Sum.inl (Pi_struct.get_next ((t.addScore s).withNext (t.next + 1))).1,
            (Pi_struct.get_next ((t.addScore s).withNext (t.next + 1))).2)) := by
    simp only [Pi_struct.setNextLocal]
    rw [hidem]
  have hrpt2 : (Pi_struct.get_next ((t.addScore s).withNext (t.next + 1))).2.rpt = t.rpt := by
    rw [hgrpt]
    simp
  have hsc2 : (Pi_struct.get_next ((t.addScore s).withNext (t.next + 1))).2.score
      = t.score + s := by
    rw [hgsc]
    simp
  have hrem2 : remF (Pi_struct.get_next ((t.addScore s).withNext (t.next + 1))).2
      = remF t - remF c0 := by
    rw [hgrem, hrem1]
  have hos2 : openScore (Pi_struct.get_next ((t.addScore s).withNext (t.next + 1))).2
      = openScore t + s - openScore c0 := by
    rw [hgos, hos1]
  rw [hdef]
  by_cases hneg : (Pi_struct.get_next ((t.addScore s).withNext (t.next + 1))).1 < 0
  · rw [if_pos hneg]
    have hex := ((get_next_facts ((t.addScore s).withNext (t.next + 1))).2.2.2.2.1) hneg
    have hex2 : ∀ j, (Pi_struct.get_next ((t.addScore s).withNext (t.next + 1))).2.next ≤ j
        → ¬actionable (Pi_struct.get_next ((t.addScore s).withNext (t.next + 1))).2 j := by
      intro j hj hact2
      have hmono := (get_next_facts ((t.addScore s).withNext (t.next + 1))).2.1
      apply hex.2.2 j (le_trans hmono hj)
      have hact3 : actionable (((t.addScore s).withNext (t.next + 1)).withNext
          (Pi_struct.get_next ((t.addScore s).withNext (t.next + 1))).2.next) j := by
        rw [← (get_next_facts ((t.addScore s).withNext (t.next + 1))).1]
        exact hact2
      exact (actionable_withNext _ _ _).1 hact3
    have hrem0 : remF (Pi_struct.get_next ((t.addScore s).withNext (t.next + 1))).2 = 0 :=
      remF_exhausted hgwf hgev hex2
    have hos0 : openScore (Pi_struct.get_next ((t.addScore s).withNext (t.next + 1))).2
        = (Pi_struct.get_next ((t.addScore s).withNext (t.next + 1))).2.score :=
      openScore_exhausted hgwf hgev hex2
    refine ⟨hgwf, hgsh, hrpt2, hgev, hrem2, hos2, hsc2, ?_, ?_⟩
    · intro v hv
      exact Sum.noConfusion hv
    · intro s2 hs2
      have hs2' : Sum.inr (α := ℤ)
          (Pi_struct.get_next ((t.addScore s).withNext (t.next + 1))).2.score
          = Sum.inr s2 := hs2
      injection hs2' with hs2'
      exact ⟨hrem0, hos0, hs2'.symm⟩
  · rw [if_neg hneg]
    refine ⟨hgwf, hgsh, hrpt2, hgev, hrem2, hos2, hsc2, ?_, ?_⟩
    · intro v hv
      have hv' : Sum.inl (β := ℤ)
          (Pi_struct.get_next ((t.addScore s).withNext (t.next + 1))).1
          = Sum.inl v := hv
      injection hv' with hv'
      omega
    · intro s2 hs2
      exact Sum.noConfusion hs2

/-! ## Paths, node lookup and the invariants -/

/-- An actionable index of a well-formed expanded node has a child. -/
theorem exists_child_of_actionable {t : Pi_struct} (hwf : WfT t) (hev : t.evaluated = true)
    {a : ℕ} (hact : actionable t a) : ∃ c, (a, c) ∈ t.children := by
  have hkeys := (hwf.heval hev).2.2.1
  have hmem : a ∈ t.children.map Prod.fst := by
    rw [hkeys, List.mem_filter, List.mem_range]
    exact ⟨hact.1, decide_eq_true hact.2.1⟩
  rw [List.mem_map] at hmem
  obtain ⟨p, hp, hpa⟩ := hmem
  refine ⟨p.2, ?_⟩
  rw [← hpa]
  exact hp

theorem find?_key_eq {u : Pi_struct} {a : ℕ} {pr : ℕ × Pi_struct}
    (hf : u.children.find? (fun p => p.1 == a) = some pr) : pr.1 = a := by
  have h := List.find?_some hf
  rw [beq_iff_eq] at h
  exact h

theorem nodeAt_singleton (u : Pi_struct) (a : ℕ) :
    Pi_struct.nodeAt u [a]
      = Option.map Prod.snd (u.children.find? (fun p => p.1 == a)) := by
  show (match u.children.find? (fun p => p.1 == a) with
    | some pr => Pi_struct.nodeAt pr.2 []
    | none => none)
    = Option.map Prod.snd (u.children.find? (fun p => p.1 == a))
  rcases hf : u.children.find? (fun p => p.1 == a) with _ | pr
  · simp only [hf]
    rfl
  · simp only [hf]
    rfl

theorem nodeAt_append (p1 p2 : List ℕ) :
    ∀ t : Pi_struct, Pi_struct.nodeAt t (p1 ++ p2)
      = (Pi_struct.nodeAt t p1).bind (fun u => Pi_struct.nodeAt u p2) := by
  induction p1 with
  | nil =>
    intro t
    rfl
  | cons a rest ih =>
    intro t
    rw [List.cons_append]
    simp only [Pi_struct.nodeAt]
    rcases hf : t.children.find? (fun p => p.1 == a) with _ | pr
    · simp only [hf]
      rfl
    · simp only [hf]
      exact ih pr.2

theorem WfT_nodeAt : ∀ (path : List ℕ) (t u : Pi_struct),
    WfT t → Pi_struct.nodeAt t path = some u → WfT u := by
  intro path
  induction path with
  | nil =>
    intro t u hwf h
    rw [Pi_struct.nodeAt] at h
    injection h with h
    rw [← h]
    exact hwf
  | cons a rest ih =>
    intro t u hwf h
    rw [Pi_struct.nodeAt] at h
    rcases hf : t.children.find? (fun p => p.1 == a) with _ | pr
    · rw [hf] at h
      exact Option.noConfusion h
    · rw [hf] at h
      have h2 : Pi_struct.nodeAt pr.2 rest = some u := h
      exact ih pr.2 u (hwf.wfch pr (List.mem_of_find?_eq_some hf)) h2

theorem Shape_nodeAt {D : List ℕ → Bool} {resign : ℕ} :
    ∀ (path q : List ℕ) (t u : Pi_struct),
    Shape D resign t q → Pi_struct.nodeAt t path = some u →
    Shape D resign u (q ++ path) := by
  intro path
  induction path with
  | nil =>
    intro q t u hsh h
    rw [Pi_struct.nodeAt] at h
    injection h with h
    rw [← h, List.append_nil]
    exact hsh
  | cons a rest ih =>
    intro q t u hsh h
    rw [Pi_struct.nodeAt] at h
    rcases hf : t.children.find? (fun p => p.1 == a) with _ | pr
    · rw [hf] at h
      exact Option.noConfusion h
    · rw [hf] at h
      have h2 : Pi_struct.nodeAt pr.2 rest = some u := h
      have hsub := ih (q ++ [pr.1]) pr.2 u
        (hsh.shch pr (List.mem_of_find?_eq_some hf)) h2
      rw [find?_key_eq hf] at hsub
      have hassoc : (q ++ [a]) ++ rest = q ++ a :: rest := by
        simp
      rw [hassoc] at hsub
      exact hsub

/-- Extending the driver path by one actionable, non-terminal, below-resign
cursor edge at its end preserves the path invariant. -/
theorem PathD_snoc {D : List ℕ → Bool} {resign : ℕ} :
    ∀ (path q : List ℕ) (t u c0 : Pi_struct) (a : ℕ),
    PathD D resign t path q → Pi_struct.nodeAt t path = some u →
    u.evaluated = true → u.next = a → actionable u a →
    D ((q ++ path) ++ [a]) = false → u.level < resign →
    u.children.find? (fun p => p.1 == a) = some (a, c0) →
    PathD D resign t (path ++ [a]) q := by
  intro path
  induction path with
  | nil =>
    intro q t u c0 a _ hnode hev hnx hact hD hlv hfind
    rw [Pi_struct.nodeAt] at hnode
    injection hnode with hnode
    subst hnode
    refine ⟨hev, hnx, hact, ?_, hlv, c0, hfind, trivial⟩
    rw [List.append_nil] at hD
    exact hD
  | cons b rest ih =>
    intro q t u c0 a hPD hnode hev hnx hact hD hlv hfind
    obtain ⟨hevt, hnxt, hactt, hDt, hlvt, c, hfindt, hPDc⟩ := hPD
    rw [Pi_struct.nodeAt, hfindt] at hnode
    have hnode2 : Pi_struct.nodeAt c rest = some u := hnode
    refine ⟨hevt, hnxt, hactt, hDt, hlvt, c, hfindt, ?_⟩
    refine ih (q ++ [b]) c u c0 a hPDc hnode2 hev hnx hact ?_ hlv hfind
    have hassoc : ((q ++ [b]) ++ rest) ++ [a] = (q ++ b :: rest) ++ [a] := by
      simp
    rw [hassoc]
    exact hD

/-! ## Mask consistency against a deterministic environment -/

/-- Every expanded node's stored validity mask is the observation mask of the
deterministic environment at that node's history. -/
inductive VOk (O : List ℕ → Obs) : Pi_struct → List ℕ → Prop where
  | mk (t : Pi_struct) (hist : List ℕ)
      (hself : t.evaluated = true → t.isValid = (O hist).mask)
      (hch : ∀ p ∈ t.children, VOk O p.2 (hist ++ [p.1])) : VOk O t hist

theorem VOk.hself {O : List ℕ → Obs} {t : Pi_struct} {hist : List ℕ}
    (h : VOk O t hist) : t.evaluated = true → t.isValid = (O hist).mask := by
  cases h with
  | mk _ _ h1 _ => exact h1

theorem VOk.vkch {O : List ℕ → Obs} {t : Pi_struct} {hist : List ℕ}
    (h : VOk O t hist) : ∀ p ∈ t.children, VOk O p.2 (hist ++ [p.1]) := by
  cases h with
  | mk _ _ _ h2 => exact h2

theorem VOk_congr {O : List ℕ → Obs} {t t' : Pi_struct} {hist : List ℕ}
    (h : VOk O t hist) (hev : t'.evaluated = t.evaluated)
    (hval : t'.isValid = t.isValid) (hchl : t'.children = t.children) :
    VOk O t' hist := by
  refine VOk.mk _ _ ?_ ?_
  · intro he
    rw [hval]
    apply h.hself
    rw [← hev]
    exact he
  · rw [hchl]
    exact h.vkch

theorem VOk_blank {O : List ℕ → Obs} {t : Pi_struct} {hist : List ℕ}
    (hev : t.evaluated = false) (hc : t.children = []) : VOk O t hist := by
  refine VOk.mk _ _ ?_ ?_
  · intro he
    rw [hev] at he
    exact Bool.noConfusion he
  · intro p hp
    rw [hc] at hp
    exact absurd hp (List.not_mem_nil p)

theorem VOk_childSet {O : List ℕ → Obs} {t : Pi_struct} {hist : List ℕ} {a : ℕ}
    {c c' : Pi_struct} (h : VOk O t hist) (hnd : (t.children.map Prod.fst).Nodup)
    (hmem : (a, c) ∈ t.children) (hc' : VOk O c' (hist ++ [a])) :
    VOk O (t.childSet a c') hist := by
  obtain ⟨l1, l2, he1, he2, _, _⟩ := @map_replace_of_nodup c c' t.children a hnd hmem
  have hmem_of : ∀ p : ℕ × Pi_struct, p ∈ l1 ∨ p ∈ l2 → p ∈ t.children := by
    intro p hp
    rw [he1]
    rcases hp with hh | hh
    · exact List.mem_append.2 (Or.inl hh)
    · exact List.mem_append.2 (Or.inr (List.mem_cons_of_mem _ hh))
  refine VOk.mk _ _ ?_ ?_
  · intro he
    rw [Pi_struct.childSet_evaluated] at he
    rw [Pi_struct.childSet_isValid]
    exact h.hself he
  · intro p hp
    rw [Pi_struct.childSet_children, he2] at hp
    rcases List.mem_append.1 hp with hh | hh
    · exact h.vkch p (hmem_of p (Or.inl hh))
    · rcases List.mem_cons.1 hh with rfl | h2
      · exact hc'
      · exact h.vkch p (hmem_of p (Or.inr h2))

theorem evaluated_of_find? {t : Pi_struct} {f : ℕ × Pi_struct → Bool} {pr : ℕ × Pi_struct}
    (hwf : WfT t) (hf : t.children.find? f = some pr) : t.evaluated = true := by
  cases hev : t.evaluated
  · obtain ⟨hc, _, _⟩ := hwf.hleaf hev
    rw [hc] at hf
    exact Option.noConfusion hf
  · rfl

theorem VOk_updAt {O : List ℕ → Obs} :
    ∀ (path hist : List ℕ) (t cur' t' : Pi_struct),
    WfT t → VOk O t hist → Pi_struct.updAt t path cur' = some t' →
    VOk O cur' (hist ++ path) → VOk O t' hist := by
  intro path
  induction path with
  | nil =>
    intro hist t cur' t' _ _ hupd hvk
    rw [Pi_struct.updAt] at hupd
    injection hupd with hupd
    rw [← hupd]
    rw [List.append_nil] at hvk
    exact hvk
  | cons a rest ih =>
    intro hist t cur' t' hwf hv hupd hvk
    rw [Pi_struct.updAt] at hupd
    rcases hf : t.children.find? (fun p => p.1 == a) with _ | pr
    · rw [hf] at hupd
      exact Option.noConfusion hupd
    · rw [hf] at hupd
      have hupd1 : Option.map (fun c2 => t.childSet a c2) (Pi_struct.updAt pr.2 rest cur')
          = some t' := hupd
      rcases hupd2 : Pi_struct.updAt pr.2 rest cur' with _ | c2
      · rw [hupd2] at hupd1
        exact Option.noConfusion hupd1
      · rw [hupd2, Option.map_some'] at hupd1
        injection hupd1 with hupd1
        rw [← hupd1]
        have hkey := find?_key_eq hf
        have hmem : pr ∈ t.children := List.mem_of_find?_eq_some hf
        have hmem2 : (a, pr.2) ∈ t.children := by
          rw [← hkey]
          exact hmem
        have hvkc : VOk O pr.2 (hist ++ [a]) := by
          have h := hv.vkch pr hmem
          rw [hkey] at h
          exact h
        have hvk2 : VOk O cur' ((hist ++ [a]) ++ rest) := by
          have hassoc : (hist ++ [a]) ++ rest = hist ++ a :: rest := by
            simp
          rw [hassoc]
          exact hvk
        have hc2 : VOk O c2 (hist ++ [a]) :=
          ih (hist ++ [a]) pr.2 cur' c2 (hwf.wfch pr hmem) hvkc hupd2 hvk2
        exact VOk_childSet hv (hwf.keys_nodup (evaluated_of_find? hwf hf)) hmem2 hc2

theorem VOk_nodeAt {O : List ℕ → Obs} :
    ∀ (path hist : List ℕ) (t u : Pi_struct),
    VOk O t hist → Pi_struct.nodeAt t path = some u → VOk O u (hist ++ path) := by
  intro path
  induction path with
  | nil =>
    intro hist t u hv h
    rw [Pi_struct.nodeAt] at h
    injection h with h
    rw [← h, List.append_nil]
    exact hv
  | cons a rest ih =>
    intro hist t u hv h
    rw [Pi_struct.nodeAt] at h
    rcases hf : t.children.find? (fun p => p.1 == a) with _ | pr
    · rw [hf] at h
      exact Option.noConfusion h
    · rw [hf] at h
      have h2 : Pi_struct.nodeAt pr.2 rest = some u := h
      have hvkc : VOk O pr.2 (hist ++ [a]) := by
        have hh := hv.vkch pr (List.mem_of_find?_eq_some hf)
        rw [find?_key_eq hf] at hh
        exact hh
      have := ih (hist ++ [a]) pr.2 u hvkc h2
      have hassoc : (hist ++ [a]) ++ rest = hist ++ a :: rest := by
        simp
      rw [hassoc] at this
      exact this

theorem updAt_some_of_nodeAt :
    ∀ (path : List ℕ) (t u x : Pi_struct),
    Pi_struct.nodeAt t path = some u → ∃ t2, Pi_struct.updAt t path x = some t2 := by
  intro path
  induction path with
  | nil =>
    intro t u x _
    exact ⟨x, rfl⟩
  | cons a rest ih =>
    intro t u x h
    rw [Pi_struct.nodeAt] at h
    rcases hf : t.children.find? (fun p => p.1 == a) with _ | pr
    · rw [hf] at h
      exact Option.noConfusion h
    · rw [hf] at h
      have h2 : Pi_struct.nodeAt pr.2 rest = some u := h
      obtain ⟨c2, hc2⟩ := ih pr.2 u x h2
      refine ⟨t.childSet a c2, ?_⟩
      rw [Pi_struct.updAt, hf]
      show Option.map (fun c2 => t.childSet a c2) (Pi_struct.updAt pr.2 rest x)
        = some (t.childSet a c2)
      rw [hc2, Option.map_some']

/-- `remF` depends only on the expansion flag, the budget, the children, the
cursor and the mask. -/
theorem remF_congr {t t' : Pi_struct} (hev : t'.evaluated = t.evaluated)
    (hrpt : t'.rpt = t.rpt) (hchl : t'.children = t.children)
    (hnx : t'.next = t.next) (hval : t'.isValid = t.isValid) :
    remF t' = remF t := by
  rw [remF_eq, remF_eq, hev, hrpt, openKeys, openKeys, hchl, hnx, hval]

/-- `openScore` depends only on the score, the children, the cursor and the
mask. -/
theorem openScore_congr {t t' : Pi_struct} (hsc : t'.score = t.score)
    (hchl : t'.children = t.children) (hnx : t'.next = t.next)
    (hval : t'.isValid = t.isValid) :
    openScore t' = openScore t := by
  rw [openScore_eq, openScore_eq, hsc, openKeys, openKeys, hchl, hnx, hval]

/-- Re-caching an observation whose mask agrees with the stored one preserves
well-formedness. -/
theorem WfT_withStateObs_same {t : Pi_struct} {o : Obs} (hwf : WfT t)
    (hm : o.mask = t.isValid) : WfT (t.withStateObs o) := by
  refine WfT.mk _ ?_ ?_ ?_ ?_
  · intro hev
    rw [Pi_struct.withStateObs_evaluated] at hev
    obtain ⟨h1, h2, h3⟩ := hwf.hleaf hev
    exact ⟨by rw [Pi_struct.withStateObs_children]; exact h1,
      by rw [Pi_struct.withStateObs_score]; exact h2,
      by rw [Pi_struct.withStateObs_next]; exact h3⟩
  · intro hev
    rw [Pi_struct.withStateObs_evaluated] at hev
    simp only [Pi_struct.withStateObs_nrepeats, Pi_struct.withStateObs_isValid,
      Pi_struct.withStateObs_size, Pi_struct.withStateObs_children,
      Pi_struct.withStateObs_rpt, hm]
    exact hwf.heval hev
  · intro p hp
    rw [Pi_struct.withStateObs_children] at hp
    rw [Pi_struct.withStateObs_nrepeats]
    exact hwf.hrpt p hp
  · intro p hp
    rw [Pi_struct.withStateObs_children] at hp
    exact hwf.wfch p hp

theorem Shape_withStateObs {D : List ℕ → Bool} {resign : ℕ} {t : Pi_struct} {q : List ℕ}
    {o : Obs} (hsh : Shape D resign t q) : Shape D resign (t.withStateObs o) q := by
  refine Shape.mk _ _ ?_ ?_ ?_
  · intro p hp hlt
    rw [Pi_struct.withStateObs_children] at hp
    rw [Pi_struct.withStateObs_next] at hlt
    exact hsh.hbeyond p hp hlt
  · intro p hp hpeq hpev
    rw [Pi_struct.withStateObs_children] at hp
    rw [Pi_struct.withStateObs_next] at hpeq
    rw [Pi_struct.withStateObs_level]
    exact hsh.hcursor p hp hpeq hpev
  · intro p hp
    rw [Pi_struct.withStateObs_children] at hp
    exact hsh.shch p hp

theorem VOk_withStateObs {O : List ℕ → Obs} {t : Pi_struct} {hist : List ℕ}
    (h : VOk O t hist) : VOk O (t.withStateObs (O hist)) hist := by
  refine VOk.mk _ _ ?_ ?_
  · intro _
    rw [Pi_struct.withStateObs_isValid]
  · intro p hp
    rw [Pi_struct.withStateObs_children] at hp
    exact h.vkch p hp

/-- Both branches of `setNextLocal` return the node produced by the final
`get_next`, whose expansion flag, mask and children are the input node's. -/
theorem setNextLocal_fields (t : Pi_struct) (s : ℤ) :
    (Pi_struct.setNextLocal t s).2.evaluated = t.evaluated
    ∧ (Pi_struct.setNextLocal t s).2.isValid = t.isValid
    ∧ (Pi_struct.setNextLocal t s).2.children = t.children := by
  have hidem : Pi_struct.get_next (Pi_struct.get_next ((t.addScore s).withNext (t.next + 1))).2
      = Pi_struct.get_next ((t.addScore s).withNext (t.next + 1)) :=
    (get_next_facts ((t.addScore s).withNext (t.next + 1))).2.2.2.2.2
  have hform := (get_next_facts ((t.addScore s).withNext (t.next + 1))).1
  have h2 : (Pi_struct.setNextLocal t s).2
      = (Pi_struct.get_next ((t.addScore s).withNext (t.next + 1))).2 := by
    simp only [Pi_struct.setNextLocal]
    rw [hidem]
    by_cases hneg : (Pi_struct.get_next ((t.addScore s).withNext (t.next + 1))).1 < 0
    · rw [if_pos hneg]
    · rw [if_neg hneg]
  rw [h2, hform]
  simp


/-- The recursion of `set_next` along an open driver path whose end node's
cursor points at an open child `c0`: exactly `c0`'s remaining budget is
consumed, exactly the frame argument `s` enters the open score, the
invariants are preserved, and an `inr` outcome means the whole tree is
exhausted with all open score settled into the root's own score. -/
theorem setNextGo_spec {D : List ℕ → Bool} {resign : ℕ} {O : List ℕ → Obs} :
    ∀ (path q : List ℕ) (t u c0 : Pi_struct) (s : ℤ),
    WfT t → Shape D resign t q → PathD D resign t path q →
    VOk O t q →
    Pi_struct.nodeAt t path = some u →
    u.evaluated = true →
    (u.next, c0) ∈ u.children →
    u.isValid.getD u.next false = true →
    WfT (Pi_struct.setNextGo t path s).2.1
    ∧ Shape D resign (Pi_struct.setNextGo t path s).2.1 q
    ∧ (Pi_struct.setNextGo t path s).2.1.rpt = t.rpt
    ∧ (Pi_struct.setNextGo t path s).2.1.evaluated = t.evaluated
    ∧ remF (Pi_struct.setNextGo t path s).2.1 = remF t - remF c0
    ∧ openScore (Pi_struct.setNextGo t path s).2.1 = openScore t + s - openScore c0
    ∧ (∀ v, (Pi_struct.setNextGo t path s).1 = .inl v → 0 ≤ v)
    ∧ (∀ s2, (Pi_struct.setNextGo t path s).1 = .inr s2 →
        remF (Pi_struct.setNextGo t path s).2.1 = 0
        ∧ openScore (Pi_struct.setNextGo t path s).2.1
            = (Pi_struct.setNextGo t path s).2.1.score
        ∧ s2 = (Pi_struct.setNextGo t path s).2.1.score)
    ∧ VOk O (Pi_struct.setNextGo t path s).2.1 q := by
  intro path
  induction path with
  | nil =>
    intro q t u c0 s hwf hsh _ hvk hnode hevu hmemu hvalu
    rw [Pi_struct.nodeAt] at hnode
    injection hnode with hnode
    subst hnode
    have hdef : Pi_struct.setNextGo t [] s
        = ((Pi_struct.setNextLocal t s).1, (Pi_struct.setNextLocal t s).2, [s]) := by
      simp only [Pi_struct.setNextGo]
    obtain ⟨h1, h2, h3, h4, h5, h6, _, h8, h9⟩ :=
      setNextLocal_spec hwf hevu hsh hmemu hvalu s
    rw [hdef]
    exact ⟨h1, h2, h3, h4.trans hevu.symm, h5, h6, h8, h9,
      VOk_congr hvk (setNextLocal_fields t s).1 (setNextLocal_fields t s).2.1
        (setNextLocal_fields t s).2.2⟩
  | cons act rest ih =>
    intro q t u c0 s hwf hsh hPD hvk hnode hevu hmemu hvalu
    obtain ⟨hevt, hnx, hact, hD, hlv, c, hfind, hPDc⟩ := hPD
    rw [Pi_struct.nodeAt, hfind] at hnode
    have hnode2 : Pi_struct.nodeAt c rest = some u := hnode
    have hmemc : (act, c) ∈ t.children := (find?_eq_some_key hfind).2
    have hnd := hwf.keys_nodup hevt
    have hwfc : WfT c := hwf.wfch (act, c) hmemc
    have hshc : Shape D resign c (q ++ [act]) := hsh.shch (act, c) hmemc
    have hvkc : VOk O c (q ++ [act]) := hvk.vkch (act, c) hmemc
    obtain ⟨g1, g2, g3, g4, g5, g6, g7, g8, g9⟩ :=
      ih (q ++ [act]) c u c0 s hwfc hshc hPDc hvkc hnode2 hevu hmemu hvalu
    have hopen : t.next ≤ act ∧ t.isValid.getD act false = true :=
      ⟨le_of_eq hnx, hact.2.2⟩
    have hwf2 : WfT (t.childSet act (Pi_struct.setNextGo c rest s).2.1) :=
      WfT_childSet hwf hnd hmemc g1 g3
    have hsh2 : Shape D resign (t.childSet act (Pi_struct.setNextGo c rest s).2.1) q :=
      Shape_childSet hsh hnd hmemc (fun _ _ => ⟨hD, hlv⟩)
        (fun hlt => absurd hlt (by rw [hnx]; exact lt_irrefl act)) g2
    have hrem2 : remF (t.childSet act (Pi_struct.setNextGo c rest s).2.1)
        = remF t - remF c + remF (Pi_struct.setNextGo c rest s).2.1 :=
      remF_childSet_open hevt hnd hmemc hopen
    have hos2 : openScore (t.childSet act (Pi_struct.setNextGo c rest s).2.1)
        = openScore t - openScore c + openScore (Pi_struct.setNextGo c rest s).2.1 :=
      openScore_childSet_open hnd hmemc hopen
    rcases hres : (Pi_struct.setNextGo c rest s).1 with v | s2
    · have hdef : Pi_struct.setNextGo t (act :: rest) s
          = (.inl v, t.childSet act (Pi_struct.setNextGo c rest s).2.1,
            (Pi_struct.setNextGo c rest s).2.2) := by
        simp only [Pi_struct.setNextGo, childGet_eq hfind, hres]
      have hrpt2 : (t.childSet act (Pi_struct.setNextGo c rest s).2.1).rpt = t.rpt := by
        rw [Pi_struct.childSet_rpt]
      have hev2 : (t.childSet act (Pi_struct.setNextGo c rest s).2.1).evaluated
          = t.evaluated := by
        rw [Pi_struct.childSet_evaluated]
      have hrem3 : remF (t.childSet act (Pi_struct.setNextGo c rest s).2.1)
          = remF t - remF c0 := by
        rw [hrem2, g5]
        ring
      have hos3 : openScore (t.childSet act (Pi_struct.setNextGo c rest s).2.1)
          = openScore t + s - openScore c0 := by
        rw [hos2, g6]
        ring
      rw [hdef]
      refine ⟨hwf2, hsh2, hrpt2, hev2, hrem3, hos3, ?_, ?_,
        VOk_childSet hvk hnd hmemc g9⟩
      · intro v2 hv2
        have hv2' : Sum.inl (β := ℤ) v = Sum.inl v2 := hv2
        injection hv2' with hv2'
        rw [← hv2']
        exact g7 v hres
      · intro s3 hs3
        exact Sum.noConfusion hs3
    · obtain ⟨gr0, gos0, gsc0⟩ := g8 s2 hres
      have hmem2 : ((t.childSet act (Pi_struct.setNextGo c rest s).2.1).next,
          (Pi_struct.setNextGo c rest s).2.1)
          ∈ (t.childSet act (Pi_struct.setNextGo c rest s).2.1).children := by
        rw [Pi_struct.childSet_next, hnx]
        exact (find?_eq_some_key (find?_childSet_self hnd hmemc)).2
      have hval2 : (t.childSet act (Pi_struct.setNextGo c rest s).2.1).isValid.getD
          (t.childSet act (Pi_struct.setNextGo c rest s).2.1).next false = true := by
        rw [Pi_struct.childSet_isValid, Pi_struct.childSet_next, hnx]
        exact hact.2.2
      have hevt2 : (t.childSet act (Pi_struct.setNextGo c rest s).2.1).evaluated = true := by
        rw [Pi_struct.childSet_evaluated]
        exact hevt
      obtain ⟨l1, l2, l3, l4, l5, l6, _, l8, l9⟩ :=
        setNextLocal_spec hwf2 hevt2 hsh2 hmem2 hval2 s2
      have hdef : Pi_struct.setNextGo t (act :: rest) s
          = ((Pi_struct.setNextLocal
              (t.childSet act (Pi_struct.setNextGo c rest s).2.1) s2).1,
            (Pi_struct.setNextLocal
              (t.childSet act (Pi_struct.setNextGo c rest s).2.1) s2).2,
            (Pi_struct.setNextGo c rest s).2.2 ++ [s2]) := by
        simp only [Pi_struct.setNextGo, childGet_eq hfind, hres]
      have hcc : remF c = remF c0 := by omega
      have hrem4 : remF (Pi_struct.setNextLocal
          (t.childSet act (Pi_struct.setNextGo c rest s).2.1) s2).2
          = remF t - remF c0 := by
        rw [l5, hrem2, gr0, hcc]
        ring
      have hs2o : s2 = openScore (Pi_struct.setNextGo c rest s).2.1 :=
        gsc0.trans gos0.symm
      have hos4 : openScore (Pi_struct.setNextLocal
          (t.childSet act (Pi_struct.setNextGo c rest s).2.1) s2).2
          = openScore t + s - openScore c0 := by
        rw [l6, hos2, hs2o, g6]
        ring
      have hrpt4 : (Pi_struct.setNextLocal
          (t.childSet act (Pi_struct.setNextGo c rest s).2.1) s2).2.rpt = t.rpt := by
        rw [l3, Pi_struct.childSet_rpt]
      have hev4 : (Pi_struct.setNextLocal
          (t.childSet act (Pi_struct.setNextGo c rest s).2.1) s2).2.evaluated
          = t.evaluated := l4.trans hevt.symm
      have hvk2 : VOk O (t.childSet act (Pi_struct.setNextGo c rest s).2.1) q :=
        VOk_childSet hvk hnd hmemc g9
      have hvk4 : VOk O (Pi_struct.setNextLocal
          (t.childSet act (Pi_struct.setNextGo c rest s).2.1) s2).2 q :=
        VOk_congr hvk2
          (setNextLocal_fields (t.childSet act (Pi_struct.setNextGo c rest s).2.1) s2).1
          (setNextLocal_fields (t.childSet act (Pi_struct.setNextGo c rest s).2.1) s2).2.1
          (setNextLocal_fields (t.childSet act (Pi_struct.setNextGo c rest s).2.1) s2).2.2
      rw [hdef]
      exact ⟨l1, l2, hrpt4, hev4, hrem4, hos4, l8, l9, hvk4⟩

/-! ## The driver invariant for a deterministic replay environment -/

/-- The inner simulation loop of `get_state` never changes the action
history of a replay environment: `simulate` only bumps the call counter. -/
theorem simLoop_fst {D : List ℕ → Bool} {O : List ℕ → Obs} {C : List ℕ → List ℤ}
    {Sch : List ℕ → ℕ → Bool × Bool} :
    ∀ (fuel : ℕ) (s s2 : List ℕ × ℕ) (o : Obs),
    (simLoop (replayEnv D O C Sch) fuel s () = .pause s2 o
      ∨ simLoop (replayEnv D O C Sch) fuel s () = .simDone s2 o) → s2.1 = s.1 := by
  intro fuel
  induction fuel with
  | zero =>
    intro s s2 o h
    rcases h with h | h <;> exact SimRes.noConfusion h
  | succ fuel ih =>
    intro s s2 o h
    have hunf : simLoop (replayEnv D O C Sch) (fuel + 1) s ()
        = (if (Sch s.1 s.2).1 then SimRes.pause (s.1, s.2 + 1) (O s.1)
          else if (Sch s.1 s.2).2 then simLoop (replayEnv D O C Sch) fuel (s.1, s.2 + 1) ()
          else SimRes.simDone (s.1, s.2 + 1) (O s.1)) := by
      simp only [simLoop, replayEnv]
    rw [hunf] at h
    by_cases h1 : (Sch s.1 s.2).1 = true
    · rw [if_pos h1] at h
      rcases h with h | h
      · injection h with ha _
        rw [← ha]
      · exact SimRes.noConfusion h
    · rw [if_neg h1] at h
      by_cases h2 : (Sch s.1 s.2).2 = true
      · rw [if_pos h2] at h
        exact ih (s.1, s.2 + 1) s2 o h
      · rw [if_neg h2] at h
        rcases h with h | h
        · exact SimRes.noConfusion h
        · injection h with ha _
          rw [← ha]

/-- The invariant the driver maintains between `get_state` iterations on a
deterministic replay environment: the environment history equals the driver
path, the tree is well-formed, shape-invariant, mask-consistent and open
along the path, the driver-initiated `set_next` arguments logged so far sum
to the open score, and the consumed repeat counts (each at least one) sum to
the budget already retired from the root. -/
def Inv (D : List ℕ → Bool) (O : List ℕ → Obs) (R : ℤ)
    (ms : MCTState (List ℕ × ℕ)) : Prop :=
  ms.phase ≠ none ∧ ms.envσ.1 = ms.path ∧ (∀ x ∈ ms.consumedLog, 1 ≤ x) ∧
  ∃ root, ms.tree = some root ∧ WfT root ∧ Shape D ms.resign root []
    ∧ PathD D ms.resign root ms.path [] ∧ VOk O root []
    ∧ openScore root = ms.snInitLog.sum
    ∧ remF root + ms.consumedLog.sum = root.rpt
    ∧ root.rpt = R
    ∧ ∃ cur, Pi_struct.nodeAt root ms.path = some cur
        ∧ (cur.evaluated = false →
            cur.isValid = (O ms.path).mask ∧ cur.isValid.length = cur.size)

/-- What holds of a finished driver: the logged driver-initiated scores sum
to the root's accumulated score, and the consumed repeat counts (each at
least one) sum to the full repeat budget. -/
def Final (R : ℤ) (ms : MCTState (List ℕ × ℕ)) : Prop :=
  ∃ root, ms.tree = some root ∧ ms.snInitLog.sum = root.score
    ∧ ms.consumedLog.sum = root.rpt ∧ root.rpt = R ∧ (∀ x ∈ ms.consumedLog, 1 ≤ x)

theorem set_next_eq_inl {t : Pi_struct} {path : List ℕ} {s v : ℤ}
    {t2 : Pi_struct} {log : List ℤ}
    (h : Pi_struct.setNextGo t path s = (.inl v, t2, log)) :
    Pi_struct.set_next t path s = (v, t2, log) := by
  rw [Pi_struct.set_next, h]

theorem set_next_eq_inr {t : Pi_struct} {path : List ℕ} {s s2 : ℤ}
    {t2 : Pi_struct} {log : List ℤ}
    (h : Pi_struct.setNextGo t path s = (.inr s2, t2, log)) :
    Pi_struct.set_next t path s = (-1, t2, log) := by
  rw [Pi_struct.set_next, h]

/-- One driver step from an expanded current node preserves the invariant on
continuation, and on a `noData` return the driver has just finished with the
final accounting facts. -/
theorem stepPart_inv {D : List ℕ → Bool} {O : List ℕ → Obs} {C : List ℕ → List ℤ}
    {Sch : List ℕ → ℕ → Bool × Bool} {R : ℤ}
    (root cur : Pi_struct) (ms : MCTState (List ℕ × ℕ))
    (hnode : Pi_struct.nodeAt root ms.path = some cur)
    (hevc : cur.evaluated = true)
    (hwf : WfT root) (hsh : Shape D ms.resign root [])
    (hPD : PathD D ms.resign root ms.path []) (hvk : VOk O root [])
    (henv : ms.envσ.1 = ms.path)
    (hI1 : openScore root = ms.snInitLog.sum)
    (hI2 : remF root + ms.consumedLog.sum = root.rpt)
    (hR : root.rpt = R)
    (hcons : ∀ x ∈ ms.consumedLog, 1 ≤ x)
    (hphase : ms.phase ≠ none) :
    ∀ ir, stepPart (replayEnv D O C Sch) root cur ms = ir →
    (∀ ms2, ir = .cont ms2 → Inv D O R ms2)
    ∧ (∀ res ms2, ir = .ret res ms2 →
        res = .error ∨ (res = .noData ∧ Final R ms2)) := by
  intro ir hstep
  have hwfc : WfT cur := WfT_nodeAt ms.path root cur hwf hnode
  have hshc : Shape D ms.resign cur ms.path := by
    have h := Shape_nodeAt ms.path [] root cur hsh hnode
    rw [List.nil_append] at h
    exact h
  obtain ⟨hgwf, hgsh, hgrem, hgos, hgrpt, hgev, hgnr, hgiv, hgch, hgsc, hglv, hgsz⟩ :=
    get_next_pres hwfc hevc hshc
  simp only [stepPart, replayEnv] at hstep
  by_cases hneg : (cur.get_next).1 < 0
  · rw [if_pos hneg] at hstep
    subst hstep
    constructor
    · intro ms2 hc
      exact IterRes.noConfusion hc
    · intro res ms2 hr
      injection hr with h1 _
      exact Or.inl h1.symm
  · rw [if_neg hneg] at hstep
    have hpos : 0 ≤ (cur.get_next).1 := by omega
    have hfp := (get_next_facts cur).2.2.2.1 hpos
    have ha : (cur.get_next).1.toNat = (cur.get_next).2.next := by
      rw [hfp.1]
      exact Int.toNat_natCast _
    rw [ha, henv] at hstep
    obtain ⟨root2, hupd⟩ := updAt_some_of_nodeAt ms.path root cur (cur.get_next).2 hnode
    have hshg : Shape D ms.resign (cur.get_next).2 ([] ++ ms.path) := by
      rw [List.nil_append]
      exact hgsh
    obtain ⟨hwf2, hsh2, hPD2, hnode2, hrem2, hos2, hrpt2, hnil2, hcons2⟩ :=
      updAt_spec D ms.resign ms.path [] root cur (cur.get_next).2 root2 hnode hupd
        hwf hsh hPD hgwf hshg hgrpt
    have hvkg : VOk O (cur.get_next).2 ms.path := by
      have h := VOk_nodeAt ms.path [] root cur hvk hnode
      rw [List.nil_append] at h
      exact VOk_congr h (hgev.trans hevc.symm) hgiv hgch
    have hvk2 : VOk O root2 [] := by
      apply VOk_updAt ms.path [] root (cur.get_next).2 root2 hwf hvk hupd
      rw [List.nil_append]
      exact hvkg
    have hrem2' : remF root2 = remF root := by
      rw [hrem2, hgrem]
      ring
    have hos2' : openScore root2 = openScore root := by
      rw [hos2, hgos]
      ring
    have hev2 : root2.evaluated = true := by
      rcases hp : ms.path with _ | ⟨b, rest⟩
      · rw [hp] at hnil2
        rw [hnil2 rfl]
        exact hgev
      · rw [hp] at hcons2
        rw [hcons2 (List.cons_ne_nil b rest)]
        rw [hp] at hPD
        exact hPD.1
    have hactg : actionable (cur.get_next).2 (cur.get_next).2.next := by
      obtain ⟨q1, q2, q3⟩ := hfp.2
      exact ⟨by rw [hgsz]; exact q1, by rw [hgnr]; exact q2, by rw [hgiv]; exact q3⟩
    have hkeymem : (cur.get_next).2.next ∈ (cur.get_next).2.children.map Prod.fst := by
      rw [(hgwf.heval hgev).2.2.1, List.mem_filter, List.mem_range]
      exact ⟨hactg.1, decide_eq_true hactg.2.1⟩
    obtain ⟨c0, hfind0, hc0mem⟩ := find?_of_mem_key (hgwf.keys_nodup hgev) hkeymem
    have hvalg : (cur.get_next).2.isValid.getD (cur.get_next).2.next false = true :=
      hactg.2.2
    have hc0rpt : c0.rpt = (cur.get_next).2.nrepeats.getD (cur.get_next).2.next 0 :=
      hgwf.hrpt ((cur.get_next).2.next, c0) hc0mem
    have hwfc0 : WfT c0 := hgwf.wfch ((cur.get_next).2.next, c0) hc0mem
    have hcons1 : (1 : ℤ) ≤ (cur.get_next).2.nrepeats.getD (cur.get_next).2.next 0 :=
      hactg.2.1
    by_cases hterm : D (ms.path ++ [(cur.get_next).2.next]) = true
        ∨ ms.resign ≤ (cur.get_next).2.level
    · rw [if_pos hterm] at hstep
      have hc0ev : c0.evaluated = false := by
        cases hc0e : c0.evaluated
        · rfl
        · exfalso
          have hcur := hgsh.hcursor ((cur.get_next).2.next, c0) hc0mem rfl hc0e
          rcases hterm with hD | hres
          · rw [hcur.1] at hD
            exact Bool.noConfusion hD
          · have := hcur.2
            omega
      have hc0rem : remF c0 = (cur.get_next).2.nrepeats.getD (cur.get_next).2.next 0 := by
        rw [remF_uneval hc0ev, hc0rpt]
      have hc0os : openScore c0 = 0 := openScore_uneval hwfc0 hc0ev
      split at hstep
      · rename_i hnone
        rw [hupd] at hnone
        exact Option.noConfusion hnone
      · rename_i root2' hsome
        rw [hupd] at hsome
        injection hsome with hsome
        subst hsome
        obtain ⟨s1, s2', s3, s4, s5, s6, s7, s8, s9⟩ :=
          setNextGo_spec ms.path [] root2 (cur.get_next).2 c0
            (((cur.get_next).2.level : ℤ)
              * (cur.get_next).2.nrepeats.getD (cur.get_next).2.next 0)
            hwf2 hsh2 hPD2 hvk2 hnode2 hgev hc0mem hvalg
        rcases hgo : Pi_struct.setNextGo root2 ms.path
            (((cur.get_next).2.level : ℤ)
              * (cur.get_next).2.nrepeats.getD (cur.get_next).2.next 0)
          with ⟨sres, stree, slog⟩
        have hp21 : (Pi_struct.setNextGo root2 ms.path
            (((cur.get_next).2.level : ℤ)
              * (cur.get_next).2.nrepeats.getD (cur.get_next).2.next 0)).2.1 = stree := by
          rw [hgo]
        have hp1 : (Pi_struct.setNextGo root2 ms.path
            (((cur.get_next).2.level : ℤ)
              * (cur.get_next).2.nrepeats.getD (cur.get_next).2.next 0)).1 = sres := by
          rw [hgo]
        rw [hp21] at s1 s2' s3 s4 s5 s6 s9
        rw [hp1, hp21] at s8
        rw [hp1] at s7
        rcases sres with v | sr
        · have hv0 : 0 ≤ v := s7 v rfl
          have hsn := set_next_eq_inl hgo
          rw [hsn] at hstep
          rw [if_neg (show ¬((v, stree, slog) : ℤ × Pi_struct × List ℤ).1 < 0 from
            by show ¬v < 0; omega)] at hstep
          subst hstep
          constructor
          · intro ms2 hc2
            injection hc2 with hc2
            rw [← hc2]
            refine ⟨hphase, rfl, ?_, stree, rfl, s1, s2', trivial, s9, ?_, ?_,
              s3.trans (hrpt2.trans hR), stree, rfl, ?_⟩
            · intro x hx
              rcases List.mem_append.1 hx with hx | hx
              · exact hcons x hx
              · rw [List.mem_singleton] at hx
                rw [hx]
                exact hcons1
            · show openScore stree = (ms.snInitLog
                ++ [((cur.get_next).2.level : ℤ)
                  * (cur.get_next).2.nrepeats.getD (cur.get_next).2.next 0]).sum
              rw [List.sum_append, List.sum_cons, List.sum_nil, s6, hos2', hc0os, hI1]
              ring
            · show remF stree + (ms.consumedLog
                ++ [(cur.get_next).2.nrepeats.getD (cur.get_next).2.next 0]).sum = stree.rpt
              rw [List.sum_append, List.sum_cons, List.sum_nil, s5, hrem2', hc0rem, s3, hrpt2]
              omega
            · intro hff
              exact absurd hff (by rw [s4, hev2]; exact Bool.noConfusion)
          · intro res ms2 hr
            exact IterRes.noConfusion hr
        · have hsn := set_next_eq_inr hgo
          rw [hsn] at hstep
          rw [if_pos (show ((-1, stree, slog) : ℤ × Pi_struct × List ℤ).1 < 0 from
            by show (-1 : ℤ) < 0; omega)] at hstep
          subst hstep
          constructor
          · intro ms2 hc2
            exact IterRes.noConfusion hc2
          · intro res ms2 hr
            injection hr with h1 h2
            refine Or.inr ⟨h1.symm, ?_⟩
            rw [← h2]
            obtain ⟨f1, f2, f3⟩ := s8 sr rfl
            refine ⟨stree, rfl, ?_, ?_, s3.trans (hrpt2.trans hR), ?_⟩
            · show (ms.snInitLog ++ [((cur.get_next).2.level : ℤ)
                  * (cur.get_next).2.nrepeats.getD (cur.get_next).2.next 0]).sum = stree.score
              rw [List.sum_append, List.sum_cons, List.sum_nil, ← f2, s6, hos2', hc0os, hI1]
              ring
            · show (ms.consumedLog
                ++ [(cur.get_next).2.nrepeats.getD (cur.get_next).2.next 0]).sum = stree.rpt
              rw [List.sum_append, List.sum_cons, List.sum_nil, s3, hrpt2]
              omega
            · intro x hx
              rcases List.mem_append.1 hx with hx | hx
              · exact hcons x hx
              · rw [List.mem_singleton] at hx
                rw [hx]
                exact hcons1
    · rw [if_neg hterm] at hstep
      push_neg at hterm
      obtain ⟨hDt, hlvt⟩ := hterm
      have hDf : D (ms.path ++ [(cur.get_next).2.next]) = false := by
        cases hDD : D (ms.path ++ [(cur.get_next).2.next])
        · rfl
        · exact absurd hDD hDt
      have hlvv : (cur.get_next).2.level < ms.resign := by omega
      split at hstep
      · rename_i hnone
        rw [hupd] at hnone
        exact Option.noConfusion hnone
      · rename_i root2' hsome
        rw [hupd] at hsome
        injection hsome with hsome
        subst hsome
        have hnodeC : Pi_struct.nodeAt root2 (ms.path ++ [(cur.get_next).2.next])
            = some c0 := by
          rw [nodeAt_append ms.path [(cur.get_next).2.next] root2, hnode2, Option.some_bind,
            nodeAt_singleton, hfind0, Option.map_some']
        split at hstep
        · rename_i hnone2
          rw [hnodeC] at hnone2
          exact Option.noConfusion hnone2
        · rename_i child hsome2
          rw [hnodeC] at hsome2
          injection hsome2 with hsome2
          subst hsome2
          split at hstep
          · rename_i hnone3
            subst hstep
            constructor
            · intro ms2 hc2
              exact IterRes.noConfusion hc2
            · intro res ms2 hr
              injection hr with h1 _
              exact Or.inl h1.symm
          · rename_i child2 hsome3
            have hmsk : (O (ms.path ++ [(cur.get_next).2.next])).mask.length = c0.size
                ∧ child2 = c0.withStateObs (O (ms.path ++ [(cur.get_next).2.next])) := by
              unfold Pi_struct.add_state at hsome3
              split_ifs at hsome3 with hmm
              injection hsome3 with hh
              exact ⟨hmm, hh.symm⟩
            obtain ⟨hmlen, hch2⟩ := hmsk
            subst hch2
            have hvkc0 : VOk O c0 (ms.path ++ [(cur.get_next).2.next]) := by
              have h := VOk_nodeAt (ms.path ++ [(cur.get_next).2.next]) [] root2 c0
                hvk2 hnodeC
              rw [List.nil_append] at h
              exact h
            have hwfch : WfT (c0.withStateObs (O (ms.path ++ [(cur.get_next).2.next]))) := by
              cases hc0e : c0.evaluated
              · obtain ⟨hbc, hbs, hbn⟩ := hwfc0.hleaf hc0e
                exact WfT_blank (by rw [Pi_struct.withStateObs_evaluated]; exact hc0e)
                  (by rw [Pi_struct.withStateObs_children]; exact hbc)
                  (by rw [Pi_struct.withStateObs_score]; exact hbs)
                  (by rw [Pi_struct.withStateObs_next]; exact hbn)
              · exact WfT_withStateObs_same hwfc0 (hvkc0.hself hc0e).symm
            have hremch : remF (c0.withStateObs (O (ms.path ++ [(cur.get_next).2.next])))
                = remF c0 := by
              cases hc0e : c0.evaluated
              · rw [remF_uneval (by rw [Pi_struct.withStateObs_evaluated]; exact hc0e),
                  remF_uneval hc0e, Pi_struct.withStateObs_rpt]
              · exact remF_congr (by rw [Pi_struct.withStateObs_evaluated])
                  (by rw [Pi_struct.withStateObs_rpt])
                  (by rw [Pi_struct.withStateObs_children])
                  (by rw [Pi_struct.withStateObs_next])
                  (by rw [Pi_struct.withStateObs_isValid]; exact (hvkc0.hself hc0e).symm)
            have hosch : openScore (c0.withStateObs (O (ms.path ++ [(cur.get_next).2.next])))
                = openScore c0 := by
              cases hc0e : c0.evaluated
              · obtain ⟨hbc, hbs, _⟩ := hwfc0.hleaf hc0e
                rw [openScore_leaf (by rw [Pi_struct.withStateObs_children]; exact hbc),
                  openScore_leaf hbc, Pi_struct.withStateObs_score]
              · exact openScore_congr (by rw [Pi_struct.withStateObs_score])
                  (by rw [Pi_struct.withStateObs_children])
                  (by rw [Pi_struct.withStateObs_next])
                  (by rw [Pi_struct.withStateObs_isValid]; exact (hvkc0.hself hc0e).symm)
            have hshc0 : Shape D ms.resign c0 (ms.path ++ [(cur.get_next).2.next]) :=
              hgsh.shch ((cur.get_next).2.next, c0) hc0mem
            have hshch : Shape D ms.resign
                (c0.withStateObs (O (ms.path ++ [(cur.get_next).2.next])))
                ([] ++ (ms.path ++ [(cur.get_next).2.next])) := by
              rw [List.nil_append]
              exact Shape_withStateObs hshc0
            have hPD3 : PathD D ms.resign root2 (ms.path ++ [(cur.get_next).2.next]) [] := by
              apply PathD_snoc ms.path [] root2 (cur.get_next).2 c0 (cur.get_next).2.next
                hPD2 hnode2 hgev rfl hactg ?_ hlvv hfind0
              rw [List.nil_append]
              exact hDf
            split at hstep
            · rename_i hnone4
              obtain ⟨rx, hrx⟩ := updAt_some_of_nodeAt (ms.path ++ [(cur.get_next).2.next])
                root2 c0 (c0.withStateObs (O (ms.path ++ [(cur.get_next).2.next]))) hnodeC
              rw [hrx] at hnone4
              exact Option.noConfusion hnone4
            · rename_i root3 hsome4
              obtain ⟨w1, w2, w3, w4, w5, w6, w7, _, _⟩ :=
                updAt_spec D ms.resign (ms.path ++ [(cur.get_next).2.next]) [] root2 c0
                  (c0.withStateObs (O (ms.path ++ [(cur.get_next).2.next]))) root3
                  hnodeC hsome4 hwf2 hsh2 hPD3 hwfch hshch
                  (by rw [Pi_struct.withStateObs_rpt])
              have hvk3 : VOk O root3 [] := by
                apply VOk_updAt (ms.path ++ [(cur.get_next).2.next]) [] root2
                  (c0.withStateObs (O (ms.path ++ [(cur.get_next).2.next]))) root3
                  hwf2 hvk2 hsome4
                rw [List.nil_append]
                exact VOk_withStateObs hvkc0
              subst hstep
              constructor
              · intro ms2 hc2
                injection hc2 with hc2
                rw [← hc2]
                refine ⟨hphase, rfl, hcons, root3, rfl, w1, w2, w3, hvk3, ?_, ?_,
                  w7.trans (hrpt2.trans hR), c0.withStateObs
                    (O (ms.path ++ [(cur.get_next).2.next])), w4, ?_⟩
                · show openScore root3 = ms.snInitLog.sum
                  rw [w6, hosch, hos2', hI1]
                  ring
                · show remF root3 + ms.consumedLog.sum = root3.rpt
                  rw [w5, hremch, hrem2', w7, hrpt2]
                  omega
                · intro _
                  refine ⟨by rw [Pi_struct.withStateObs_isValid], ?_⟩
                  rw [Pi_struct.withStateObs_isValid, Pi_struct.withStateObs_size]
                  exact hmlen
              · intro res ms2 hr
                exact IterRes.noConfusion hr

/-- The `while True` loop of `get_state` preserves the invariant whenever it
returns a state for evaluation, and has just finished with the final
accounting facts whenever it returns `None`. -/
theorem runLoop_inv {D : List ℕ → Bool} {O : List ℕ → Obs} {C : List ℕ → List ℤ}
    {Sch : List ℕ → ℕ → Bool × Bool} {R : ℤ} (oracle : ℕ → List ℤ) (simFuel : ℕ) :
    ∀ (fuel : ℕ) (ms : MCTState (List ℕ × ℕ)) (res : GSRes) (ms2 : MCTState (List ℕ × ℕ)),
    Inv D O R ms →
    runLoop (replayEnv D O C Sch) oracle simFuel fuel ms () = (res, ms2) →
    ((∃ o, res = .state o) → Inv D O R ms2 ∧ ms2.phase = some true)
    ∧ (res = .noData → Final R ms2) := by
  intro fuel
  induction fuel with
  | zero =>
    intro ms res ms2 _ hrun
    rw [runLoop] at hrun
    injection hrun with h1 _
    constructor
    · rintro ⟨o, ho⟩
      rw [← h1] at ho
      exact GSRes.noConfusion ho
    · intro hh
      rw [← h1] at hh
      exact GSRes.noConfusion hh
  | succ fuel ih =>
    intro ms res ms2 hInv hrun
    obtain ⟨hphase, henv, hcons, root, htree, hwf, hsh, hPD, hvk, hI1, hI2, hR,
      cur, hnode, hcur⟩ := hInv
    simp only [runLoop, replayEnv] at hrun
    split at hrun
    · rename_i hnone
      rw [htree] at hnone
      exact Option.noConfusion hnone
    · rename_i root' hsome
      rw [htree] at hsome
      injection hsome with hsome
      subst hsome
      split at hrun
      · rename_i hnone2
        rw [hnode] at hnone2
        exact Option.noConfusion hnone2
      · rename_i cur' hsome2
        rw [hnode] at hsome2
        injection hsome2 with hsome2
        subst hsome2
        split at hrun
        · rename_i hevf
          split at hrun
          · rename_i hpf
            injection hrun with h1 h2
            constructor
            · intro _
              constructor
              · rw [← h2]
                exact ⟨fun hc => Option.noConfusion hc, henv, hcons, root, htree, hwf,
                  hsh, hPD, hvk, hI1, hI2, hR, cur, hnode, hcur⟩
              · rw [← h2]
            · intro hnd
              rw [← h1] at hnd
              exact GSRes.noConfusion hnd
          · rename_i hpt
            split at hrun
            · rename_i hsim
              injection hrun with h1 _
              constructor
              · rintro ⟨o, ho⟩
                rw [← h1] at ho
                exact GSRes.noConfusion ho
              · intro hh
                rw [← h1] at hh
                exact GSRes.noConfusion hh
            · rename_i s2 o2 hsim
              injection hrun with h1 h2
              have hs21 : s2.1 = ms.envσ.1 :=
                simLoop_fst simFuel ms.envσ s2 o2 (Or.inl hsim)
              constructor
              · intro _
                constructor
                · rw [← h2]
                  refine ⟨fun hc => Option.noConfusion hc, ?_, hcons, root, htree, hwf,
                    hsh, hPD, hvk, hI1, hI2, hR, cur, hnode, hcur⟩
                  show s2.1 = ms.path
                  rw [hs21, henv]
                · rw [← h2]
              · intro hnd
                rw [← h1] at hnd
                exact GSRes.noConfusion hnd
            · rename_i s2 o2 hsim
              have hs21 : s2.1 = ms.envσ.1 :=
                simLoop_fst simFuel ms.envσ s2 o2 (Or.inr hsim)
              split at hrun
              · rename_i haddn
                injection hrun with h1 _
                constructor
                · rintro ⟨o, ho⟩
                  rw [← h1] at ho
                  exact GSRes.noConfusion ho
                · intro hh
                  rw [← h1] at hh
                  exact GSRes.noConfusion hh
              · rename_i cur2 hadd
                have hwfc : WfT cur := WfT_nodeAt ms.path root cur hwf hnode
                obtain ⟨hmask, hlen⟩ := hcur hevf
                obtain ⟨hwf2c, hsh2c, hremc, hosc, hrptc, hev2c⟩ :=
                  @add_counts_pres D ms.resign ms.path cur (C s2.1)
                    (oracle ms.oracleIdx) cur2 hadd hwfc hevf hlen
                have hvkcur2 : VOk O cur2 ms.path := by
                  obtain ⟨⟨_, _, _, _, hchf⟩, _, _, _, hvalf, _, _, _, _⟩ :=
                    add_counts_facts cur (C s2.1) (oracle ms.oracleIdx) cur2 hadd
                  refine VOk.mk _ _ (fun _ => ?_) ?_
                  · rw [hvalf]
                    exact hmask
                  · intro p hp
                    obtain ⟨_, _, _, _, _, hpe, _, _, hpc⟩ := hchf p hp
                    exact VOk_blank hpe hpc
                split at hrun
                · rename_i hupdn
                  obtain ⟨rx, hrx⟩ := updAt_some_of_nodeAt ms.path root cur cur2 hnode
                  rw [hrx] at hupdn
                  exact Option.noConfusion hupdn
                · rename_i root2 hupd
                  have hshc2 : Shape D ms.resign cur2 ([] ++ ms.path) := by
                    rw [List.nil_append]
                    exact hsh2c
                  obtain ⟨hwf2, hsh2, hPD2, hnode2, hrem2, hos2, hrpt2, _, _⟩ :=
                    updAt_spec D ms.resign ms.path [] root cur cur2 root2 hnode hupd
                      hwf hsh hPD hwf2c hshc2 hrptc
                  have hvk2 : VOk O root2 [] := by
                    apply VOk_updAt ms.path [] root cur2 root2 hwf hvk hupd
                    rw [List.nil_append]
                    exact hvkcur2
                  have hrem2' : remF root2 = remF root := by
                    rw [hrem2, hremc, remF_uneval hevf]
                    ring
                  have hos2' : openScore root2 = openScore root := by
                    rw [hos2, hosc, openScore_uneval hwfc hevf]
                    ring
                  have hSP := @stepPart_inv D O C Sch R root2 cur2
                    ⟨some root2, ms.path, s2, o2, ms.min_step, ms.max_step, ms.resign,
                      some false, ms.file_no, ms.oracleIdx + 1, ms.snLog, ms.snInitLog,
                      ms.consumedLog⟩
                    hnode2 hev2c hwf2 hsh2 hPD2 hvk2 (hs21.trans henv)
                    (hos2'.trans hI1) (by rw [hrem2', hrpt2]; exact hI2)
                    (hrpt2.trans hR) hcons (fun hc => Option.noConfusion hc)
                  split at hrun
                  · rename_i r ms4 hsp
                    injection hrun with h1 h2
                    obtain ⟨_, hret⟩ := hSP (.ret r ms4) hsp
                    rcases hret r ms4 rfl with herr | ⟨hnd, hfin⟩
                    · constructor
                      · rintro ⟨o, ho⟩
                        rw [← h1, herr] at ho
                        exact GSRes.noConfusion ho
                      · intro hh
                        rw [← h1, herr] at hh
                        exact GSRes.noConfusion hh
                    · constructor
                      · rintro ⟨o, ho⟩
                        rw [← h1, hnd] at ho
                        exact GSRes.noConfusion ho
                      · intro _
                        rw [← h2]
                        exact hfin
                  · rename_i ms4 hsp
                    obtain ⟨hcont, _⟩ := hSP (.cont ms4) hsp
                    exact ih ms4 res ms2 (hcont ms4 rfl) hrun
        · rename_i hevt
          have hevc : cur.evaluated = true := by
            cases h : cur.evaluated
            · exact absurd h hevt
            · rfl
          split at hrun
          · rename_i r ms4 hsp
            injection hrun with h1 h2
            obtain ⟨_, hret⟩ := stepPart_inv root cur ms hnode hevc hwf hsh hPD hvk
              henv hI1 hI2 hR hcons hphase (.ret r ms4) hsp
            rcases hret r ms4 rfl with herr | ⟨hnd, hfin⟩
            · constructor
              · rintro ⟨o, ho⟩
                rw [← h1, herr] at ho
                exact GSRes.noConfusion ho
              · intro hh
                rw [← h1, herr] at hh
                exact GSRes.noConfusion hh
            · constructor
              · rintro ⟨o, ho⟩
                rw [← h1, hnd] at ho
                exact GSRes.noConfusion ho
              · intro _
                rw [← h2]
                exact hfin
          · rename_i ms4 hsp
            obtain ⟨hcont, _⟩ := stepPart_inv root cur ms hnode hevc hwf hsh hPD hvk
              henv hI1 hI2 hR hcons hphase (.cont ms4) hsp
            exact ih ms4 res ms2 (hcont ms4 rfl) hrun

/-- The caller's self-play loop, started in an invariant state, can only
return a driver state with the final accounting facts. -/
theorem selfPlay_inv {D : List ℕ → Bool} {O : List ℕ → Obs} {C : List ℕ → List ℤ}
    {Sch : List ℕ → ℕ → Bool × Bool} {R : ℤ}
    (oracle : ℕ → List ℤ) (simFuel loopFuel : ℕ) :
    ∀ (calls : ℕ) (ms ms2 : MCTState (List ℕ × ℕ)),
    Inv D O R ms →
    selfPlay (replayEnv D O C Sch) oracle simFuel loopFuel calls ms () = some ms2 →
    Final R ms2 := by
  intro calls
  induction calls with
  | zero =>
    intro ms ms2 _ h
    rw [selfPlay] at h
    exact Option.noConfusion h
  | succ calls ih =>
    intro ms ms2 hInv h
    rw [selfPlay] at h
    have hgs : get_state (replayEnv D O C Sch) oracle simFuel loopFuel ms ()
        = runLoop (replayEnv D O C Sch) oracle simFuel loopFuel ms () := by
      unfold get_state
      rw [if_neg hInv.1]
    rw [hgs] at h
    rcases hrl : runLoop (replayEnv D O C Sch) oracle simFuel loopFuel ms ()
      with ⟨r, msr⟩
    rw [hrl] at h
    obtain ⟨hstate, hnodata⟩ := runLoop_inv oracle simFuel loopFuel ms r msr hInv hrl
    rcases r with o | _ | _ | _
    · have h2 : selfPlay (replayEnv D O C Sch) oracle simFuel loopFuel calls msr ()
          = some ms2 := h
      exact ih msr ms2 (hstate ⟨o, rfl⟩).1 h2
    · have h2 : some msr = some ms2 := h
      injection h2 with h2
      rw [← h2]
      exact hnodata rfl
    · have h2 : (none : Option (MCTState (List ℕ × ℕ))) = some ms2 := h
      exact Option.noConfusion h2
    · have h2 : (none : Option (MCTState (List ℕ × ℕ))) = some ms2 := h
      exact Option.noConfusion h2

/-- A freshly constructed driver on a replay environment satisfies the
invariant (a replay environment never reports a trivially solved instance,
so the tree is present). -/
theorem construct_inv {D : List ℕ → Bool} {O : List ℕ → Obs} {C : List ℕ → List ℤ}
    {Sch : List ℕ → ℕ → Bool × Bool} (s0 : List ℕ × ℕ) (file_no max_var1 : ℕ)
    (nrepeat : ℤ) (tauF : ℕ → ℝ) (resign : ℕ) (ms0 : MCTState (List ℕ × ℕ))
    (h : MCT.construct (replayEnv D O C Sch) s0 file_no max_var1 nrepeat tauF resign
      = some ms0) :
    Inv D O nrepeat ms0 := by
  unfold MCT.construct at h
  simp only [replayEnv] at h
  have h2 : (match Pi_struct.add_state
      (Pi_struct.init (max_var1 * 2) nrepeat 0 file_no tauF) (O []) with
    | none => (none : Option (MCTState (List ℕ × ℕ)))
    | some root2 =>
      some ⟨some root2, [], ([], 0), O [], resign, 0, resign, some false, file_no, 0,
        [], [], []⟩) = some ms0 := h
  rcases hadd : Pi_struct.add_state (Pi_struct.init (max_var1 * 2) nrepeat 0 file_no tauF)
      (O []) with _ | root2
  · rw [hadd] at h2
    exact Option.noConfusion h2
  · rw [hadd] at h2
    have h3 : some (⟨some root2, [], ([], 0), O [], resign, 0, resign, some false, file_no,
        0, [], [], []⟩ : MCTState (List ℕ × ℕ)) = some ms0 := h2
    injection h3 with h3
    have hroot2 : root2 = (Pi_struct.init (max_var1 * 2) nrepeat 0 file_no tauF).withStateObs
        (O []) ∧ (O []).mask.length = max_var1 * 2 := by
      unfold Pi_struct.add_state at hadd
      split_ifs at hadd with hmm
      injection hadd with hh
      exact ⟨hh.symm, by rw [Pi_struct.init_size] at hmm; exact hmm⟩
    obtain ⟨hr2, hml⟩ := hroot2
    have hev0 : root2.evaluated = false := by
      rw [hr2, Pi_struct.withStateObs_evaluated, Pi_struct.init_evaluated]
    have hch0 : root2.children = [] := by
      rw [hr2, Pi_struct.withStateObs_children, Pi_struct.init_children]
    have hsc0 : root2.score = 0 := by
      rw [hr2, Pi_struct.withStateObs_score, Pi_struct.init_score]
    have hnx0 : root2.next = 0 := by
      rw [hr2, Pi_struct.withStateObs_next, Pi_struct.init_next]
    have hrpt0 : root2.rpt = nrepeat := by
      rw [hr2, Pi_struct.withStateObs_rpt, Pi_struct.init_rpt]
    rw [← h3]
    refine ⟨fun hc => Option.noConfusion hc, rfl, fun x hx => absurd hx (List.not_mem_nil x),
      root2, rfl, WfT_blank hev0 hch0 hsc0 hnx0, Shape_blank hch0, trivial, ?_, ?_, ?_,
      hrpt0, root2, rfl, ?_⟩
    · exact VOk_blank hev0 hch0
    · rw [openScore_leaf hch0, hsc0]
      rfl
    · rw [remF_uneval hev0, hrpt0]
      simp
    · intro _
      constructor
      · rw [hr2, Pi_struct.withStateObs_isValid]
      · rw [hr2, Pi_struct.withStateObs_isValid, Pi_struct.withStateObs_size,
          Pi_struct.init_size]
        exact hml

/-- Conservation over a whole self-play run from construction to the `None`
report, on a deterministic replay environment. -/
theorem selfPlay_conservation (D : List ℕ → Bool) (O : List ℕ → Obs) (C : List ℕ → List ℤ)
    (Sch : List ℕ → ℕ → Bool × Bool) (oracle : ℕ → List ℤ)
    (simFuel loopFuel calls : ℕ) (s0 : List ℕ × ℕ) (file_no max_var1 : ℕ)
    (nrepeat : ℤ) (tauF : ℕ → ℝ) (resign : ℕ) (ms0 ms2 : MCTState (List ℕ × ℕ))
    (h0 : MCT.construct (replayEnv D O C Sch) s0 file_no max_var1 nrepeat tauF resign
      = some ms0)
    (hrun : selfPlay (replayEnv D O C Sch) oracle simFuel loopFuel calls ms0 ()
      = some ms2) :
    Final nrepeat ms2 :=
  selfPlay_inv oracle simFuel loopFuel calls ms0 ms2
    (construct_inv s0 file_no max_var1 nrepeat tauF resign ms0 h0) hrun

theorem length_le_sum_of_one_le :
    ∀ l : List ℤ, (∀ x ∈ l, 1 ≤ x) → (l.length : ℤ) ≤ l.sum := by
  intro l
  induction l with
  | nil =>
    intro _
    simp
  | cons x xs ih =>
    intro h
    rw [List.length_cons, List.sum_cons]
    have h1 := h x (List.mem_cons_self x xs)
    have h2 := ih (fun y hy => h y (List.mem_cons_of_mem x hy))
    push_cast
    omega

theorem length_eq_sum_iff :
    ∀ l : List ℤ, (∀ x ∈ l, 1 ≤ x) → ((l.length : ℤ) = l.sum ↔ ∀ x ∈ l, x = 1) := by
  intro l
  induction l with
  | nil =>
    intro _
    simp
  | cons x xs ih =>
    intro h
    have h1 := h x (List.mem_cons_self x xs)
    have hall := fun y hy => h y (List.mem_cons_of_mem x hy)
    have h2 := ih hall
    have h3 := length_le_sum_of_one_le xs hall
    rw [List.length_cons, List.sum_cons]
    constructor
    · intro heq
      have hx1 : x = 1 := by
        push_cast at heq
        omega
      have hs : (xs.length : ℤ) = xs.sum := by
        push_cast at heq
        omega
      intro y hy
      rcases List.mem_cons.1 hy with rfl | hy2
      · exact hx1
      · exact (h2.1 hs) y hy2
    · intro hall1
      have hx1 : x = 1 := hall1 x (List.mem_cons_self x xs)
      have hs : (xs.length : ℤ) = xs.sum :=
        h2.2 (fun y hy => hall1 y (List.mem_cons_of_mem x hy))
      push_cast
      omega

/-- Claim C4 (amended): across one whole self-play run on a deterministic
replay environment, the score arguments of the driver-initiated advance
(`set_next`) calls — one per terminal/resign event, logged in `snInitLog` —
sum exactly to the root's final accumulated score: each node's accumulated
score flows to its parent exactly once, at the moment the node's own
exploration completes, with nothing dropped and nothing double-counted.
(Summing the arguments of every recursive `set_next` frame instead counts
each contribution once per ancestor: see the counterexample.) -/
theorem set_next_score_conservation (D : List ℕ → Bool) (O : List ℕ → Obs)
    (C : List ℕ → List ℤ) (Sch : List ℕ → ℕ → Bool × Bool) (oracle : ℕ → List ℤ)
    (simFuel loopFuel calls : ℕ) (s0 : List ℕ × ℕ) (file_no max_var1 : ℕ)
    (nrepeat : ℤ) (tauF : ℕ → ℝ) (resign : ℕ) (ms0 ms2 : MCTState (List ℕ × ℕ))
    (root2 : Pi_struct)
    (h0 : MCT.construct (replayEnv D O C Sch) s0 file_no max_var1 nrepeat tauF resign
      = some ms0)
    (hrun : selfPlay (replayEnv D O C Sch) oracle simFuel loopFuel calls ms0 ()
      = some ms2)
    (htree : ms2.tree = some root2) :
    ms2.snInitLog.sum = root2.score := by
  obtain ⟨rootF, htreeF, hsc, _, _, _⟩ :=
    selfPlay_conservation D O C Sch oracle simFuel loopFuel calls s0 file_no max_var1
      nrepeat tauF resign ms0 ms2 h0 hrun
  rw [htree] at htreeF
  injection htreeF with hh
  rw [hh]
  exact hsc

/-- Claim C5 (amended): for a root with repeat budget `R` on a deterministic
replay environment, the repeat counts retired by the terminal/resign events
(the `nrepeats[a]` consumed per event, logged in `consumedLog`) sum to
exactly `R` by the time `set_next` reports the sentinel `-1` at the root;
each event retires at least one repeat, so the number of root-to-terminal
traversals is at most `R`, with equality exactly when every event retires a
single repeat.  (One event can retire several repeats at once, so exactly
`R` traversals is not guaranteed: see the counterexample.) -/
theorem traversal_budget_spec (D : List ℕ → Bool) (O : List ℕ → Obs)
    (C : List ℕ → List ℤ) (Sch : List ℕ → ℕ → Bool × Bool) (oracle : ℕ → List ℤ)
    (simFuel loopFuel calls : ℕ) (s0 : List ℕ × ℕ) (file_no max_var1 : ℕ)
    (nrepeat : ℤ) (tauF : ℕ → ℝ) (resign : ℕ) (ms0 ms2 : MCTState (List ℕ × ℕ))
    (root2 : Pi_struct)
    (h0 : MCT.construct (replayEnv D O C Sch) s0 file_no max_var1 nrepeat tauF resign
      = some ms0)
    (hrun : selfPlay (replayEnv D O C Sch) oracle simFuel loopFuel calls ms0 ()
      = some ms2)
    (htree : ms2.tree = some root2) :
    ms2.consumedLog.sum = root2.rpt ∧ root2.rpt = nrepeat
    ∧ (∀ x ∈ ms2.consumedLog, 1 ≤ x)
    ∧ (ms2.consumedLog.length : ℤ) ≤ root2.rpt
    ∧ ((ms2.consumedLog.length : ℤ) = root2.rpt ↔ ∀ x ∈ ms2.consumedLog, x = 1) := by
  obtain ⟨rootF, htreeF, _, hcs, hrpt, hone⟩ :=
    selfPlay_conservation D O C Sch oracle simFuel loopFuel calls s0 file_no max_var1
      nrepeat tauF resign ms0 ms2 h0 hrun
  rw [htree] at htreeF
  injection htreeF with hh
  subst hh
  refine ⟨hcs, hrpt, hone, ?_, ?_⟩
  · rw [← hcs]
    exact length_le_sum_of_one_le _ hone
  · rw [← hcs]
    exact length_eq_sum_iff _ hone

/-! ## A concrete replay run exercising the conservation theorems -/

def wD : List ℕ → Bool := fun h => decide (1 ≤ h.length)

def wO : List ℕ → Obs := fun _ => ⟨[true, true], 0⟩

def wC : List ℕ → List ℤ := fun _ => [1, 1]

def wSch : List ℕ → ℕ → Bool × Bool := fun _ _ => (false, false)

def wOracle : ℕ → List ℤ := fun _ => [0, 1]

def msJunk : MCTState (List ℕ × ℕ) := ⟨none, [], ([], 0), ⟨[], 0⟩, 0, 0, 0, none, 0, 0, [], [], []⟩

def wMs0 : MCTState (List ℕ × ℕ) :=
  (MCT.construct (replayEnv wD wO wC wSch) ([], 0) 7 1 2 (fun _ => 1) 1000000).getD msJunk

def wMsF : MCTState (List ℕ × ℕ) :=
  (selfPlay (replayEnv wD wO wC wSch) wOracle 4 20 5 wMs0 ()).getD msJunk

def wRoot : Pi_struct := wMsF.tree.getD (Pi_struct.init 0 0 0 0 (fun _ => 0))

theorem set_next_score_conservation_witness : wMsF.snInitLog.sum = wRoot.score :=
  set_next_score_conservation wD wO wC wSch wOracle 4 20 5 ([], 0) 7 1 2 (fun _ => 1)
    1000000 wMs0 wMsF wRoot rfl rfl rfl

theorem traversal_budget_spec_witness :
    wMsF.consumedLog.sum = wRoot.rpt ∧ wRoot.rpt = 2 ∧ (∀ x ∈ wMsF.consumedLog, 1 ≤ x)
    ∧ (wMsF.consumedLog.length : ℤ) ≤ wRoot.rpt
    ∧ ((wMsF.consumedLog.length : ℤ) = wRoot.rpt ↔ ∀ x ∈ wMsF.consumedLog, x = 1) :=
  traversal_budget_spec wD wO wC wSch wOracle 4 20 5 ([], 0) 7 1 2 (fun _ => 1)
    1000000 wMs0 wMsF wRoot rfl rfl rfl

end GameSAT
